import Mathlib

/-! Email-template manager: the variable engine and the template store.

A shallow embedding of `server.js`: the placeholder engine
(`extractVariables`, `replaceVariables`), the preview handler and the
template listing query, followed by the properties proved about them.

JavaScript strings are modelled as lists of characters.  Every regular
expression of the engine is built from ASCII literals and the class `\w`,
so a match never starts or ends inside a character outside the ASCII
range.
-/

namespace Plantillas

/-! ## Strings and character classes -/

/-- A JavaScript string, as the list of its characters. -/
abbrev Str := List Char

/-- The class `\w` of a regular expression without the `u` and `i` flags:
`[A-Za-z0-9_]`. -/
def isWordChar (c : Char) : Bool := c.isAlphanum || c == '_'

/-- An identifier in the sense of the placeholder syntax: a non-empty run of
`\w` characters. -/
def isIdentifier (n : Str) : Bool := !n.isEmpty && n.all isWordChar

/-- The literal text matched by `\{\{`. -/
def openVar : Str := ['{', '{']

/-- The literal text matched by `\{\{\$json\.`. -/
def openAlias : Str := ['{', '{', '$', 'j', 's', 'o', 'n', '.']

/-- The literal text matched by `\}\}`. -/
def closeVar : Str := ['}', '}']

/-- The placeholder `{{n}}`. -/
def placeholder (n : Str) : Str := openVar ++ n ++ closeVar

/-- The alias placeholder `{{$json.n}}`. -/
def aliasPlaceholder (n : Str) : Str := openAlias ++ n ++ closeVar

/-! ## Matching at the current position -/

/-- One successful match of a regular expression at the current position:
the number of characters matched and the texts of its capture groups. -/
structure Match where
  len : Nat
  captures : List Str
deriving Repr, DecidableEq

/-- Removes the literal `p` from the front of `s`, if it is there. -/
def dropPrefix : Str → Str → Option Str
  | [], s => some s
  | _ :: _, [] => none
  | a :: p, b :: s => if a = b then dropPrefix p s else none

/-- Matches `lit(\w+)\}\}` at the front of `s`, where `lit` is a literal
opening.  The greedy `\w+` takes the whole run of word characters: giving one
back would leave a word character where `\}` is required, so backtracking
never produces another match. -/
def matchPlaceholder (lit : Str) (s : Str) : Option Match :=
  match dropPrefix lit s with
  | none => none
  | some t =>
    let w := t.takeWhile isWordChar
    if w = [] then none
    else match dropPrefix closeVar (t.dropWhile isWordChar) with
      | none => none
      | some _ => some ⟨lit.length + w.length + closeVar.length, [w]⟩

/-- The regular expression `/\{\{\$json\.(\w+)\}\}/` at the front of `s`. -/
def matchAlias (s : Str) : Option Match := matchPlaceholder openAlias s

/-- The regular expression `/\{\{([\w_]+)\}\}/` at the front of `s`. -/
def matchVariable (s : Str) : Option Match := matchPlaceholder openVar s

/-- A regular expression that is a plain literal, at the front of `s`. -/
def matchLiteral (lit : Str) (s : Str) : Option Match :=
  match dropPrefix lit s with
  | none => none
  | some _ => some ⟨lit.length, []⟩

/-! ## `String.prototype.replace` with a global regular expression -/

/-- The value of a decimal digit. -/
def digitValue (c : Char) : Nat := c.toNat - '0'.toNat

/-- The capture group with the given one-based index; a group that took no
part in the match gives the empty string. -/
def captureAt (captures : List Str) (index : Nat) : Str := captures.getD (index - 1) []

/-- Where the reading of a replacement template stands: in plain text, just
after a dollar sign, or after a dollar sign and a first digit. -/
inductive SubstState where
  | text
  | dollar
  | digit (d : Char)
deriving Repr, DecidableEq

/-- The abstract operation `GetSubstitution`, reading the replacement
template one character at a time.  `matched` is the matched text, `pre` the
subject before the match and `post` the subject after it.
`$$` is a dollar sign, `$&` the matched text, a dollar sign followed by a
backquote the text before the match, a dollar sign followed by a quote the
text after it, `$n` and `$nn` a capture group when the number names one (two
digits are read when they name a group, one otherwise); any other dollar sign
stands for itself (there are no named groups). -/
def expandTemplate (matched pre post : Str) (captures : List Str) :
    SubstState → Str → Str
  | .text, [] => []
  | .text, c :: r =>
    if c = '$' then expandTemplate matched pre post captures .dollar r
    else c :: expandTemplate matched pre post captures .text r
  | .dollar, [] => ['$']
  | .dollar, d :: r =>
    if d = '$' then '$' :: expandTemplate matched pre post captures .text r
    else if d = '&' then matched ++ expandTemplate matched pre post captures .text r
    else if d = Char.ofNat 96 then pre ++ expandTemplate matched pre post captures .text r
    else if d = Char.ofNat 39 then post ++ expandTemplate matched pre post captures .text r
    else if d.isDigit then expandTemplate matched pre post captures (.digit d) r
    else '$' :: d :: expandTemplate matched pre post captures .text r
  | .digit d, [] =>
    if 1 ≤ digitValue d ∧ digitValue d ≤ captures.length then
      captureAt captures (digitValue d)
    else ['$', d]
  | .digit d, e :: r =>
    if e.isDigit ∧ 10 * digitValue d + digitValue e ≤ captures.length then
      if 1 ≤ 10 * digitValue d + digitValue e then
        captureAt captures (10 * digitValue d + digitValue e)
          ++ expandTemplate matched pre post captures .text r
      else '$' :: d :: e :: expandTemplate matched pre post captures .text r
    else
      (if 1 ≤ digitValue d ∧ digitValue d ≤ captures.length then
        captureAt captures (digitValue d) else ['$', d])
      ++ (if e = '$' then expandTemplate matched pre post captures .dollar r
          else e :: expandTemplate matched pre post captures .text r)

/-- Whether a replacement text has a dollar sign followed by `$`, `&`, a
backquote or a quote: the patterns that `GetSubstitution` expands when the
regular expression has no capture group. -/
def dollarPattern : Str → Bool
  | [] => false
  | [_] => false
  | c :: d :: r =>
    (c = '$' && (d = '$' || d = '&' || d = Char.ofNat 96 || d = Char.ofNat 39)) ||
      dollarPattern (d :: r)

/-- The abstract operation `GetSubstitution` on a whole replacement
template. -/
def getSubstitution (matched pre post : Str) (captures : List Str) (template : Str) : Str :=
  expandTemplate matched pre post captures .text template

/-- The loop of `subject.replace(regex, replacement)` for a regular
expression with the `g` flag.  `m` is the regular expression tried at the
current position, `pre` the part of the subject already passed, and `skip`
the number of characters of the current match still to be passed over.
A position where `m` fails is copied; at a match the expanded replacement is
appended and the scan resumes after the match.  No regular expression of
this program matches the empty string. -/
def replaceGlobal (m : Str → Option Match) (replacement : Str) : Nat → Str → Str → Str
  | _, _, [] => []
  | skip + 1, pre, c :: t => replaceGlobal m replacement skip (pre ++ [c]) t
  | 0, pre, c :: t =>
    match m (c :: t) with
    | some μ =>
      getSubstitution ((c :: t).take μ.len) pre ((c :: t).drop μ.len) μ.captures replacement
        ++ replaceGlobal m replacement (μ.len - 1) (pre ++ [c]) t
    | none => c :: replaceGlobal m replacement 0 (pre ++ [c]) t

/-- The call `subject.replace(regex, replacement)`. -/
def replaceAll (m : Str → Option Match) (replacement : Str) (subject : Str) : Str :=
  replaceGlobal m replacement 0 [] subject

/-- The replacement template of the alias rewrite: open braces, the first
capture group, close braces. -/
def aliasTemplate : Str := ['{', '{', '$', '1', '}', '}']

/-- First statement of both engine functions:
`html.replace(/\{\{\$json\.(\w+)\}\}/g, '{{$1}}')`. -/
def normalizeAlias (html : Str) : Str := replaceAll matchAlias aliasTemplate html

/-! ## `extractVariables` -/

/-- The loop `while ((match = regex.exec(html)) !== null)` for the global
regular expression `/\{\{([\w_]+)\}\}/g`: the first capture group of every
match, in the order of the matches. -/
def execAll : Nat → Str → List Str
  | _, [] => []
  | skip + 1, _ :: t => execAll skip t
  | 0, c :: t =>
    match matchVariable (c :: t) with
    | some μ => μ.captures.headD [] :: execAll (μ.len - 1) t
    | none => execAll 0 t

/-- The method `Set.prototype.add` on a set kept in insertion order. -/
def setAdd (vars : List Str) (x : Str) : List Str :=
  if x ∈ vars then vars else vars ++ [x]

/-- The function `extractVariables(html)` of `server.js`. -/
def extractVariables (html : Str) : List Str :=
  (execAll 0 (normalizeAlias html)).foldl setAdd []

/-! ## `replaceVariables` -/

/-- The characters with a meaning in the syntax of a regular expression. -/
def isSyntaxChar (c : Char) : Bool :=
  c ∈ ['^', '$', Char.ofNat 92, '.', '*', '+', '?', '(', ')', '[', ']', '{', '}', '|']

/-- An item of a regular expression made of literal characters and dots:
`some c` is the character `c`, `none` is the dot. -/
abbrev Item := Option Char

/-- The characters that a dot does not match (there is no `s` flag): the line
terminators. -/
def isLineTerminator (c : Char) : Bool :=
  c.toNat = 0x0A || c.toNat = 0x0D || c.toNat = 0x2028 || c.toNat = 0x2029

/-- A regular expression made of literal characters and dots, at the front
of `s`; the result is the number of characters matched.  There is no `u`
flag, so a dot matches one UTF-16 code unit: a character of the basic plane
takes one dot, a character beyond it takes two dots in a row. -/
def matchItems : List Item → Str → Option Nat
  | [], _ => some 0
  | _ :: _, [] => none
  | some x :: items, c :: s =>
    if x = c then (matchItems items s).map (· + 1) else none
  | none :: items, c :: s =>
    if c.toNat < 0x10000 then
      if isLineTerminator c then none else (matchItems items s).map (· + 1)
    else
      match items with
      | none :: items' => (matchItems items' s).map (· + 1)
      | _ => none

/-- The match of a regular expression made of literal characters and dots;
it has no capture group. -/
def matchWildcard (items : List Item) (s : Str) : Option Match :=
  (matchItems items s).map fun len => ⟨len, []⟩

/-- What `new RegExp(...)` does with a template string that places the key,
unescaped, between a literal opening and `\}\}`: it builds an expression
that matches one literal text, it builds an expression of literal
characters and dots, it throws a `SyntaxError`, or it builds an expression
with other operators. -/
inductive Compiled where
  | literal (text : Str)
  | wildcard (items : List Item)
  | syntaxError
  | operators
deriving Repr, DecidableEq

/-- A key with an opening parenthesis that nothing closes: the key has `(`,
outside a character class and not escaped because the key has no `[` and no
backslash, and neither the key nor the `\}\}` after it has a `)`. -/
def unclosedGroup (key : Str) : Bool :=
  key.contains '(' && !key.contains ')' && !key.contains '[' &&
    !key.contains (Char.ofNat 92)

/-- The regular expression built by `new RegExp(...)` from a template string
that places `key` between a literal opening and `\}\}`.  The key is not
escaped.  A key without syntax characters gives a literal.  A key whose
only syntax characters are dots gives literal characters and dots.  A key
with an unclosed group makes the constructor throw.  For the other keys the
constructor throws or builds an expression with other operators, which the
model does not run. -/
def compileKey (lit key : Str) : Compiled :=
  if key.any isSyntaxChar then
    if key.all (fun c => c = '.' || !isSyntaxChar c) then
      .wildcard (lit.map some ++ key.map (fun c => if c = '.' then none else some c)
        ++ closeVar.map some)
    else if unclosedGroup key then .syntaxError
    else .operators
  else .literal (lit ++ key ++ closeVar)

/-- The body of the loop over `Object.entries(values)`: the two replacements
for one entry.  A missing value (`null`, `undefined`) or the empty string
gives the replacement `''`.  There is a result for the keys that give a
literal or literal characters and dots. -/
def replaceEntry (result : Str) (entry : Str × Option Str) : Option Str :=
  match compileKey openVar entry.1, compileKey openAlias entry.1 with
  | .literal regex1, .literal regex2 =>
    some (replaceAll (matchLiteral regex2) (entry.2.getD [])
      (replaceAll (matchLiteral regex1) (entry.2.getD []) result))
  | .wildcard regex1, .wildcard regex2 =>
    some (replaceAll (matchWildcard regex2) (entry.2.getD [])
      (replaceAll (matchWildcard regex1) (entry.2.getD []) result))
  | _, _ => none

/-- The loop over the entries, from the current result. -/
def replaceEntries : Str → List (Str × Option Str) → Option Str
  | result, [] => some result
  | result, e :: es =>
    match replaceEntry result e with
    | some r => replaceEntries r es
    | none => none

/-- The function `replaceVariables(html, values)` of `server.js`; `values`
is the list `Object.entries(values)`, in its order.  The result is the text
that the function returns, for the mappings whose keys all give a literal
or literal characters and dots. -/
def replaceVariables (html : Str) (values : List (Str × Option Str)) : Option Str :=
  replaceEntries (normalizeAlias html) values

/-- Whether some key has an unclosed group.  The loop of `replaceVariables`
then ends in the `SyntaxError` of `new RegExp`, at that key or at an earlier
one, whatever the text is: `replace` does not throw.  For the keys with
other operators the model does not say whether the constructor throws. -/
def replaceVariablesThrows (values : List (Str × Option Str)) : Bool :=
  values.any fun e => compileKey openVar e.1 = .syntaxError

/-- A name without braces and dollar signs. -/
def Plain (n : Str) : Prop := ∀ c ∈ n, c ≠ '{' ∧ c ≠ '}' ∧ c ≠ '$'


/-- Whether a placeholder naming `n`, in either syntax, starts at the front
of `s`. -/
def startsPlaceholder (n s : Str) : Bool :=
  (placeholder n).isPrefixOf s || (aliasPlaceholder n).isPrefixOf s

/-- The position in `s` at which the first placeholder naming `n` starts, in
either syntax `{{n}}` or `{{$json.n}}`; the length of `s` when there is
none.  This follows the wording of the specification, not the code. -/
def firstOccurrence (n : Str) : Str → Nat
  | [] => 0
  | c :: t => if startsPlaceholder n (c :: t) then 0 else firstOccurrence n t + 1


/-! ## The specification's reading of the two rewrites

These relations follow the wording of the specification ("every occurrence
is replaced, nothing else changes"); the theorems compare them with the
functions above, which follow the code. -/

/-- `ReplacedEvery p v s out`: `out` is `s` with every occurrence of the
literal text `p`, read from left to right, replaced by the text `v` verbatim,
and every other character unchanged. -/
inductive ReplacedEvery (p v : Str) : Str → Str → Prop where
  | nil : ReplacedEvery p v [] []
  | hit (r out : Str) : ReplacedEvery p v r out → ReplacedEvery p v (p ++ r) (v ++ out)
  | keep (c : Char) (t out : Str) : ¬ p <+: c :: t → ReplacedEvery p v t out →
      ReplacedEvery p v (c :: t) (c :: out)

/-- `AliasRewritten s out`: `out` is `s` with every occurrence of an alias
placeholder `{{$json.x}}`, `x` an identifier, rewritten to `{{x}}`, and every
other character unchanged. -/
inductive AliasRewritten : Str → Str → Prop where
  | nil : AliasRewritten [] []
  | hit (x r out : Str) : isIdentifier x = true → AliasRewritten r out →
      AliasRewritten (aliasPlaceholder x ++ r) (placeholder x ++ out)
  | keep (c : Char) (t out : Str) :
      (∀ x : Str, isIdentifier x = true → ¬ aliasPlaceholder x <+: c :: t) →
      AliasRewritten t out → AliasRewritten (c :: t) (c :: out)


/-! ## Template bodies without stray braces -/

/-- A piece of a template body: one character of plain text, a placeholder
`{{x}}`, or an alias placeholder `{{$json.x}}`. -/
inductive Piece where
  | text (c : Char)
  | var (x : Str)
  | aliasVar (x : Str)
deriving Repr, DecidableEq

/-- The text of a piece. -/
def Piece.render : Piece → Str
  | .text c => [c]
  | .var x => placeholder x
  | .aliasVar x => aliasPlaceholder x

/-- A piece is well formed when its text character is not a brace, or its
name is an identifier. -/
def Piece.wellFormed : Piece → Bool
  | .text c => c != '{' && c != '}'
  | .var x => isIdentifier x
  | .aliasVar x => isIdentifier x

/-- The text of a list of pieces.  A body is free of stray braces when it is
the text of well-formed pieces. -/
def renderPieces : List Piece → Str
  | [] => []
  | p :: ps => p.render ++ renderPieces ps

/-- The alias rewrite, on pieces. -/
def Piece.unalias : Piece → Piece
  | .aliasVar x => .var x
  | p => p

/-- The replacement of the placeholder `{{k}}` by the text `v`, on pieces. -/
def substPieces (k v : Str) : List Piece → List Piece
  | [] => []
  | .var x :: ps => if x = k then v.map Piece.text ++ substPieces k v ps
      else .var x :: substPieces k v ps
  | p :: ps => p :: substPieces k v ps

/-- The loop over the entries, on pieces. -/
def substAll : List Piece → List (Str × Option Str) → List Piece
  | ps, [] => ps
  | ps, e :: es => substAll (substPieces e.1 (e.2.getD []) ps) es

/-- A piece that is plain text or a placeholder of an identifier. -/
def Piece.simple : Piece → Bool
  | .text c => c != '{' && c != '}'
  | .var x => isIdentifier x
  | .aliasVar _ => false

/-- A replacement text without braces and dollar signs. -/
def Clean (v : Str) : Prop := ∀ c ∈ v, c ≠ '{' ∧ c ≠ '}' ∧ c ≠ '$'


/-! ## The store

The tables of the SQLite database, as lists of rows.  Identifiers are the
`TEXT` keys of the schema, compared as strings.  Timestamps are abstracted to
natural numbers, ordered as the `DATETIME` texts are. -/

/-- A row of the table `templates`. -/
structure Template where
  id : Str
  title : Str
  description : Str
  html : Str
  email_subject : Option Str
  category_id : Option Str
  created_at : Nat
  updated_at : Nat
deriving Repr, DecidableEq

/-- A row of the table `categories`. -/
structure Category where
  id : Str
  name : Str
  description : Option Str
  color : Option Str
  icon : Option Str
  order_index : Int
  created_at : Nat
deriving Repr, DecidableEq

/-- Modelled from the spec: the columns `color`, `icon` and `order_index` of
the table `tags`, which the `CREATE TABLE` statement of `server.js` does not
declare while its `INSERT` and `SELECT` statements use them.  The data model
of the specification gives `color` as a required hex string and `icon` as
optional.  The other columns are those of the `CREATE TABLE` statement. -/
structure Tag where
  id : Str
  name : Str
  color : Str
  icon : Option Str
  category_id : Option Str
  order_index : Int
  created_at : Nat
deriving Repr, DecidableEq

/-- A row of the join table `template_tags`. -/
structure TemplateTag where
  template_id : Str
  tag_id : Str
deriving Repr, DecidableEq

/-- The state of the database. -/
structure Store where
  templates : List Template
  categories : List Category
  tags : List Tag
  template_tags : List TemplateTag
deriving Repr, DecidableEq

/-- What a handler sends back: a JSON body with its status, an error status
set with `res.status(...)`, or an exception that the handler does not
catch. -/
inductive Reply (α : Type) where
  | json (status : Nat) (body : α)
  | fail (status : Nat)
  | thrown
deriving Repr, DecidableEq

/-- JavaScript truthiness of an optional string: present and not empty. -/
def truthy (p : Option Str) : Bool :=
  match p with
  | none => false
  | some s => !s.isEmpty

/-! ## `POST /api/templates/:id/preview` -/

/-- The query `SELECT * FROM templates WHERE id = ?` through `db.get`: the
first row with that key, if any. -/
def getTemplate (store : Store) (id : Str) : Option Template :=
  store.templates.find? (fun t => t.id = id)

/-- The body of the preview reply: the row, with `html` overwritten by the
rendered text, and `originalVariables`. -/
structure PreviewBody where
  row : Template
  html : Str
  originalVariables : List Str
deriving Repr, DecidableEq

/-- The handler of `POST /api/templates/:id/preview`, after
`authenticateToken` has let the request through; `vars` is the field
`variables` of the request body, absent when `none`.  The handler only reads the store; the
second component is the store after the call.  An exception of
`replaceVariables` is thrown inside the callback of `db.get` and nothing
catches it.  The reply is `none` where `replaceVariables` has no result in
the model. -/
def preview (store : Store) (id : Str) (vars : Option (List (Str × Option Str))) :
    Option (Reply PreviewBody) × Store :=
  match getTemplate store id with
  | none => (some (.fail 404), store)
  | some row =>
    if replaceVariablesThrows (vars.getD []) then (some .thrown, store)
    else
      match replaceVariables row.html (vars.getD []) with
      | none => (none, store)
      | some processedHtml =>
        (some (.json 200 ⟨row, processedHtml, extractVariables row.html⟩), store)

/-! ## `GET /api/templates` -/

/-- The right-hand side of a `LEFT JOIN` for one left row: the matching
rows, or a single `NULL` row when there is none. -/
def leftMatches {β : Type} (right : List β) (cond : β → Bool) : List (Option β) :=
  match right.filter cond with
  | [] => [none]
  | ms => ms.map some

/-- A row of `templates t LEFT JOIN categories c LEFT JOIN template_tags tt
LEFT JOIN tags tg`. -/
structure JoinRow where
  t : Template
  c : Option Category
  tt : Option TemplateTag
  tg : Option Tag
deriving Repr, DecidableEq

/-- The condition `ON tt.tag_id = tg.id`; it fails on the `NULL` row of
`template_tags`. -/
def tagJoinCond (tt : Option TemplateTag) (tg : Tag) : Bool :=
  match tt with
  | some x => x.tag_id = tg.id
  | none => false

/-- The `FROM` clause of the listing query, with its three `LEFT JOIN`s:
`ON t.category_id = c.id`, `ON t.id = tt.template_id`,
`ON tt.tag_id = tg.id`. -/
def joinRows (store : Store) : List JoinRow :=
  store.templates.flatMap fun t =>
    (leftMatches store.categories (fun c => t.category_id = some c.id)).flatMap fun c =>
      (leftMatches store.template_tags (fun tt => t.id = tt.template_id)).flatMap fun tt =>
        (leftMatches store.tags (tagJoinCond tt)).map fun tg => ⟨t, c, tt, tg⟩

/-- The method `String.prototype.split(',')`, from the current field `cur`. -/
def splitCommaFrom (cur : Str) : Str → List Str
  | [] => [cur]
  | c :: t => if c = ',' then cur :: splitCommaFrom [] t else splitCommaFrom (cur ++ [c]) t

/-- The method `String.prototype.split(',')`. -/
def splitComma (s : Str) : List Str := splitCommaFrom [] s

/-- The condition `t.id IN (SELECT DISTINCT template_id FROM template_tags
WHERE tag_id IN (...tagList))`. -/
def inTagSubquery (store : Store) (tagList : List Str) (t : Template) : Bool :=
  store.template_tags.any fun tt => tt.template_id = t.id && tagList.contains tt.tag_id

/-- The `WHERE` clause built from the query parameters `category` and `tags`:
each condition is added only when its parameter is truthy, and the conditions
are joined with `AND`. -/
def whereClause (store : Store) (category tags : Option Str) (r : JoinRow) : Bool :=
  (match category with
   | some c => if truthy category then r.t.category_id = some c else true
   | none => true) &&
  (match tags with
   | some s => if truthy tags then inTagSubquery store (splitComma s) r.t else true
   | none => true)

/-- The aggregate `GROUP_CONCAT(X)`: the non-`NULL` values joined with commas,
`NULL` when there is none. -/
def groupConcat (values : List (Option Str)) : Option Str :=
  match values.filterMap id with
  | [] => none
  | xs => some ([','].intercalate xs)

/-- A row of the result of the listing query: the columns of one group of
`GROUP BY t.id`. -/
structure QueryRow where
  t : Template
  category_name : Option Str
  category_color : Option Str
  category_icon : Option Str
  tag_ids : Option Str
  tag_names : Option Str
  tag_colors : Option Str
  tag_icons : Option Str
deriving Repr, DecidableEq

/-- The result row of one group: the bare columns are those of the first row
of the group, the aggregates run over the whole group. -/
def groupRow (first : JoinRow) (group : List JoinRow) : QueryRow :=
  { t := first.t
    category_name := first.c.map (·.name)
    category_color := first.c.bind (·.color)
    category_icon := first.c.bind (·.icon)
    tag_ids := groupConcat (group.map fun r => r.tg.map (·.id))
    tag_names := groupConcat (group.map fun r => r.tg.map (·.name))
    tag_colors := groupConcat (group.map fun r => r.tg.map (·.color))
    tag_icons := groupConcat (group.map fun r => r.tg.bind (·.icon)) }

/-- The clause `GROUP BY t.id`: one result row for every distinct `t.id` among
the rows. -/
def groupById (rows : List JoinRow) : List QueryRow :=
  (rows.map (·.t.id)).dedup.filterMap fun id =>
    match rows.filter (fun r => r.t.id = id) with
    | [] => none
    | first :: rest => some (groupRow first (first :: rest))

/-- The listing query:
`SELECT ... FROM ... [WHERE ...] GROUP BY t.id ORDER BY t.updated_at DESC`.
Rows with the same `updated_at` come in an order that SQL leaves open; the
model sorts stably. -/
def listQuery (store : Store) (category tags : Option Str) : List QueryRow :=
  (groupById ((joinRows store).filter (whereClause store category tags))).insertionSort
    (fun a b => b.t.updated_at ≤ a.t.updated_at)

/-- An entry of the `tags` field of a listed template.  A field is `none`
where JavaScript gives `undefined` or `null`. -/
structure TagEntry where
  id : Str
  name : Option Str
  color : Option Str
  icon : Option Str
deriving Repr, DecidableEq

/-- A listed template: the row, the columns of its category, and `tags`. -/
structure ListedTemplate where
  t : Template
  category_name : Option Str
  category_color : Option Str
  category_icon : Option Str
  tags : List TagEntry
deriving Repr, DecidableEq

/-- The body of `rows.forEach(row => ...)`: builds `row.tags` from the four
aggregate columns.  `none` stands for the `TypeError` of calling `split` on
`null`. -/
def processRow (row : QueryRow) : Option ListedTemplate :=
  if truthy row.tag_ids then
    match row.tag_ids, row.tag_names, row.tag_colors with
    | some ids, some names, some colors =>
      let tagIds := splitComma ids
      let tagNames := splitComma names
      let tagColors := splitComma colors
      let tagIcons := if truthy row.tag_icons then splitComma (row.tag_icons.getD []) else []
      some { t := row.t
             category_name := row.category_name
             category_color := row.category_color
             category_icon := row.category_icon
             tags := tagIds.enum.map fun (index, id) =>
               { id := id
                 name := tagNames.get? index
                 color := tagColors.get? index
                 icon := (tagIcons.get? index).filter (fun s => !s.isEmpty) } }
    | _, _, _ => none
  else
    some { t := row.t
           category_name := row.category_name
           category_color := row.category_color
           category_icon := row.category_icon
           tags := [] }

/-- The loop `rows.forEach(row => ...)`; an exception in one row ends it. -/
def processRows : List QueryRow → Option (List ListedTemplate)
  | [] => some []
  | row :: rows =>
    match processRow row, processRows rows with
    | some x, some xs => some (x :: xs)
    | _, _ => none

/-- The handler of `GET /api/templates`, after `authenticateToken` has let
the request through; `category` and `tags` are the query parameters. -/
def listTemplates (store : Store) (category tags : Option Str) : Reply (List ListedTemplate) :=
  match processRows (listQuery store category tags) with
  | some rows => .json 200 rows
  | none => .thrown


/-! ## An example store

The scenario of the specification: a category, two tags under it, a template
`Sale` with the body `<p>Hi {{name}}</p>` tagged `A` and `B`, and a second
template tagged `B` only. -/

/-- The template `Sale`. -/
def exampleTemplate : Template :=
  { id := "t1".toList, title := "Sale".toList, description := "".toList,
    html := "<p>Hi \x7b\x7bname\x7d\x7d</p>".toList, email_subject := none,
    category_id := some "c1".toList, created_at := 1, updated_at := 5 }

/-- A second template, without category. -/
def otherTemplate : Template :=
  { id := "t2".toList, title := "News".toList, description := "".toList,
    html := "<p>News</p>".toList, email_subject := none,
    category_id := none, created_at := 2, updated_at := 7 }

/-- The example state of the database. -/
def exampleStore : Store :=
  { templates := [exampleTemplate, otherTemplate]
    categories := [⟨"c1".toList, "Marketing".toList, none, some "#6366f1".toList, none, 1, 0⟩]
    tags := [⟨"A".toList, "Promo".toList, "#111111".toList, none, some "c1".toList, 1, 0⟩,
             ⟨"B".toList, "Info".toList, "#222222".toList, none, some "c1".toList, 2, 0⟩]
    template_tags := [⟨"t1".toList, "A".toList⟩, ⟨"t1".toList, "B".toList⟩,
                      ⟨"t2".toList, "B".toList⟩] }


/-! ## Writes to the store

`server.js` opens the database with `new sqlite3.Database(DB_PATH)` and never
runs `PRAGMA foreign_keys = ON`, so SQLite does not enforce the `REFERENCES`
clauses of the schema: no insert is refused for a missing parent row and no
`ON DELETE` action runs.  The statements below act on the tables as they are
written.  `CURRENT_TIMESTAMP` is the parameter `now`. -/

/-! ### Numbers

`order_index` values are integers.  The handlers read them into JavaScript
numbers, which are doubles, add in that arithmetic, and write the result
back. -/

/-- The number of low bits that a double drops from the natural number `a`:
none below `2 ^ 53`, and one more for every further binary digit.  `fuel`
bounds the count. -/
def droppedBits : Nat → Nat → Nat
  | 0, _ => 0
  | fuel + 1, a => if a < 2 ^ 53 then 0 else droppedBits fuel (a / 2) + 1

/-- The JavaScript number that stands for the integer `n`: the nearest
double, a tie going to the even significand.  Integers below `2 ^ 53` in
absolute value are exact.  The magnitudes of a double end below `2 ^ 1024`,
which no SQLite value reaches. -/
def toNumber (n : Int) : Int :=
  let a := n.natAbs
  let e := droppedBits 1024 a
  let q := a / 2 ^ e
  let r := a % 2 ^ e
  let q' := if 2 ^ e < 2 * r ∨ (2 * r = 2 ^ e ∧ q % 2 = 1) then q + 1 else q
  n.sign * ((q' * 2 ^ e : Nat) : Int)

/-- The JavaScript `x + y` on numbers with integer values. -/
def jsAdd (x y : Int) : Int := toNumber (x + y)

/-- The JavaScript `(maxOrder || 0) + 1` for the result `maxOrder` of a
`SELECT MAX(order_index)`, which is `NULL` when no row matches. -/
def nextOrderAfter (maxOrder : Option Int) : Int :=
  jsAdd
    (match maxOrder with
     | some m => if toNumber m = 0 then 0 else toNumber m
     | none => 0) 1

/-! ### `POST /api/templates/:id/tags` -/

/-- The statement `INSERT OR IGNORE INTO template_tags (template_id, tag_id)
VALUES (?, ?)`: a row whose primary key is already in the table is
ignored. -/
def insertOrIgnore (table : List TemplateTag) (row : TemplateTag) : List TemplateTag :=
  if row ∈ table then table else table ++ [row]

/-- The query `SELECT t.* FROM tags t INNER JOIN template_tags tt
ON t.id = tt.tag_id WHERE tt.template_id = ? ORDER BY t.name`. -/
def tagsOfTemplate (store : Store) (id : Str) : List Tag :=
  (store.tags.flatMap fun t =>
    (store.template_tags.filter fun tt => t.id = tt.tag_id && tt.template_id = id).map
      fun _ => t).insertionSort (fun a b => a.name ≤ b.name)

/-- The handler of `POST /api/templates/:id/tags`; `tagIds` is `none` when
the field of the body is not an array.  The rows of the template are
deleted, then one `INSERT OR IGNORE` runs for every element of `tagIds`. -/
def setTags (store : Store) (id : Str) (tagIds : Option (List Str)) :
    Reply (List Tag) × Store :=
  match tagIds with
  | none => (.fail 400, store)
  | some ids =>
    let deleted : Store :=
      { store with template_tags := store.template_tags.filter fun tt => tt.template_id ≠ id }
    if ids.isEmpty then (.json 200 [], deleted)
    else
      let inserted : Store :=
        { deleted with
          template_tags :=
            ids.foldl (fun table tagId => insertOrIgnore table ⟨id, tagId⟩)
              deleted.template_tags }
      (.json 200 (tagsOfTemplate inserted id), inserted)

/-! ### `POST /api/templates/assign-category` -/

/-- The handler of `POST /api/templates/assign-category`; `templateIds` is
`none` when the field is not an array, `categoryId` is `none` for `null` or a
missing field.  The body of the reply is `affected`, the number of rows that
the `UPDATE ... WHERE id IN (...)` changed. -/
def assignCategory (store : Store) (templateIds : Option (List Str))
    (categoryId : Option Str) (now : Nat) : Reply Nat × Store :=
  match templateIds with
  | none => (.fail 400, store)
  | some ids =>
    if ids.length = 0 then (.fail 400, store)
    else
      (.json 200 (store.templates.filter fun t => t.id ∈ ids).length,
        { store with
          templates := store.templates.map fun t =>
            if t.id ∈ ids then { t with category_id := categoryId, updated_at := now }
            else t })

/-! ### `DELETE /api/categories/:id` -/

/-- The handler of `DELETE /api/categories/:id`: first
`UPDATE templates SET category_id = NULL WHERE category_id = ?`, then
`DELETE FROM categories WHERE id = ?`, and status 404 when that statement
changed no row.  No statement touches the table `tags`. -/
def deleteCategory (store : Store) (id : Str) : Reply Unit × Store :=
  let cleared : Store :=
    { store with
      templates := store.templates.map fun t =>
        if t.category_id = some id then { t with category_id := none } else t }
  let deleted : Store :=
    { cleared with categories := cleared.categories.filter fun c => c.id ≠ id }
  if (cleared.categories.filter fun c => c.id = id).length = 0 then (.fail 404, deleted)
  else (.json 200 (), deleted)

/-! ### `PUT /api/categories/reorder` -/

/-- The statement `UPDATE categories SET order_index = ? WHERE id = ?`. -/
def setCategoryOrder (categories : List Category) (id : Str) (order_index : Int) :
    List Category :=
  categories.map fun c => if c.id = id then { c with order_index := order_index } else c

/-- The loop `orders.forEach(({ id, order_index }) => stmt.run(order_index, id))`,
from the write with number `i`.  There is no transaction: every `stmt.run`
is committed on its own.  `writeFails i` tells whether the write with number
`i` fails in the database engine; a failed write changes nothing and the
loop goes on. -/
def runCategoryOrders (writeFails : Nat → Bool) :
    Nat → List Category → List (Str × Int) → List Category
  | _, categories, [] => categories
  | i, categories, (id, order_index) :: rest =>
    runCategoryOrders writeFails (i + 1)
      (if writeFails i then categories else setCategoryOrder categories id order_index) rest

/-- The handler of `PUT /api/categories/reorder`; `orders` is `none` when the
field is not an array.  An error of a `stmt.run` has no callback to go to:
it is raised as an `error` event that nothing listens to. -/
def reorderCategories (writeFails : Nat → Bool) (store : Store)
    (orders : Option (List (Str × Int))) : Reply Unit × Store :=
  match orders with
  | none => (.fail 400, store)
  | some entries =>
    let written : Store :=
      { store with categories := runCategoryOrders writeFails 0 store.categories entries }
    if (List.range entries.length).any writeFails then (.thrown, written)
    else (.json 200 (), written)

/-! ### `PUT /api/tags/reorder` -/

/-- The statement
`UPDATE tags SET order_index = ? WHERE id = ? AND category_id = ?`. -/
def setTagOrder (tags : List Tag) (category_id id : Str) (order_index : Int) : List Tag :=
  tags.map fun t =>
    if t.id = id ∧ t.category_id = some category_id then { t with order_index := order_index }
    else t

/-- The handler of `PUT /api/tags/reorder`: status 400 unless `category_id`
is truthy and `orders` is an array; otherwise the updates run between
`BEGIN` and `COMMIT`. -/
def reorderTags (store : Store) (category_id : Option Str)
    (orders : Option (List (Str × Int))) : Reply Unit × Store :=
  match category_id, orders with
  | some c, some entries =>
    if truthy (some c) then
      (.json 200 (),
        { store with
          tags := entries.foldl (fun tags e => setTagOrder tags c e.1 e.2) store.tags })
    else (.fail 400, store)
  | _, _ => (.fail 400, store)

/-! ### `POST /api/tags` -/

/-- The fields of the body of `POST /api/tags`. -/
structure TagRequest where
  name : Option Str
  color : Option Str
  icon : Option Str
  category_id : Option Str
deriving Repr, DecidableEq

/-- The value `a || b` for an optional string `a`. -/
def orElse (a : Option Str) (b : Str) : Str :=
  match a with
  | some s => if s.isEmpty then b else s
  | none => b

/-- The query `SELECT MAX(order_index) as maxOrder FROM tags
WHERE category_id = ?`: `NULL` when no row matches. -/
def maxTagOrder (tags : List Tag) (category_id : Str) : Option Int :=
  ((tags.filter fun t => t.category_id = some category_id).map (·.order_index)).max?

/-- The handler of `POST /api/tags`; `uuid` is the value of `uuidv4()`.
Status 400 without a truthy `category_id`, 404 when no category has that id;
then `nextOrder = (maxOrder || 0) + 1`, in the arithmetic of JavaScript
numbers, and the `INSERT`, which fails on a
missing name (`NOT NULL`, status 500) and on a name or key already in the
table (`UNIQUE`, status 400). -/
def createTag (store : Store) (req : TagRequest) (uuid : Str) (now : Nat) :
    Reply Tag × Store :=
  match req.category_id with
  | none => (.fail 400, store)
  | some category_id =>
    if !truthy (some category_id) then (.fail 400, store)
    else
      match store.categories.find? (fun c => c.id = category_id) with
      | none => (.fail 404, store)
      | some _ =>
        let maxOrder := maxTagOrder store.tags category_id
        let nextOrder : Int := nextOrderAfter maxOrder
        match req.name with
        | none => (.fail 500, store)
        | some name =>
          let id := "tag-".toList ++ uuid
          if store.tags.any (fun t => t.name = name || t.id = id) then (.fail 400, store)
          else
            let row : Tag :=
              { id := id, name := name, color := orElse req.color "#9ca3af".toList,
                icon := (req.icon.filter fun s => !s.isEmpty),
                category_id := some category_id, order_index := nextOrder,
                created_at := now }
            (.json 201 row, { store with tags := store.tags ++ [row] })

/-! ### `POST /api/templates/:id/send` -/

/-- The two environment variables read by the send handler. -/
structure MailEnv where
  EMAIL_USER : Option Str
  EMAIL_PASS : Option Str
deriving Repr, DecidableEq

/-- The argument of `transporter.sendMail`. -/
structure MailOptions where
  sender : Str
  recipient : Str
  subject : Str
  html : Str
deriving Repr, DecidableEq

/-- The result of a delivery. -/
structure MailInfo where
  messageId : Str
  accepted : List Str
deriving Repr, DecidableEq

/-- The `code` of the error with which `sendMail` rejects. -/
inductive MailFailure where
  | EAUTH
  | ECONNECTION
  | other
deriving Repr, DecidableEq

/-- What the send handler does to the outside, in order. -/
inductive Effect where
  | readTemplate (id : Str)
  | sendMail (options : MailOptions)
  | touchTemplate (id : Str)
deriving Repr, DecidableEq

/-- The replies of the send handler: 400, the 500 of a missing
configuration, 404, the three 500 of a failed delivery, and success. -/
inductive SendReply where
  | badRequest
  | notConfigured
  | notFound
  | authError
  | connectionError
  | sendError
  | sent (info : MailInfo)
deriving Repr, DecidableEq

/-- The handler of `POST /api/templates/:id/send`, after `authenticateToken`
has let the request through.  `recipient` is the field `to` of the body and
`transport` stands for `transporter.sendMail`.
An exception of `replaceVariables` is caught by the `catch` of the handler,
whose last branch replies.  The result is the reply (`none` where
`replaceVariables` has no result in the model), the store after the call,
and the effects in order. -/
def send (env : MailEnv) (transport : MailOptions → Except MailFailure MailInfo)
    (store : Store) (id : Str) (recipient subject : Option Str)
    (vars : Option (List (Str × Option Str))) (now : Nat) :
    Option SendReply × Store × List Effect :=
  if !truthy recipient || !truthy subject then (some .badRequest, store, [])
  else if !truthy env.EMAIL_USER || !truthy env.EMAIL_PASS then
    (some .notConfigured, store, [])
  else
    match getTemplate store id with
    | none => (some .notFound, store, [.readTemplate id])
    | some template =>
      if replaceVariablesThrows (vars.getD []) then
        (some .sendError, store, [.readTemplate id])
      else
        match replaceVariables template.html (vars.getD []) with
        | none => (none, store, [.readTemplate id])
        | some processedHtml =>
          let mailOptions : MailOptions :=
            { sender := "\"123 Action Barcelona\" <".toList ++ env.EMAIL_USER.getD [] ++ ">".toList,
              recipient := recipient.getD [], subject := subject.getD [],
              html := processedHtml }
          match transport mailOptions with
          | .ok info =>
            (some (.sent info),
              { store with
                templates := store.templates.map fun t =>
                  if t.id = id then { t with updated_at := now } else t },
              [.readTemplate id, .sendMail mailOptions, .touchTemplate id])
          | .error .EAUTH =>
            (some .authError, store, [.readTemplate id, .sendMail mailOptions])
          | .error .ECONNECTION =>
            (some .connectionError, store, [.readTemplate id, .sendMail mailOptions])
          | .error .other =>
            (some .sendError, store, [.readTemplate id, .sendMail mailOptions])


/-- The value of the last entry of `orders` that names `id`, if any.  This
follows the wording of the specification, not the code. -/
def lastOrderFor (orders : List (Str × Int)) (id : Str) : Option Int :=
  (orders.reverse.find? fun e => e.1 = id).map (·.2)


/-! ## Creating and updating templates

`POST /api/templates` and `PUT /api/templates/:id` run the validator chains
of `utils/security.js` (`templateValidators`), then `handleValidationErrors`,
then the handler.  The fields of the body are taken as strings or absent;
the field `tags`, which neither handler reads, is left out.  `DOMPurify` is
a library: both uses of it are parameters. -/

/-- White space as `String.prototype.trim` and the `\s` class behind
validator's `trim` see it. -/
def isWhiteSpace (c : Char) : Bool :=
  let n := c.toNat
  n = 9 || n = 10 || n = 11 || n = 12 || n = 13 || n = 32 || n = 0xA0 || n = 0x1680 ||
  (0x2000 ≤ n && n ≤ 0x200A) || n = 0x2028 || n = 0x2029 || n = 0x202F ||
  n = 0x205F || n = 0x3000 || n = 0xFEFF

/-- Removes the white space at both ends, as `trim()` does. -/
def trim (s : Str) : Str :=
  ((s.dropWhile isWhiteSpace).reverse.dropWhile isWhiteSpace).reverse

/-- The JavaScript `a || b` on optional strings: `a` when it is present and
not empty, else `b`. -/
def jsOr (a b : Option Str) : Option Str :=
  if truthy a then a else b

/-- The fields that the two template handlers read from the body. -/
structure TemplateRequest where
  name : Option Str
  title : Option Str
  description : Option Str
  html : Option Str
  category_id : Option Str
  email_subject : Option Str
deriving Repr, DecidableEq

/-- The sanitizer of `category_id` in both chains: `''` stays, any other
value is trimmed; the chain is skipped when the field is absent. -/
def sanitizeCategoryId (category_id : Option Str) : Option Str :=
  category_id.map fun v => if v.isEmpty then [] else trim v

/-- The chains of `templateValidators.create` and `handleValidationErrors`:
the body as the sanitizers leave it, or `none` for the reply with status
400.  The sanitizer of `name` takes `(name || title).trim()`, copies it to
`title` when `title` is missing or empty, and the chain then requires 1 to
100 characters of `name`. -/
def validateCreate (purify : Str → Str) (body : TemplateRequest) : Option TemplateRequest :=
  let v := body.name.getD []
  let t := body.title.getD []
  let normalized := trim (if v.isEmpty then t else v)
  let title := if !truthy body.title && !normalized.isEmpty then some normalized else body.title
  let name := trim normalized
  let email_subject := body.email_subject.map trim
  let nameValid := !name.isEmpty && (1 ≤ name.length && name.length ≤ 100)
  let subjectValid :=
    match email_subject with
    | none => true
    | some s => decide (s.length ≤ 200)
  let htmlValid := truthy body.html
  if nameValid && subjectValid && htmlValid then
    some
      { name := some name, title := title, description := body.description,
        html := body.html.map purify,
        category_id := sanitizeCategoryId body.category_id,
        email_subject := email_subject }
  else none

/-- The row that the handlers send back: the template with the three columns
of its category (`LEFT JOIN categories c ON t.category_id = c.id`). -/
structure TemplateRow where
  t : Template
  category_name : Option Str
  category_color : Option Str
  category_icon : Option Str
deriving Repr, DecidableEq

/-- The query `SELECT t.*, c.name ..., c.color ..., c.icon ... WHERE t.id = ?`
through `db.get`, for a row known to be in the table. -/
def selectTemplateRow (store : Store) (t : Template) : TemplateRow :=
  match store.categories.find? (fun c => t.category_id = some c.id) with
  | none => { t := t, category_name := none, category_color := none, category_icon := none }
  | some c =>
    { t := t, category_name := some c.name, category_color := c.color,
      category_icon := c.icon }

/-- The handler of `POST /api/templates` behind its validators; `uuid` is
the value of `uuidv4()` and `now` that of `CURRENT_TIMESTAMP`.
`templateName = name || title`, `subject = email_subject || templateName`,
`category_id || null`; the `INSERT` fails (status 500) on a missing
description (`NOT NULL`) and on a key already in the table. -/
def createTemplate (purify sanitizeHTML : Str → Str) (store : Store)
    (body : TemplateRequest) (uuid : Str) (now : Nat) : Reply TemplateRow × Store :=
  match validateCreate purify body with
  | none => (.fail 400, store)
  | some req =>
    let templateName := jsOr req.name req.title
    let html := sanitizeHTML (req.html.getD [])
    let subject := jsOr req.email_subject templateName
    match templateName, req.description with
    | some title, some description =>
      if store.templates.any (fun t => t.id = uuid) then (.fail 500, store)
      else
        let row : Template :=
          { id := uuid, title := title, description := description, html := html,
            email_subject := subject, category_id := jsOr req.category_id none,
            created_at := now, updated_at := now }
        let store' := { store with templates := store.templates ++ [row] }
        (.json 201 (selectTemplateRow store' row), store')
    | _, _ => (.fail 500, store)

/-- The chains of `templateValidators.update` and `handleValidationErrors`.
Every chain is skipped when its field is absent.  The sanitizer of `title`
stores `title.trim() || name.trim()` and checks nothing; only `name` has to
have 1 to 100 characters. -/
def validateUpdate (purify : Str → Str) (body : TemplateRequest) : Option TemplateRequest :=
  let title :=
    body.title.map fun value =>
      let t := trim value
      let n := trim (body.name.getD [])
      if t.isEmpty then n else t
  let name := body.name.map trim
  let email_subject := body.email_subject.map trim
  let nameValid :=
    match name with
    | none => true
    | some n => !n.isEmpty && (1 ≤ n.length && n.length ≤ 100)
  let subjectValid :=
    match email_subject with
    | none => true
    | some s => decide (s.length ≤ 200)
  let htmlValid :=
    match body.html with
    | none => true
    | some h => !h.isEmpty
  if nameValid && subjectValid && htmlValid then
    some
      { name := name, title := title, description := body.description,
        html := body.html.map purify,
        category_id := sanitizeCategoryId body.category_id,
        email_subject := email_subject }
  else none

/-- The title that the update handler binds:
`(typeof title === 'string' && title.trim()) ||
 (typeof name === 'string' && name.trim()) || title`. -/
def updateTitle (req : TemplateRequest) : Option Str :=
  jsOr (req.title.map trim) (jsOr (req.name.map trim) req.title)

/-- The handler of `PUT /api/templates/:id` behind its validators.  The
`UPDATE` binds every column from the body, an absent field as `NULL`:
status 404 when no row has the key, status 500 when `title`, `description`
or `html` would become `NULL` (`NOT NULL`), and then nothing is written. -/
def updateTemplate (purify sanitizeHTML : Str → Str) (store : Store) (id : Str)
    (body : TemplateRequest) (now : Nat) : Reply TemplateRow × Store :=
  match validateUpdate purify body with
  | none => (.fail 400, store)
  | some req =>
    let title := updateTitle req
    let html := if truthy req.html then req.html.map sanitizeHTML else req.html
    let subject := jsOr req.email_subject title
    match getTemplate store id with
    | none => (.fail 404, store)
    | some old =>
      match title, req.description, html with
      | some title, some description, some html =>
        let write (t : Template) : Template :=
          if t.id = id then
            { t with title := title, description := description, html := html,
                     category_id := req.category_id, email_subject := subject,
                     updated_at := now }
          else t
        let store' := { store with templates := store.templates.map write }
        (.json 200 (selectTemplateRow store' (write old)), store')
      | _, _, _ => (.fail 500, store)

/-- The handler of `DELETE /api/templates/:id`: status 404 when no row has
the key. -/
def deleteTemplate (store : Store) (id : Str) : Reply Unit × Store :=
  if !store.templates.any (fun t => t.id = id) then (.fail 404, store)
  else (.json 200 (), { store with templates := store.templates.filter fun t => t.id ≠ id })

/-- A template whose stored subject differs from its title. -/
def subjectTemplate : Template :=
  { id := "t3".toList, title := "Sale".toList, description := "Summer".toList,
    html := "<p>Sale</p>".toList, email_subject := some "Big sale today".toList,
    category_id := some "c1".toList, created_at := 3, updated_at := 3 }

/-- The example state with that template alone in the table `templates`. -/
def subjectStore : Store := { exampleStore with templates := [subjectTemplate] }

/-- A body with no field. -/
def emptyRequest : TemplateRequest :=
  { name := none, title := none, description := none, html := none, category_id := none,
    email_subject := none }

/-! ## Categories: create and list -/

/-- The sanitizer `escape()` of validator: the characters `&`, `"`,
`'`, `<`, `>`, `/`, the backslash and the backquote become HTML
entities. -/
def escapeChar (c : Char) : Str :=
  if c = '&' then "&amp;".toList
  else if c = Char.ofNat 34 then "&quot;".toList
  else if c = Char.ofNat 39 then "&#x27;".toList
  else if c = '<' then "&lt;".toList
  else if c = '>' then "&gt;".toList
  else if c = '/' then "&#x2F;".toList
  else if c = Char.ofNat 92 then "&#x5C;".toList
  else if c = Char.ofNat 96 then "&#96;".toList
  else [c]

/-- The sanitizer `escape()` on a string. -/
def escapeHtml (s : Str) : Str := s.flatMap escapeChar

/-- The fields of the body of `POST /api/categories`. -/
structure CategoryRequest where
  name : Option Str
  description : Option Str
  color : Option Str
  icon : Option Str
deriving Repr, DecidableEq

/-- The chains of `categoryValidators.create` and `handleValidationErrors`:
the name is trimmed, has to have 1 to 50 characters and is then escaped; a
description, when present, is trimmed, has at most 200 characters and is
escaped.  `none` stands for the reply with status 400. -/
def validateCategory (body : CategoryRequest) : Option CategoryRequest :=
  let name := trim (body.name.getD [])
  let description := body.description.map trim
  let nameValid := !name.isEmpty && (1 ≤ name.length && name.length ≤ 50)
  let descriptionValid :=
    match description with
    | none => true
    | some d => decide (d.length ≤ 200)
  if nameValid && descriptionValid then
    some { body with name := some (escapeHtml name), description := description.map escapeHtml }
  else none

/-- The query `SELECT MAX(order_index) as maxOrder FROM categories`. -/
def maxCategoryOrder (categories : List Category) : Option Int :=
  (categories.map (·.order_index)).max?

/-- The handler of `POST /api/categories` behind its validators; `uuid` is
the value of `uuidv4()`.  `nextOrder = (row?.maxOrder || 0) + 1`, in the
arithmetic of JavaScript numbers; the
`INSERT` fails with status 400 on a name or key already in the table
(`UNIQUE`).  The column `description` is not written. -/
def createCategory (store : Store) (body : CategoryRequest) (uuid : Str) (now : Nat) :
    Reply Category × Store :=
  match validateCategory body with
  | none => (.fail 400, store)
  | some req =>
    let id := "cat-".toList ++ uuid
    let nextOrder : Int := nextOrderAfter (maxCategoryOrder store.categories)
    let name := req.name.getD []
    if store.categories.any (fun c => c.name = name || c.id = id) then (.fail 400, store)
    else
      let row : Category :=
        { id := id, name := name, description := none,
          color := some (orElse req.color "#6366f1".toList),
          icon := (req.icon.filter fun s => !s.isEmpty),
          order_index := nextOrder, created_at := now }
      (.json 201 row, { store with categories := store.categories ++ [row] })

/-- The handler of `GET /api/categories`:
`SELECT * FROM categories ORDER BY order_index ASC`. -/
def listCategories (store : Store) : List Category :=
  store.categories.insertionSort fun a b => a.order_index ≤ b.order_index

/-- The handler of `DELETE /api/tags/:id`: the join rows of the tag are
deleted first, then the tag; status 404 when no tag has the key. -/
def deleteTag (store : Store) (id : Str) : Reply Unit × Store :=
  let template_tags := store.template_tags.filter fun tt => tt.tag_id ≠ id
  if !store.tags.any (fun t => t.id = id) then
    (.fail 404, { store with template_tags := template_tags })
  else
    (.json 200 (),
      { store with template_tags := template_tags,
                   tags := store.tags.filter fun t => t.id ≠ id })

/-! ## Access control

Every route of `server.js` but the login is registered with the middleware
`authenticateToken` in front of its handler.  `jwt.verify` is a library:
`verify` gives the payload of a token that it accepts. -/

/-- What a middleware does: it sends a reply with a status of its own, or it
calls `next()` and leaves a value for the handlers that follow. -/
inductive Middleware (α : Type) where
  | reply (status : Nat)
  | next (value : α)
deriving Repr, DecidableEq

/-- The payload of a token, as the login signs it. -/
structure TokenUser where
  id : Str
  username : Str
  role : Str
deriving Repr, DecidableEq

/-- The items of `s.split(' ')`, `cur` being the item read so far. -/
def splitSpaceFrom (cur : Str) : Str → List Str
  | [] => [cur]
  | c :: rest => if c = ' ' then cur :: splitSpaceFrom [] rest else splitSpaceFrom (cur ++ [c]) rest

/-- The value `authHeader && authHeader.split(' ')[1]`. -/
def bearerToken (authorization : Option Str) : Option Str :=
  match authorization with
  | none => none
  | some authHeader => if authHeader.isEmpty then none else (splitSpaceFrom [] authHeader)[1]?

/-- The middleware `authenticateToken`: status 401 without a token, status
403 for a token that `jwt.verify` refuses, else `req.user` is the payload
and the next handler runs. -/
def authenticateToken (verify : Str → Option TokenUser) (authorization : Option Str) :
    Middleware TokenUser :=
  match bearerToken authorization with
  | none => .reply 401
  | some token =>
    if token.isEmpty then .reply 401
    else
      match verify token with
      | none => .reply 403
      | some user => .next user

/-- A route `app.METHOD(path, authenticateToken, ..., handler)`: the reply
of the middleware with the store untouched, or what the handler does with
`req.user`. -/
def route {α : Type} (verify : Str → Option TokenUser) (authorization : Option Str)
    (store : Store) (handler : TokenUser → α × Store) : Middleware α × Store :=
  match authenticateToken verify authorization with
  | .reply status => (.reply status, store)
  | .next user => (.next (handler user).1, (handler user).2)

/-- The middleware `createLimiter`, made by `rateLimit` with
`windowMs: 15 * 60 * 1000` and `max: 30`, which the create routes of users,
templates and categories share.  `hits` is the number of earlier requests
of the same address that reached the limiter within the window; the limiter
counts this request and replies 429 when the count is above `max`. -/
def createLimiter (hits : Nat) : Middleware Unit :=
  if hits + 1 > 30 then .reply 429 else .next ()

/-- A route `app.post(path, authenticateToken, createLimiter, ..., handler)`:
the reply of the first middleware that sends one, with the store untouched,
or what the handler does. -/
def limitedRoute {α : Type} (verify : Str → Option TokenUser) (authorization : Option Str)
    (hits : Nat) (store : Store) (handler : TokenUser → α × Store) :
    Middleware α × Store :=
  match authenticateToken verify authorization with
  | .reply status => (.reply status, store)
  | .next user =>
    match createLimiter hits with
    | .reply status => (.reply status, store)
    | .next _ => (.next (handler user).1, (handler user).2)

/-! The mutation routes whose handlers are modelled above.  None of these
handlers reads `req.user`. -/

/-- The route `POST /api/templates`. -/
def routeCreateTemplate (verify : Str → Option TokenUser) (authorization : Option Str)
    (hits : Nat) (purify sanitizeHTML : Str → Str) (store : Store) (body : TemplateRequest)
    (uuid : Str) (now : Nat) : Middleware (Reply TemplateRow) × Store :=
  limitedRoute verify authorization hits store fun _ =>
    createTemplate purify sanitizeHTML store body uuid now

/-- The route `PUT /api/templates/:id`. -/
def routeUpdateTemplate (verify : Str → Option TokenUser) (authorization : Option Str)
    (purify sanitizeHTML : Str → Str) (store : Store) (id : Str) (body : TemplateRequest)
    (now : Nat) : Middleware (Reply TemplateRow) × Store :=
  route verify authorization store fun _ => updateTemplate purify sanitizeHTML store id body now

/-- The route `DELETE /api/templates/:id`. -/
def routeDeleteTemplate (verify : Str → Option TokenUser) (authorization : Option Str)
    (store : Store) (id : Str) : Middleware (Reply Unit) × Store :=
  route verify authorization store fun _ => deleteTemplate store id

/-- The route `POST /api/categories`. -/
def routeCreateCategory (verify : Str → Option TokenUser) (authorization : Option Str)
    (hits : Nat) (store : Store) (body : CategoryRequest) (uuid : Str) (now : Nat) :
    Middleware (Reply Category) × Store :=
  limitedRoute verify authorization hits store fun _ => createCategory store body uuid now

/-- The route `DELETE /api/categories/:id`. -/
def routeDeleteCategory (verify : Str → Option TokenUser) (authorization : Option Str)
    (store : Store) (id : Str) : Middleware (Reply Unit) × Store :=
  route verify authorization store fun _ => deleteCategory store id

/-- The route `PUT /api/categories/reorder`. -/
def routeReorderCategories (verify : Str → Option TokenUser) (authorization : Option Str)
    (writeFails : Nat → Bool) (store : Store) (orders : Option (List (Str × Int))) :
    Middleware (Reply Unit) × Store :=
  route verify authorization store fun _ => reorderCategories writeFails store orders

/-- The route `POST /api/templates/assign-category`. -/
def routeAssignCategory (verify : Str → Option TokenUser) (authorization : Option Str)
    (store : Store) (templateIds : Option (List Str)) (categoryId : Option Str) (now : Nat) :
    Middleware (Reply Nat) × Store :=
  route verify authorization store fun _ => assignCategory store templateIds categoryId now

/-- The route `POST /api/tags`. -/
def routeCreateTag (verify : Str → Option TokenUser) (authorization : Option Str)
    (store : Store) (body : TagRequest) (uuid : Str) (now : Nat) :
    Middleware (Reply Tag) × Store :=
  route verify authorization store fun _ => createTag store body uuid now

/-- The route `DELETE /api/tags/:id`. -/
def routeDeleteTag (verify : Str → Option TokenUser) (authorization : Option Str)
    (store : Store) (id : Str) : Middleware (Reply Unit) × Store :=
  route verify authorization store fun _ => deleteTag store id

/-- The route `PUT /api/tags/reorder`. -/
def routeReorderTags (verify : Str → Option TokenUser) (authorization : Option Str)
    (store : Store) (category_id : Option Str) (orders : Option (List (Str × Int))) :
    Middleware (Reply Unit) × Store :=
  route verify authorization store fun _ => reorderTags store category_id orders

/-- The route `POST /api/templates/:id/tags`. -/
def routeSetTags (verify : Str → Option TokenUser) (authorization : Option Str)
    (store : Store) (id : Str) (tagIds : Option (List Str)) :
    Middleware (Reply (List Tag)) × Store :=
  route verify authorization store fun _ => setTags store id tagIds

/-- The route `POST /api/templates/:id/send`; the reply comes with the
effects of the handler. -/
def routeSend (verify : Str → Option TokenUser) (authorization : Option Str)
    (env : MailEnv) (transport : MailOptions → Except MailFailure MailInfo) (store : Store)
    (id : Str) (recipient subject : Option Str) (vars : Option (List (Str × Option Str)))
    (now : Nat) : Middleware (Option SendReply × List Effect) × Store :=
  route verify authorization store fun _ =>
    (((send env transport store id recipient subject vars now).1,
        (send env transport store id recipient subject vars now).2.2),
      (send env transport store id recipient subject vars now).2.1)

/-! ## The filter of the client

`filterTemplates` in `public/app.js` filters the list that the client got
from `GET /api/templates`, by the selected category (`'all'` for none) and
the set of selected tag ids. -/

/-- The value `String(template.category_id)`: `"null"` for `null`. -/
def stringOfId (id : Option Str) : Str :=
  match id with
  | none => "null".toList
  | some s => s

/-- The predicate of `templates.filter(...)` in `filterTemplates`. -/
def keepTemplate (selectedCategory : Str) (selectedTags : List Str)
    (template : ListedTemplate) : Bool :=
  if selectedCategory ≠ "all".toList ∧ stringOfId template.t.category_id ≠ selectedCategory then
    false
  else if 0 < selectedTags.length ∧
      !(selectedTags.any fun tagId => (template.tags.map (·.id)).contains tagId) then
    false
  else true

/-- The client function `filterTemplates`: the value it gives to
`filteredTemplates`. -/
def filterTemplates (templates : List ListedTemplate) (selectedCategory : Str)
    (selectedTags : List Str) : List ListedTemplate :=
  templates.filter (keepTemplate selectedCategory selectedTags)

/-- The parameter `category` of the request that corresponds to a selected
category: none for `'all'`.  This follows the wording of the specification,
not the code. -/
def categoryParam (selectedCategory : Str) : Option Str :=
  if selectedCategory = "all".toList then none else some selectedCategory

/-- The ids joined by commas, `ids.join(',')`.  This follows the wording of
the specification, not the code. -/
def joinComma : List Str → Str
  | [] => []
  | [a] => a
  | a :: b :: rest => a ++ ',' :: joinComma (b :: rest)

/-- The parameter `tags` of the request that corresponds to a set of
selected tag ids: none for the empty set, else the ids joined by commas.
This follows the wording of the specification, not the code. -/
def tagsParam (selectedTags : List Str) : Option Str :=
  if selectedTags.isEmpty then none else some (joinComma selectedTags)

/-- The status code of a reply, when the handler sent one. -/
def Reply.status {α : Type} : Reply α → Option Nat
  | .json status _ => some status
  | .fail status => some status
  | .thrown => none

/-- A create request with both the alias `name` and `title`. -/
def aliasRequest : TemplateRequest :=
  { emptyRequest with name := some "A".toList, title := some "B".toList,
                      description := some "d".toList, html := some "<p>x</p>".toList }

/-- An update that sends title, description and body only; the title is the
one that `subjectTemplate` has. -/
def saleUpdate : TemplateRequest :=
  { emptyRequest with title := some "Sale".toList, description := some "Summer".toList,
                      html := some "<p>Sale</p>".toList }

/-- A verifier that accepts the token `good` alone, signed for a user whose
role is `viewer`. -/
def exampleVerify (token : Str) : Option TokenUser :=
  if token = "good".toList then some ⟨"u7".toList, "ana".toList, "viewer".toList⟩ else none

/-- The example state with other tags: `A` is named `Zeta` and has no icon,
`B` is named `Alpha` and has the icon `star`; the template `t1` has both. -/
def iconStore : Store :=
  { exampleStore with
    tags := [⟨"A".toList, "Zeta".toList, "#111111".toList, none, some "c1".toList, 1, 0⟩,
             ⟨"B".toList, "Alpha".toList, "#222222".toList, some "star".toList,
               some "c1".toList, 2, 0⟩] }

/-- The example state with the single tag `A`, named `Sales, EU`, on the
template `t1`. -/
def commaStore : Store :=
  { exampleStore with
    tags := [⟨"A".toList, "Sales, EU".toList, "#111111".toList, none, some "c1".toList, 1, 0⟩]
    template_tags := [⟨"t1".toList, "A".toList⟩] }

/-- The JSON body of a reply, when it has one. -/
def Reply.body {α : Type} : Reply α → Option α
  | .json _ body => some body
  | .fail _ => none
  | .thrown => none

/-- A character of the text that `uuidv4()` returns: a hexadecimal digit in
lower case or a hyphen. -/
def isUuidChar (c : Char) : Bool :=
  c.isDigit || (decide ('a' ≤ c) && decide (c ≤ 'f')) || c = '-'

/-- The shape of the values of `uuidv4()`, a function of the library `uuid`:
36 characters, hexadecimal digits and hyphens. -/
def isUuid (u : Str) : Bool := u.length = 36 && u.all isUuidChar

/-- The ids of categories: `POST /api/categories` is the only statement that
inserts a category, with the id `'cat-' + uuidv4()`. -/
def isCategoryId (id : Str) : Bool :=
  "cat-".toList.isPrefixOf id && isUuid (id.drop 4)

/-- The ids of tags: `POST /api/tags` is the only statement that inserts a
tag, with the id `'tag-' + uuidv4()`. -/
def isTagId (id : Str) : Bool :=
  "tag-".toList.isPrefixOf id && isUuid (id.drop 4)

/-- A category id of the generated shape. -/
def idOfCategory : Str := "cat-11111111-1111-4111-8111-111111111111".toList

/-- A tag id of the generated shape. -/
def idOfTagA : Str := "tag-aaaaaaaa-aaaa-4aaa-8aaa-aaaaaaaaaaaa".toList

/-- A second tag id of the generated shape. -/
def idOfTagB : Str := "tag-bbbbbbbb-bbbb-4bbb-8bbb-bbbbbbbbbbbb".toList

/-- The example state with ids as the handlers generate them. -/
def uuidStore : Store :=
  { templates := [{ exampleTemplate with category_id := some idOfCategory }, otherTemplate]
    categories := [⟨idOfCategory, "Marketing".toList, none, some "#6366f1".toList, none, 1, 0⟩]
    tags := [⟨idOfTagA, "Promo".toList, "#111111".toList, none, some idOfCategory, 1, 0⟩,
             ⟨idOfTagB, "Info".toList, "#222222".toList, none, some idOfCategory, 2, 0⟩]
    template_tags := [⟨"t1".toList, idOfTagA⟩, ⟨"t1".toList, idOfTagB⟩,
                      ⟨"t2".toList, idOfTagB⟩] }

/-- The templates of `uuidStore` as the client holds them, each with its
category and its tags. -/
def uuidTemplates : List ListedTemplate :=
  [⟨otherTemplate, none, none, none,
     [⟨idOfTagB, some "Info".toList, some "#222222".toList, none⟩]⟩,
   ⟨{ exampleTemplate with category_id := some idOfCategory }, some "Marketing".toList,
     some "#6366f1".toList, none,
     [⟨idOfTagA, some "Promo".toList, some "#111111".toList, none⟩,
      ⟨idOfTagB, some "Info".toList, some "#222222".toList, none⟩]⟩]

/-- The largest integer below which every integer is a JavaScript number:
`2 ^ 53`. -/
def maxExact : Int := 9007199254740992

/-- The example state with `order_index` `2 ^ 53` on its category and on the
tag `B`, as a reorder request can set them. -/
def bigStore : Store :=
  { exampleStore with
    categories := [⟨"c1".toList, "Marketing".toList, none, some "#6366f1".toList, none,
      maxExact, 0⟩]
    tags := [⟨"A".toList, "Promo".toList, "#111111".toList, none, some "c1".toList, 1, 0⟩,
             ⟨"B".toList, "Info".toList, "#222222".toList, none, some "c1".toList,
               maxExact, 0⟩] }
/-! ## Characters and literal prefixes -/

theorem isWordChar_ne_lbrace {c : Char} (h : isWordChar c = true) : c ≠ '{' := by
  rintro rfl; revert h; decide

theorem isWordChar_ne_rbrace {c : Char} (h : isWordChar c = true) : c ≠ '}' := by
  rintro rfl; revert h; decide

theorem isWordChar_ne_dollar {c : Char} (h : isWordChar c = true) : c ≠ '$' := by
  rintro rfl; revert h; decide

theorem isWordChar_plain {c : Char} (h : isWordChar c = true) : isSyntaxChar c = false := by
  by_contra hs
  simp only [isSyntaxChar, Bool.not_eq_false, decide_eq_true_eq, List.mem_cons,
    List.mem_singleton, List.not_mem_nil, or_false] at hs
  rcases hs with hs | hs | hs | hs | hs | hs | hs | hs | hs | hs | hs | hs | hs | hs <;>
    (subst hs; revert h; decide)

theorem dropPrefix_eq_some {p s r : Str} : dropPrefix p s = some r ↔ s = p ++ r := by
  induction p generalizing s with
  | nil => simp [dropPrefix, eq_comm]
  | cons a p ih =>
    cases s with
    | nil => simp [dropPrefix]
    | cons b s =>
      by_cases hab : a = b
      · subst hab; simp [dropPrefix, ih]
      · simp [dropPrefix, hab]; intro h; exact absurd h.symm hab

theorem dropPrefix_eq_none {p s : Str} : dropPrefix p s = none ↔ ¬ p <+: s := by
  constructor
  · rintro h ⟨r, rfl⟩
    have : dropPrefix p (p ++ r) = some r := dropPrefix_eq_some.2 rfl
    rw [h] at this; cases this
  · intro h
    cases hd : dropPrefix p s with
    | none => rfl
    | some r => exact absurd ⟨r, (dropPrefix_eq_some.1 hd).symm⟩ h

theorem isIdentifier_iff {n : Str} :
    isIdentifier n = true ↔ n ≠ [] ∧ ∀ c ∈ n, isWordChar c = true := by
  cases n <;> simp [isIdentifier]

theorem takeWhile_word_append {w : Str} (hw : ∀ c ∈ w, isWordChar c = true) (c : Char)
    (hc : isWordChar c = false) (r : Str) :
    (w ++ c :: r).takeWhile isWordChar = w := by
  induction w with
  | nil => simp [List.takeWhile, hc]
  | cons a w ih =>
    have ha : isWordChar a = true := hw a (List.mem_cons_self _ _)
    simp [List.takeWhile, ha, ih (fun c hc => hw c (List.mem_cons_of_mem _ hc))]

theorem dropWhile_word_append {w : Str} (hw : ∀ c ∈ w, isWordChar c = true) (c : Char)
    (hc : isWordChar c = false) (r : Str) :
    (w ++ c :: r).dropWhile isWordChar = c :: r := by
  induction w with
  | nil => simp [List.dropWhile, hc]
  | cons a w ih =>
    have ha : isWordChar a = true := hw a (List.mem_cons_self _ _)
    simp [List.dropWhile, ha, ih (fun c hc => hw c (List.mem_cons_of_mem _ hc))]

/-- The matcher succeeds exactly on the language of `lit(\w+)\}\}`, and the
match is the only prefix of the subject in that language. -/
theorem matchPlaceholder_eq_some {lit s : Str} {μ : Match} :
    matchPlaceholder lit s = some μ ↔
      ∃ w r, isIdentifier w = true ∧ s = lit ++ w ++ closeVar ++ r ∧
        μ = ⟨lit.length + w.length + closeVar.length, [w]⟩ := by
  unfold matchPlaceholder
  constructor
  · intro h
    cases hd : dropPrefix lit s with
    | none => simp [hd] at h
    | some t =>
      rw [hd] at h
      simp only at h
      by_cases hw : t.takeWhile isWordChar = []
      · simp [hw] at h
      · rw [if_neg hw] at h
        cases hc : dropPrefix closeVar (t.dropWhile isWordChar) with
        | none => simp [hc] at h
        | some r =>
          rw [hc] at h
          refine ⟨t.takeWhile isWordChar, r, ?_, ?_, ?_⟩
          · rw [isIdentifier_iff]
            exact ⟨hw, fun c hc => List.mem_takeWhile_imp hc⟩
          · have h1 := dropPrefix_eq_some.1 hd
            have h2 := dropPrefix_eq_some.1 hc
            have h3 : t = t.takeWhile isWordChar ++ t.dropWhile isWordChar :=
              (List.takeWhile_append_dropWhile _ _).symm
            rw [h1, List.append_assoc, List.append_assoc, ← h2, ← h3]
          · simpa using h.symm
  · rintro ⟨w, r, hw, rfl, rfl⟩
    rw [isIdentifier_iff] at hw
    have hd : dropPrefix lit (lit ++ w ++ closeVar ++ r) = some (w ++ '}' :: ('}' :: r)) :=
      dropPrefix_eq_some.2 (by simp [closeVar])
    rw [hd]
    simp only
    rw [takeWhile_word_append hw.2 '}' (by decide), dropWhile_word_append hw.2 '}' (by decide)]
    rw [if_neg hw.1]
    have hc : dropPrefix closeVar ('}' :: '}' :: r) = some r := dropPrefix_eq_some.2 rfl
    rw [hc]

theorem matchPlaceholder_hit (lit : Str) {w : Str} (hw : isIdentifier w = true) (r : Str) :
    matchPlaceholder lit (lit ++ w ++ closeVar ++ r)
      = some ⟨lit.length + w.length + closeVar.length, [w]⟩ :=
  matchPlaceholder_eq_some.2 ⟨w, r, hw, rfl, rfl⟩

theorem matchLiteral_eq_some {lit s : Str} {μ : Match} :
    matchLiteral lit s = some μ ↔ (∃ r, s = lit ++ r) ∧ μ = ⟨lit.length, []⟩ := by
  unfold matchLiteral
  cases hd : dropPrefix lit s with
  | none =>
    have := dropPrefix_eq_none.1 hd
    constructor
    · intro h; cases h
    · rintro ⟨⟨r, rfl⟩, _⟩
      exact absurd (List.prefix_append _ _) this
  | some r =>
    have := dropPrefix_eq_some.1 hd
    simp only [Option.some.injEq]
    constructor
    · intro h; exact ⟨⟨r, this⟩, h.symm⟩
    · rintro ⟨_, h⟩; exact h.symm

theorem matchLiteral_eq_none {lit s : Str} : matchLiteral lit s = none ↔ ¬ lit <+: s := by
  unfold matchLiteral
  cases hd : dropPrefix lit s with
  | none => simpa using dropPrefix_eq_none.1 hd
  | some r =>
    have := dropPrefix_eq_some.1 hd
    constructor
    · intro h; cases h
    · intro h; exact absurd ⟨r, this.symm⟩ h

/-! ## Unfolding the replacement loop -/

theorem replaceGlobal_nil (m : Str → Option Match) (rep : Str) (k : Nat) (pre : Str) :
    replaceGlobal m rep k pre [] = [] := by
  cases k <;> rfl

theorem replaceGlobal_skip (m : Str → Option Match) (rep : Str) (k : Nat) (pre s : Str) :
    replaceGlobal m rep k pre s = replaceGlobal m rep 0 (pre ++ s.take k) (s.drop k) := by
  induction k generalizing pre s with
  | zero => simp
  | succ k ih =>
    cases s with
    | nil => simp [replaceGlobal_nil]
    | cons c t =>
      rw [replaceGlobal, ih]
      simp [List.append_assoc]

theorem replaceGlobal_miss (m : Str → Option Match) (rep : Str) (pre : Str) (c : Char) (t : Str)
    (h : m (c :: t) = none) :
    replaceGlobal m rep 0 pre (c :: t) = c :: replaceGlobal m rep 0 (pre ++ [c]) t := by
  rw [replaceGlobal, h]

theorem replaceGlobal_hit (m : Str → Option Match) (rep : Str) (pre : Str) (c : Char) (t : Str)
    (μ : Match) (h : m (c :: t) = some μ) (hlen : 1 ≤ μ.len) :
    replaceGlobal m rep 0 pre (c :: t)
      = getSubstitution ((c :: t).take μ.len) pre ((c :: t).drop μ.len) μ.captures rep
        ++ replaceGlobal m rep 0 (pre ++ (c :: t).take μ.len) ((c :: t).drop μ.len) := by
  rw [replaceGlobal, h]
  simp only
  rw [replaceGlobal_skip]
  obtain ⟨k, hk⟩ : ∃ k, μ.len = k + 1 := ⟨μ.len - 1, by omega⟩
  simp [hk, List.append_assoc]

theorem getSubstitution_aliasTemplate (matched pre post w : Str) :
    getSubstitution matched pre post [w] aliasTemplate = placeholder w := by
  simp [getSubstitution, aliasTemplate, expandTemplate, placeholder, openVar, closeVar,
    digitValue, captureAt]

/-! ## The alias rewrite, one position at a time -/

theorem matchPlaceholder_len_pos {lit s : Str} {μ : Match}
    (h : matchPlaceholder lit s = some μ) : 1 ≤ μ.len := by
  obtain ⟨w, r, _, _, rfl⟩ := matchPlaceholder_eq_some.1 h
  simp [closeVar]

theorem replaceGlobal_alias_pre (s : Str) (k : Nat) (pre pre2 : Str) :
    replaceGlobal matchAlias aliasTemplate k pre s
      = replaceGlobal matchAlias aliasTemplate k pre2 s := by
  induction s generalizing k pre pre2 with
  | nil => simp [replaceGlobal_nil]
  | cons c t ih =>
    cases k with
    | succ k => rw [replaceGlobal, replaceGlobal]; exact ih _ _ _
    | zero =>
      cases h : matchAlias (c :: t) with
      | none => rw [replaceGlobal, h, replaceGlobal, h]; simp only; rw [ih 0 _ (pre2 ++ [c])]
      | some μ =>
        obtain ⟨w, r, _, _, hμ⟩ := matchPlaceholder_eq_some.1 h
        rw [replaceGlobal, h, replaceGlobal, h]
        simp only
        rw [ih _ _ (pre2 ++ [c])]
        subst hμ
        simp only [getSubstitution_aliasTemplate]

theorem normalizeAlias_nil : normalizeAlias [] = [] := rfl

theorem normalizeAlias_miss {c : Char} {t : Str} (h : matchAlias (c :: t) = none) :
    normalizeAlias (c :: t) = c :: normalizeAlias t := by
  unfold normalizeAlias replaceAll
  rw [replaceGlobal_miss _ _ _ _ _ h, replaceGlobal_alias_pre t 0 _ []]

theorem normalizeAlias_hit {w : Str} (hw : isIdentifier w = true) (r : Str) :
    normalizeAlias (aliasPlaceholder w ++ r) = placeholder w ++ normalizeAlias r := by
  have hm : matchAlias _ = _ := matchPlaceholder_hit openAlias hw r
  have hs : aliasPlaceholder w ++ r = '{' :: ('{' :: '$' :: 'j' :: 's' :: 'o' :: 'n' :: '.' ::
      (w ++ closeVar ++ r)) := by simp [aliasPlaceholder, openAlias]
  have hs2 : openAlias ++ w ++ closeVar ++ r = aliasPlaceholder w ++ r := by
    simp [aliasPlaceholder]
  rw [hs2, hs] at hm
  unfold normalizeAlias replaceAll
  rw [hs, replaceGlobal_hit _ _ _ _ _ _ hm (by simp [closeVar]), ← hs]
  simp only [getSubstitution_aliasTemplate]
  have hlen : openAlias.length + w.length + closeVar.length = (aliasPlaceholder w).length := by
    simp [aliasPlaceholder, Nat.add_assoc]
  rw [hlen, List.drop_left, replaceGlobal_alias_pre r 0 _ []]

/-- Induction along a scan for `lit(\w+)\}\}`: the subject is empty, starts
with a match, or starts with a character where the expression fails. -/
theorem scan_induction (lit : Str) {P : Str → Prop} (nil : P [])
    (hit : ∀ w r, isIdentifier w = true → P r → P (lit ++ w ++ closeVar ++ r))
    (miss : ∀ c t, matchPlaceholder lit (c :: t) = none → P t → P (c :: t)) :
    ∀ s, P s := by
  suffices h : ∀ n, ∀ s : Str, s.length = n → P s from fun s => h _ s rfl
  intro n
  induction n using Nat.strong_induction_on with
  | _ n ih =>
    intro s hn
    cases s with
    | nil => exact nil
    | cons c t =>
      cases h : matchPlaceholder lit (c :: t) with
      | none => exact miss c t h (ih t.length (by simp [← hn]) t rfl)
      | some μ =>
        obtain ⟨w, r, hw, hs, _⟩ := matchPlaceholder_eq_some.1 h
        rw [hs]
        refine hit w r hw (ih r.length ?_ r rfl)
        rw [← hn, hs]
        simp [closeVar]
        omega

/-! ## The `exec` loop, one position at a time -/

theorem execAll_nil (k : Nat) : execAll k [] = [] := by cases k <;> rfl

theorem execAll_skip (k : Nat) (s : Str) : execAll k s = execAll 0 (s.drop k) := by
  induction k generalizing s with
  | zero => simp
  | succ k ih =>
    cases s with
    | nil => simp [execAll_nil]
    | cons c t => rw [execAll, ih]; simp

theorem execAll_miss {c : Char} {t : Str} (h : matchVariable (c :: t) = none) :
    execAll 0 (c :: t) = execAll 0 t := by
  rw [execAll, h]

theorem execAll_hit {w : Str} (hw : isIdentifier w = true) (r : Str) :
    execAll 0 (placeholder w ++ r) = w :: execAll 0 r := by
  have hm : matchVariable _ = _ := matchPlaceholder_hit openVar hw r
  have hs : openVar ++ w ++ closeVar ++ r = '{' :: ('{' :: (w ++ closeVar ++ r)) := by
    simp [openVar]
  have hp : placeholder w ++ r = '{' :: ('{' :: (w ++ closeVar ++ r)) := by
    simp [placeholder, openVar]
  rw [hs] at hm
  rw [hp, execAll, hm]
  simp only [List.headD_cons]
  rw [execAll_skip]
  congr 1
  simp [openVar, closeVar]
  rw [Nat.add_comm, List.drop_append]
  rfl

/-! ## Placeholders do not overlap -/

theorem plain_of_isIdentifier {n : Str} (h : isIdentifier n = true) : Plain n := fun c hc =>
  have hw := (isIdentifier_iff.1 h).2 c hc
  ⟨isWordChar_ne_lbrace hw, isWordChar_ne_rbrace hw, isWordChar_ne_dollar hw⟩

theorem plain_of_plainKey {n : Str} (h : n.any isSyntaxChar = false) : Plain n := by
  intro c hc
  have hs : isSyntaxChar c = false := by
    by_contra hne
    have : n.any isSyntaxChar = true := List.any_eq_true.2 ⟨c, hc, by simpa using hne⟩
    rw [h] at this; cases this
  refine ⟨?_, ?_, ?_⟩ <;> (rintro rfl; revert hs; decide)

theorem no_syntax_of_isIdentifier {n : Str} (h : isIdentifier n = true) :
    n.any isSyntaxChar = false := by
  by_contra hne
  have hne2 : n.any isSyntaxChar = true := by simpa using hne
  obtain ⟨c, hc, hs⟩ := List.any_eq_true.1 hne2
  have := isWordChar_plain ((isIdentifier_iff.1 h).2 c hc)
  rw [this] at hs; cases hs

theorem infix_skip_no_brace {u : Str} (hu : ∀ c ∈ u, c ≠ '{') (Y r : Str)
    (h : '{' :: Y <:+: u ++ r) : '{' :: Y <:+: r := by
  induction u with
  | nil => simpa using h
  | cons a u ih =>
    rw [List.cons_append, List.infix_cons_iff] at h
    rcases h with h | h
    · rw [List.cons_prefix_cons] at h
      exact absurd h.1.symm (hu a (List.mem_cons_self _ _))
    · exact ih (fun c hc => hu c (List.mem_cons_of_mem _ hc)) h

/-- An occurrence of a text that opens with two braces, inside a subject that
starts with two braces followed by a non-empty brace-free text `M`, either
starts the subject or lies after `M`. -/
theorem infix_braced_cases (X M r : Str) (hM : M ≠ []) (hb : ∀ c ∈ M, c ≠ '{')
    (h : '{' :: '{' :: X <:+: '{' :: '{' :: (M ++ r)) :
    '{' :: '{' :: X <+: '{' :: '{' :: (M ++ r) ∨ '{' :: '{' :: X <:+: r := by
  rw [List.infix_cons_iff] at h
  rcases h with h | h
  · exact Or.inl h
  · right
    rw [List.infix_cons_iff] at h
    rcases h with h | h
    · exfalso
      cases M with
      | nil => exact hM rfl
      | cons a M =>
        rw [List.cons_prefix_cons, List.cons_append, List.cons_prefix_cons] at h
        exact hb a (List.mem_cons_self _ _) h.2.1.symm
    · exact infix_skip_no_brace hb _ _ h

theorem run_prefix_inj {n w : Str} (hn : ∀ c ∈ n, c ≠ '}') (hw : ∀ c ∈ w, c ≠ '}') (a b : Str)
    (h : n ++ '}' :: a <+: w ++ '}' :: b) : n = w := by
  induction n generalizing w with
  | nil =>
    cases w with
    | nil => rfl
    | cons y w =>
      rw [List.nil_append, List.cons_append, List.cons_prefix_cons] at h
      exact absurd h.1.symm (hw y (List.mem_cons_self _ _))
  | cons x n ih =>
    cases w with
    | nil =>
      rw [List.nil_append, List.cons_append, List.cons_prefix_cons] at h
      exact absurd h.1 (hn x (List.mem_cons_self _ _))
    | cons y w =>
      rw [List.cons_append, List.cons_append, List.cons_prefix_cons] at h
      rw [h.1, ih (fun c hc => hn c (List.mem_cons_of_mem _ hc))
        (fun c hc => hw c (List.mem_cons_of_mem _ hc)) h.2]

theorem placeholder_eq (n : Str) : placeholder n = '{' :: '{' :: (n ++ closeVar) := by
  simp [placeholder, openVar]

theorem aliasPlaceholder_eq (n : Str) :
    aliasPlaceholder n = '{' :: '{' :: (['$', 'j', 's', 'o', 'n', '.'] ++ n ++ closeVar) := by
  simp [aliasPlaceholder, openAlias]

theorem plain_body_no_brace {n : Str} (hn : Plain n) : ∀ c ∈ n ++ closeVar, c ≠ '{' := by
  intro c hc
  rw [List.mem_append] at hc
  rcases hc with hc | hc
  · exact (hn c hc).1
  · simp only [closeVar, List.mem_cons, List.mem_singleton, List.not_mem_nil, or_false,
      or_self] at hc
    subst hc; decide

theorem plain_alias_body_no_brace {n : Str} (hn : Plain n) :
    ∀ c ∈ ['$', 'j', 's', 'o', 'n', '.'] ++ n ++ closeVar, c ≠ '{' := by
  intro c hc
  rw [List.append_assoc, List.mem_append] at hc
  rcases hc with hc | hc
  · simp only [List.mem_cons, List.mem_singleton, List.not_mem_nil, or_false] at hc
    rcases hc with hc | hc | hc | hc | hc | hc <;> (subst hc; decide)
  · exact plain_body_no_brace hn c hc

theorem placeholder_prefix_placeholder {n w : Str} (hn : Plain n) (hw : Plain w) (r : Str)
    (h : placeholder n <+: placeholder w ++ r) : n = w := by
  rw [placeholder_eq, placeholder_eq, List.cons_append, List.cons_append,
    List.cons_prefix_cons, List.cons_prefix_cons] at h
  have h2 : n ++ '}' :: ['}'] <+: w ++ '}' :: ('}' :: r) := by
    simpa [closeVar] using h.2.2
  exact run_prefix_inj (fun c hc => (hn c hc).2.1) (fun c hc => (hw c hc).2.1) _ _ h2

theorem aliasPlaceholder_prefix_aliasPlaceholder {n w : Str} (hn : Plain n) (hw : Plain w)
    (r : Str) (h : aliasPlaceholder n <+: aliasPlaceholder w ++ r) : n = w := by
  rw [aliasPlaceholder_eq, aliasPlaceholder_eq] at h
  simp only [List.cons_append, List.cons_prefix_cons, List.nil_append, true_and] at h
  have h2 : n ++ '}' :: ['}'] <+: w ++ '}' :: ('}' :: r) := by
    simpa [closeVar] using h
  exact run_prefix_inj (fun c hc => (hn c hc).2.1) (fun c hc => (hw c hc).2.1) _ _ h2

theorem placeholder_not_prefix_alias {n : Str} (hn : Plain n) (w r : Str) :
    ¬ placeholder n <+: aliasPlaceholder w ++ r := by
  intro h
  rw [placeholder_eq, aliasPlaceholder_eq] at h
  simp only [List.cons_append, List.cons_prefix_cons, List.nil_append, true_and] at h
  cases n with
  | nil =>
    simp only [closeVar, List.nil_append, List.cons_prefix_cons] at h
    exact absurd h.1 (by decide)
  | cons a n =>
    rw [List.cons_append, List.cons_prefix_cons] at h
    exact (hn a (List.mem_cons_self _ _)).2.2 h.1

theorem alias_not_prefix_placeholder {w : Str} (hw : Plain w) (n r : Str) :
    ¬ aliasPlaceholder n <+: placeholder w ++ r := by
  intro h
  rw [placeholder_eq, aliasPlaceholder_eq] at h
  simp only [List.cons_append, List.cons_prefix_cons, List.nil_append, true_and] at h
  cases w with
  | nil =>
    simp only [closeVar, List.nil_append, List.cons_append, List.cons_prefix_cons] at h
    exact absurd h.1 (by decide)
  | cons a w =>
    simp only [List.cons_append, List.cons_prefix_cons] at h
    exact (hw a (List.mem_cons_self _ _)).2.2 h.1.symm

theorem placeholder_infix_placeholder_append {n w : Str} (hn : Plain n) (hw : Plain w) (r : Str)
    (h : placeholder n <:+: placeholder w ++ r) : n = w ∨ placeholder n <:+: r := by
  have h2 := h
  rw [placeholder_eq n, placeholder_eq w] at h2
  rcases infix_braced_cases _ _ r (by simp [closeVar]) (plain_body_no_brace hw) h2 with h3 | h3
  · left
    apply placeholder_prefix_placeholder hn hw r
    rw [placeholder_eq n, placeholder_eq w]; exact h3
  · right; rw [placeholder_eq n]; exact h3

theorem placeholder_infix_alias_append {n w : Str} (hn : Plain n) (hw : Plain w) (r : Str)
    (h : placeholder n <:+: aliasPlaceholder w ++ r) : placeholder n <:+: r := by
  have h2 := h
  rw [placeholder_eq n, aliasPlaceholder_eq w] at h2
  rcases infix_braced_cases _ _ r (by simp [closeVar]) (plain_alias_body_no_brace hw) h2
    with h3 | h3
  · exfalso
    apply placeholder_not_prefix_alias hn w r
    rw [placeholder_eq n, aliasPlaceholder_eq w]; exact h3
  · rw [placeholder_eq n]; exact h3

theorem alias_infix_placeholder_append {n w : Str} (hw : Plain w) (r : Str)
    (h : aliasPlaceholder n <:+: placeholder w ++ r) : aliasPlaceholder n <:+: r := by
  have h2 := h
  rw [aliasPlaceholder_eq n, placeholder_eq w] at h2
  rcases infix_braced_cases _ _ r (by simp [closeVar]) (plain_body_no_brace hw) h2 with h3 | h3
  · exfalso
    apply alias_not_prefix_placeholder hw n r
    rw [aliasPlaceholder_eq n, placeholder_eq w]; exact h3
  · rw [aliasPlaceholder_eq n]; exact h3

theorem alias_infix_alias_append {n w : Str} (hn : Plain n) (hw : Plain w) (r : Str)
    (h : aliasPlaceholder n <:+: aliasPlaceholder w ++ r) :
    n = w ∨ aliasPlaceholder n <:+: r := by
  have h2 := h
  rw [aliasPlaceholder_eq n, aliasPlaceholder_eq w] at h2
  rcases infix_braced_cases _ _ r (by simp [closeVar]) (plain_alias_body_no_brace hw) h2
    with h3 | h3
  · left
    apply aliasPlaceholder_prefix_aliasPlaceholder hn hw r
    rw [aliasPlaceholder_eq n, aliasPlaceholder_eq w]; exact h3
  · right; rw [aliasPlaceholder_eq n]; exact h3

/-! ## What the `exec` loop finds -/

theorem matchPlaceholder_none_of_no_start {lit s : Str} (h : ¬ lit <+: s) :
    matchPlaceholder lit s = none := by
  unfold matchPlaceholder
  rw [dropPrefix_eq_none.2 h]

theorem matchVariable_placeholder {n : Str} (hn : isIdentifier n = true) (r : Str) :
    matchVariable (placeholder n ++ r) ≠ none := by
  have h : matchVariable (openVar ++ n ++ closeVar ++ r) = _ := matchPlaceholder_hit openVar hn r
  intro h2
  rw [placeholder] at h2
  rw [h2] at h
  cases h

theorem matchAlias_aliasPlaceholder {n : Str} (hn : isIdentifier n = true) (r : Str) :
    matchAlias (aliasPlaceholder n ++ r) ≠ none := by
  have h : matchAlias (openAlias ++ n ++ closeVar ++ r) = _ :=
    matchPlaceholder_hit openAlias hn r
  intro h2
  rw [aliasPlaceholder] at h2
  rw [h2] at h
  cases h

/-- The names found by the `exec` loop are the identifiers `n` whose
placeholder occurs in the subject. -/
theorem mem_execAll {n : Str} (s : Str) :
    n ∈ execAll 0 s ↔ isIdentifier n = true ∧ placeholder n <:+: s := by
  induction s using scan_induction openVar with
  | nil =>
    simp only [execAll_nil, List.not_mem_nil, List.infix_nil, false_iff, not_and]
    intro _ h
    rw [placeholder_eq] at h
    cases h
  | hit w r hw ih =>
    have hs : openVar ++ w ++ closeVar ++ r = placeholder w ++ r := by simp [placeholder]
    rw [hs, execAll_hit hw, List.mem_cons, ih]
    constructor
    · rintro (rfl | ⟨h1, h2⟩)
      · exact ⟨hw, (List.prefix_append _ _).isInfix⟩
      · exact ⟨h1, h2.trans (List.suffix_append _ _).isInfix⟩
    · rintro ⟨h1, h2⟩
      rcases placeholder_infix_placeholder_append (plain_of_isIdentifier h1)
        (plain_of_isIdentifier hw) r h2 with h3 | h3
      · exact Or.inl h3
      · exact Or.inr ⟨h1, h3⟩
  | miss c t hm ih =>
    rw [execAll_miss hm, ih]
    constructor
    · rintro ⟨h1, h2⟩
      exact ⟨h1, List.infix_cons h2⟩
    · rintro ⟨h1, h2⟩
      refine ⟨h1, ?_⟩
      rw [List.infix_cons_iff] at h2
      rcases h2 with ⟨post, hp⟩ | h2
      · exfalso
        rw [← hp] at hm
        exact matchVariable_placeholder h1 post hm
      · exact h2

/-! ## What the alias rewrite does to placeholders -/

theorem matchAlias_none_of_head {c : Char} (hc : c ≠ '{') (t : Str) :
    matchAlias (c :: t) = none := by
  apply matchPlaceholder_none_of_no_start
  simp only [openAlias, List.cons_prefix_cons, not_and]
  intro h; exact absurd h.symm hc

theorem normalizeAlias_append_no_brace {u : Str} (hu : ∀ c ∈ u, c ≠ '{') (r : Str) :
    normalizeAlias (u ++ r) = u ++ normalizeAlias r := by
  induction u with
  | nil => rfl
  | cons a u ih =>
    rw [List.cons_append, normalizeAlias_miss (matchAlias_none_of_head
      (hu a (List.mem_cons_self _ _)) _), ih (fun c hc => hu c (List.mem_cons_of_mem _ hc))]
    rfl

theorem normalizeAlias_placeholder_append {n : Str} (hn : Plain n) (r : Str) :
    normalizeAlias (placeholder n ++ r) = placeholder n ++ normalizeAlias r := by
  have h1 : matchAlias ('{' :: '{' :: (n ++ closeVar ++ r)) = none := by
    apply matchPlaceholder_none_of_no_start
    simp only [openAlias, List.cons_prefix_cons, true_and]
    cases n with
    | nil =>
      simp only [closeVar, List.nil_append, List.cons_append, List.cons_prefix_cons]
      intro h; exact absurd h.1 (by decide)
    | cons a n =>
      simp only [List.cons_append, List.cons_prefix_cons]
      intro h; exact (hn a (List.mem_cons_self _ _)).2.2 h.1.symm
  have h2 : matchAlias ('{' :: (n ++ closeVar ++ r)) = none := by
    apply matchPlaceholder_none_of_no_start
    simp only [openAlias, List.cons_prefix_cons, true_and]
    cases n with
    | nil =>
      simp only [closeVar, List.nil_append, List.cons_append, List.cons_prefix_cons]
      intro h; exact absurd h.1 (by decide)
    | cons a n =>
      simp only [List.cons_append, List.cons_prefix_cons]
      intro h; exact (hn a (List.mem_cons_self _ _)).1 h.1.symm
  have hs : placeholder n ++ r = '{' :: '{' :: (n ++ closeVar ++ r) := by
    simp [placeholder_eq]
  rw [hs, normalizeAlias_miss h1, normalizeAlias_miss h2,
    normalizeAlias_append_no_brace (plain_body_no_brace hn), placeholder_eq]
  simp

theorem prefix_normalizeAlias_no_brace {u : Str} (hu : ∀ c ∈ u, c ≠ '{') (t : Str)
    (h : u <+: normalizeAlias t) : u <+: t := by
  induction u generalizing t with
  | nil => exact List.nil_prefix
  | cons a u ih =>
    cases t with
    | nil => rw [normalizeAlias_nil] at h; simp at h
    | cons c t =>
      cases hm : matchAlias (c :: t) with
      | none =>
        rw [normalizeAlias_miss hm, List.cons_prefix_cons] at h
        rw [List.cons_prefix_cons]
        exact ⟨h.1, ih (fun c hc => hu c (List.mem_cons_of_mem _ hc)) t h.2⟩
      | some μ =>
        exfalso
        obtain ⟨w, r, hw, hs, _⟩ := matchPlaceholder_eq_some.1 hm
        have hs2 : c :: t = aliasPlaceholder w ++ r := by rw [hs]; simp [aliasPlaceholder]
        rw [hs2, normalizeAlias_hit hw, placeholder_eq, List.cons_append,
          List.cons_prefix_cons] at h
        exact hu a (List.mem_cons_self _ _) h.1

/-- A placeholder at the front of the rewritten text comes from a placeholder
or an alias placeholder at the front of the subject. -/
theorem placeholder_prefix_normalizeAlias {n : Str} (hn : isIdentifier n = true) (s : Str)
    (h : placeholder n <+: normalizeAlias s) :
    placeholder n <+: s ∨ aliasPlaceholder n <+: s := by
  have hp := plain_of_isIdentifier hn
  have hne : n ≠ [] := (isIdentifier_iff.1 hn).1
  cases s with
  | nil => rw [normalizeAlias_nil, placeholder_eq] at h; simp at h
  | cons c t =>
    cases hm : matchAlias (c :: t) with
    | some μ =>
      right
      obtain ⟨w, r, hw, hs, _⟩ := matchPlaceholder_eq_some.1 hm
      have hs2 : c :: t = aliasPlaceholder w ++ r := by rw [hs]; simp [aliasPlaceholder]
      rw [hs2, normalizeAlias_hit hw] at h
      have := placeholder_prefix_placeholder hp (plain_of_isIdentifier hw) _ h
      rw [hs2, this]
      exact List.prefix_append _ _
    | none =>
      left
      rw [normalizeAlias_miss hm, placeholder_eq, List.cons_prefix_cons] at h
      obtain ⟨hc, h⟩ := h
      cases t with
      | nil => rw [normalizeAlias_nil] at h; simp at h
      | cons c2 t2 =>
        cases hm2 : matchAlias (c2 :: t2) with
        | some μ =>
          exfalso
          obtain ⟨w, r, hw, hs, _⟩ := matchPlaceholder_eq_some.1 hm2
          have hs2 : c2 :: t2 = aliasPlaceholder w ++ r := by
            rw [hs]; simp [aliasPlaceholder]
          rw [hs2, normalizeAlias_hit hw, placeholder_eq, List.cons_append,
            List.cons_prefix_cons] at h
          cases n with
          | nil => exact hne rfl
          | cons a n =>
            rw [List.cons_append, List.cons_append, List.cons_prefix_cons] at h
            exact (hp a (List.mem_cons_self _ _)).1 h.2.1
        | none =>
          rw [normalizeAlias_miss hm2, List.cons_prefix_cons] at h
          have h3 := prefix_normalizeAlias_no_brace (plain_body_no_brace hp) t2 h.2
          rw [placeholder_eq, List.cons_prefix_cons, List.cons_prefix_cons]
          exact ⟨hc, h.1, h3⟩

/-- The placeholders of the rewritten text: `{{n}}` occurs in it exactly when
`{{n}}` or `{{$json.n}}` occurs in the subject. -/
theorem placeholder_infix_normalizeAlias {n : Str} (hn : isIdentifier n = true) (s : Str) :
    placeholder n <:+: normalizeAlias s ↔
      placeholder n <:+: s ∨ aliasPlaceholder n <:+: s := by
  have hp := plain_of_isIdentifier hn
  induction s using scan_induction openAlias with
  | nil =>
    rw [normalizeAlias_nil]
    simp only [List.infix_nil]
    rw [placeholder_eq, aliasPlaceholder_eq]
    simp
  | hit w r hw ih =>
    have hpw := plain_of_isIdentifier hw
    have hs : openAlias ++ w ++ closeVar ++ r = aliasPlaceholder w ++ r := by
      simp [aliasPlaceholder]
    rw [hs, normalizeAlias_hit hw]
    constructor
    · intro h
      rcases placeholder_infix_placeholder_append hp hpw _ h with h2 | h2
      · right; rw [h2]; exact (List.prefix_append _ _).isInfix
      · rcases ih.1 h2 with h3 | h3
        · left; exact h3.trans (List.suffix_append _ _).isInfix
        · right; exact h3.trans (List.suffix_append _ _).isInfix
    · rintro (h | h)
      · have h2 := placeholder_infix_alias_append hp hpw r h
        exact (ih.2 (Or.inl h2)).trans (List.suffix_append _ _).isInfix
      · rcases alias_infix_alias_append hp hpw r h with h2 | h2
        · rw [h2]; exact (List.prefix_append _ _).isInfix
        · exact (ih.2 (Or.inr h2)).trans (List.suffix_append _ _).isInfix
  | miss c t hm ih =>
    have hm2 : matchAlias (c :: t) = none := hm
    rw [normalizeAlias_miss hm2]
    constructor
    · intro h
      rw [List.infix_cons_iff] at h
      rcases h with h | h
      · rw [← normalizeAlias_miss hm2] at h
        rcases placeholder_prefix_normalizeAlias hn _ h with h2 | h2
        · exact Or.inl h2.isInfix
        · exact Or.inr h2.isInfix
      · rcases ih.1 h with h2 | h2
        · exact Or.inl (List.infix_cons h2)
        · exact Or.inr (List.infix_cons h2)
    · rintro (h | h)
      · rw [List.infix_cons_iff] at h
        rcases h with ⟨post, hpost⟩ | h
        · rw [← normalizeAlias_miss hm2, ← hpost, normalizeAlias_placeholder_append hp]
          exact (List.prefix_append _ _).isInfix
        · exact List.infix_cons (ih.2 (Or.inl h))
      · rw [List.infix_cons_iff] at h
        rcases h with ⟨post, hpost⟩ | h
        · exfalso
          rw [← hpost] at hm2
          exact matchAlias_aliasPlaceholder hn post hm2
        · exact List.infix_cons (ih.2 (Or.inr h))

/-! ## The set of names -/

theorem mem_foldl_setAdd (l acc : List Str) (x : Str) :
    x ∈ l.foldl setAdd acc ↔ x ∈ acc ∨ x ∈ l := by
  induction l generalizing acc with
  | nil => simp
  | cons a l ih =>
    rw [List.foldl_cons, ih, List.mem_cons]
    unfold setAdd
    by_cases ha : a ∈ acc
    · rw [if_pos ha]
      constructor
      · rintro (h | h)
        · exact Or.inl h
        · exact Or.inr (Or.inr h)
      · rintro (h | rfl | h)
        · exact Or.inl h
        · exact Or.inl ha
        · exact Or.inr h
    · rw [if_neg ha, List.mem_append, List.mem_singleton]
      tauto

theorem nodup_foldl_setAdd (l acc : List Str) (h : acc.Nodup) : (l.foldl setAdd acc).Nodup := by
  induction l generalizing acc with
  | nil => simpa using h
  | cons a l ih =>
    rw [List.foldl_cons]
    apply ih
    unfold setAdd
    by_cases ha : a ∈ acc
    · rw [if_pos ha]; exact h
    · rw [if_neg ha]
      exact List.Nodup.append h (List.nodup_singleton a) (by simpa using ha)

theorem mem_extractVariables {html n : Str} :
    n ∈ extractVariables html ↔
      isIdentifier n = true ∧ (placeholder n <:+: html ∨ aliasPlaceholder n <:+: html) := by
  unfold extractVariables
  rw [mem_foldl_setAdd, mem_execAll]
  simp only [List.not_mem_nil, false_or]
  constructor
  · rintro ⟨h1, h2⟩
    exact ⟨h1, (placeholder_infix_normalizeAlias h1 html).1 h2⟩
  · rintro ⟨h1, h2⟩
    exact ⟨h1, (placeholder_infix_normalizeAlias h1 html).2 h2⟩

theorem count_eq_one_of_nodup {α : Type} [BEq α] [LawfulBEq α] {a : α} {l : List α}
    (d : l.Nodup) (h : a ∈ l) : l.count a = 1 := by
  induction l with
  | nil => cases h
  | cons b l ih =>
    rw [List.nodup_cons] at d
    rw [List.count_cons]
    by_cases hb : b = a
    · subst hb
      have : List.count b l = 0 := List.count_eq_zero.2 d.1
      simp [this]
    · have hl : a ∈ l := by
        rcases List.mem_cons.1 h with h2 | h2
        · exact absurd h2.symm hb
        · exact h2
      simp [hb, ih d.2 hl]

/-! ## Order of first appearance -/

theorem indexOf_cons_self (a : Str) (l : List Str) : (a :: l).indexOf a = 0 := by
  simp [List.indexOf_cons]

theorem indexOf_cons_ne {a x : Str} (h : x ≠ a) (l : List Str) :
    (x :: l).indexOf a = l.indexOf a + 1 := by
  have hx : (x == a) = false := by simpa using h
  rw [List.indexOf_cons, hx]
  rfl

theorem indexOf_append_not_mem {a : Str} {l1 : List Str} (h : a ∉ l1) (l2 : List Str) :
    (l1 ++ l2).indexOf a = l1.length + l2.indexOf a := by
  induction l1 with
  | nil => simp
  | cons x l1 ih =>
    have hx : x ≠ a := fun e => h (e ▸ List.mem_cons_self _ _)
    rw [List.cons_append, indexOf_cons_ne hx, ih (fun hm => h (List.mem_cons_of_mem _ hm))]
    simp only [List.length_cons]
    omega

theorem prefix_foldl_setAdd (l acc : List Str) : acc <+: l.foldl setAdd acc := by
  induction l generalizing acc with
  | nil => exact List.prefix_refl _
  | cons y l ih =>
    rw [List.foldl_cons]
    refine List.IsPrefix.trans ?_ (ih _)
    unfold setAdd
    by_cases hy : y ∈ acc
    · rw [if_pos hy]
    · rw [if_neg hy]; exact List.prefix_append _ _

/-- Insertion order is the order of first appearance: among names not yet in
the set, the one met first in the list gets the smaller index. -/
theorem indexOf_foldl_setAdd (l acc : List Str) {a b : Str} (hab : a ≠ b)
    (ha : a ∉ acc) (hb : b ∉ acc) :
    (l.foldl setAdd acc).indexOf a < (l.foldl setAdd acc).indexOf b ↔
      l.indexOf a < l.indexOf b := by
  induction l generalizing acc with
  | nil =>
    have h1 := indexOf_append_not_mem ha []
    have h2 := indexOf_append_not_mem hb []
    simp only [List.append_nil] at h1 h2
    simp [h1, h2]
  | cons y l ih =>
    rw [List.foldl_cons]
    by_cases hya : y = a
    · subst hya
      have hs : setAdd acc y = acc ++ [y] := by unfold setAdd; rw [if_neg ha]
      obtain ⟨rest, hrest⟩ := prefix_foldl_setAdd l (setAdd acc y)
      rw [← hrest, hs, List.append_assoc, indexOf_append_not_mem ha,
        indexOf_append_not_mem hb, List.singleton_append, indexOf_cons_self,
        indexOf_cons_self, indexOf_cons_ne hab, indexOf_cons_ne hab]
      omega
    · by_cases hyb : y = b
      · subst hyb
        have hs : setAdd acc y = acc ++ [y] := by unfold setAdd; rw [if_neg hb]
        obtain ⟨rest, hrest⟩ := prefix_foldl_setAdd l (setAdd acc y)
        rw [← hrest, hs, List.append_assoc, indexOf_append_not_mem ha,
          indexOf_append_not_mem hb, List.singleton_append, indexOf_cons_self,
          indexOf_cons_self, indexOf_cons_ne hya, indexOf_cons_ne hya]
        omega
      · have ha2 : a ∉ setAdd acc y := by
          unfold setAdd
          by_cases hy : y ∈ acc
          · rw [if_pos hy]; exact ha
          · rw [if_neg hy, List.mem_append, List.mem_singleton]
            rintro (h | h)
            · exact ha h
            · exact hya h.symm
        have hb2 : b ∉ setAdd acc y := by
          unfold setAdd
          by_cases hy : y ∈ acc
          · rw [if_pos hy]; exact hb
          · rw [if_neg hy, List.mem_append, List.mem_singleton]
            rintro (h | h)
            · exact hb h
            · exact hyb h.symm
        rw [ih _ ha2 hb2, indexOf_cons_ne hya, indexOf_cons_ne hyb]
        omega

theorem startsPlaceholder_iff {n s : Str} :
    startsPlaceholder n s = true ↔ placeholder n <+: s ∨ aliasPlaceholder n <+: s := by
  simp [startsPlaceholder, List.isPrefixOf_iff_prefix]

theorem startsPlaceholder_eq_false {n s : Str} (h1 : ¬ placeholder n <+: s)
    (h2 : ¬ aliasPlaceholder n <+: s) : startsPlaceholder n s = false := by
  by_contra h
  have h3 : startsPlaceholder n s = true := by simpa using h
  rcases startsPlaceholder_iff.1 h3 with h4 | h4
  · exact h1 h4
  · exact h2 h4

theorem startsPlaceholder_false_of_head (n : Str) {c : Char} (hc : c ≠ '{') (t : Str) :
    startsPlaceholder n (c :: t) = false := by
  apply startsPlaceholder_eq_false
  · rw [placeholder_eq, List.cons_prefix_cons]; intro h; exact hc h.1.symm
  · rw [aliasPlaceholder_eq, List.cons_prefix_cons]; intro h; exact hc h.1.symm

theorem startsPlaceholder_false_of_second (n : Str) (c : Char) {c2 : Char} (hc : c2 ≠ '{')
    (t : Str) : startsPlaceholder n (c :: c2 :: t) = false := by
  apply startsPlaceholder_eq_false
  · rw [placeholder_eq, List.cons_prefix_cons, List.cons_prefix_cons]
    intro h; exact hc h.2.1.symm
  · rw [aliasPlaceholder_eq, List.cons_prefix_cons, List.cons_prefix_cons]
    intro h; exact hc h.2.1.symm

theorem firstOccurrence_miss {n : Str} {c : Char} {t : Str}
    (h : startsPlaceholder n (c :: t) = false) :
    firstOccurrence n (c :: t) = firstOccurrence n t + 1 := by
  rw [firstOccurrence, h]; rfl

theorem firstOccurrence_hit {n : Str} {c : Char} {t : Str}
    (h : startsPlaceholder n (c :: t) = true) : firstOccurrence n (c :: t) = 0 := by
  rw [firstOccurrence, h]; rfl

theorem firstOccurrence_append_no_brace (n : Str) {u : Str} (hu : ∀ c ∈ u, c ≠ '{') (r : Str) :
    firstOccurrence n (u ++ r) = u.length + firstOccurrence n r := by
  induction u with
  | nil => simp
  | cons a u ih =>
    rw [List.cons_append, firstOccurrence_miss (startsPlaceholder_false_of_head n
      (hu a (List.mem_cons_self _ _)) _), ih (fun c hc => hu c (List.mem_cons_of_mem _ hc))]
    simp only [List.length_cons]
    omega

/-- No placeholder starts inside a match: past a match that does not name
`n`, the first occurrence of `n` is the one in the rest of the subject. -/
theorem firstOccurrence_skip (n : Str) {body : Str} (hne : body ≠ [])
    (hb : ∀ c ∈ body, c ≠ '{') (r : Str)
    (h : startsPlaceholder n ('{' :: '{' :: (body ++ r)) = false) :
    firstOccurrence n ('{' :: '{' :: (body ++ r))
      = ('{' :: '{' :: body).length + firstOccurrence n r := by
  rw [firstOccurrence_miss h]
  cases body with
  | nil => exact absurd rfl hne
  | cons a body =>
    rw [List.cons_append, firstOccurrence_miss (startsPlaceholder_false_of_second n _
      (hb a (List.mem_cons_self _ _)) _), ← List.cons_append,
      firstOccurrence_append_no_brace n hb]
    simp only [List.length_cons]
    omega

theorem firstOccurrence_lt_of_occurs {n s : Str}
    (h : placeholder n <:+: s ∨ aliasPlaceholder n <:+: s) :
    firstOccurrence n s < s.length := by
  induction s with
  | nil =>
    rw [placeholder_eq, aliasPlaceholder_eq] at h
    simp at h
  | cons c t ih =>
    by_cases hs : startsPlaceholder n (c :: t) = true
    · rw [firstOccurrence_hit hs]; simp
    · have hs2 : startsPlaceholder n (c :: t) = false := by simpa using hs
      rw [firstOccurrence_miss hs2]
      have : placeholder n <:+: t ∨ aliasPlaceholder n <:+: t := by
        rcases h with h | h
        · rw [List.infix_cons_iff] at h
          rcases h with h | h
          · exact absurd (startsPlaceholder_iff.2 (Or.inl h)) hs
          · exact Or.inl h
        · rw [List.infix_cons_iff] at h
          rcases h with h | h
          · exact absurd (startsPlaceholder_iff.2 (Or.inr h)) hs
          · exact Or.inr h
      have := ih this
      simp only [List.length_cons]
      omega

/-- Induction along a subject in which both placeholder syntaxes are looked
for at every position. -/
theorem scan_both_induction {P : Str → Prop} (nil : P [])
    (hitAlias : ∀ w r, isIdentifier w = true → P r → P (aliasPlaceholder w ++ r))
    (hitVar : ∀ w r, isIdentifier w = true → P r → P (placeholder w ++ r))
    (miss : ∀ c t, matchAlias (c :: t) = none → matchVariable (c :: t) = none →
      P t → P (c :: t)) :
    ∀ s, P s := by
  suffices h : ∀ n, ∀ s : Str, s.length = n → P s from fun s => h _ s rfl
  intro n
  induction n using Nat.strong_induction_on with
  | _ n ih =>
    intro s hn
    cases s with
    | nil => exact nil
    | cons c t =>
      cases h : matchAlias (c :: t) with
      | some μ =>
        obtain ⟨w, r, hw, hs, _⟩ := matchPlaceholder_eq_some.1 h
        have hs2 : c :: t = aliasPlaceholder w ++ r := by rw [hs]; simp [aliasPlaceholder]
        rw [hs2]
        refine hitAlias w r hw (ih r.length ?_ r rfl)
        rw [← hn, hs2]
        simp [aliasPlaceholder, openAlias, closeVar]
        omega
      | none =>
        cases h2 : matchVariable (c :: t) with
        | some μ =>
          obtain ⟨w, r, hw, hs, _⟩ := matchPlaceholder_eq_some.1 h2
          have hs2 : c :: t = placeholder w ++ r := by rw [hs]; simp [placeholder]
          rw [hs2]
          refine hitVar w r hw (ih r.length ?_ r rfl)
          rw [← hn, hs2]
          simp [placeholder, openVar, closeVar]
          omega
        | none => exact miss c t h h2 (ih t.length (by simp [← hn]) t rfl)

theorem execAll_normalizeAlias_alias {w : Str} (hw : isIdentifier w = true) (r : Str) :
    execAll 0 (normalizeAlias (aliasPlaceholder w ++ r)) = w :: execAll 0 (normalizeAlias r) := by
  rw [normalizeAlias_hit hw, execAll_hit hw]

theorem execAll_normalizeAlias_placeholder {w : Str} (hw : isIdentifier w = true) (r : Str) :
    execAll 0 (normalizeAlias (placeholder w ++ r)) = w :: execAll 0 (normalizeAlias r) := by
  rw [normalizeAlias_placeholder_append (plain_of_isIdentifier hw), execAll_hit hw]

theorem execAll_normalizeAlias_miss {c : Char} {t : Str} (h1 : matchAlias (c :: t) = none)
    (h2 : matchVariable (c :: t) = none) :
    execAll 0 (normalizeAlias (c :: t)) = execAll 0 (normalizeAlias t) := by
  have h3 : matchVariable (c :: normalizeAlias t) = none := by
    cases h : matchVariable (c :: normalizeAlias t) with
    | none => rfl
    | some μ =>
      exfalso
      obtain ⟨w, r, hw, hs, _⟩ := matchPlaceholder_eq_some.1 h
      have hp : placeholder w <+: normalizeAlias (c :: t) := by
        rw [normalizeAlias_miss h1, hs]
        exact ⟨r, by simp [placeholder]⟩
      rcases placeholder_prefix_normalizeAlias hw _ hp with ⟨post, hpost⟩ | ⟨post, hpost⟩
      · rw [← hpost] at h2; exact matchVariable_placeholder hw post h2
      · rw [← hpost] at h1; exact matchAlias_aliasPlaceholder hw post h1
  rw [normalizeAlias_miss h1, execAll_miss h3]

theorem firstOccurrence_alias_self (w r : Str) :
    firstOccurrence w (aliasPlaceholder w ++ r) = 0 := by
  have h : startsPlaceholder w (aliasPlaceholder w ++ r) = true :=
    startsPlaceholder_iff.2 (Or.inr (List.prefix_append _ _))
  rw [aliasPlaceholder_eq] at h ⊢
  exact firstOccurrence_hit h

theorem firstOccurrence_placeholder_self (w r : Str) :
    firstOccurrence w (placeholder w ++ r) = 0 := by
  have h : startsPlaceholder w (placeholder w ++ r) = true :=
    startsPlaceholder_iff.2 (Or.inl (List.prefix_append _ _))
  rw [placeholder_eq] at h ⊢
  exact firstOccurrence_hit h

theorem firstOccurrence_alias_ne {x w : Str} (hx : Plain x) (hw : Plain w) (hxw : x ≠ w)
    (r : Str) :
    firstOccurrence x (aliasPlaceholder w ++ r)
      = (aliasPlaceholder w).length + firstOccurrence x r := by
  have h : startsPlaceholder x (aliasPlaceholder w ++ r) = false :=
    startsPlaceholder_eq_false (placeholder_not_prefix_alias hx w r)
      (fun h => hxw (aliasPlaceholder_prefix_aliasPlaceholder hx hw r h))
  rw [aliasPlaceholder_eq] at h ⊢
  exact firstOccurrence_skip x (by simp [closeVar]) (plain_alias_body_no_brace hw) r h

theorem firstOccurrence_placeholder_ne {x w : Str} (hx : Plain x) (hw : Plain w) (hxw : x ≠ w)
    (r : Str) :
    firstOccurrence x (placeholder w ++ r) = (placeholder w).length + firstOccurrence x r := by
  have h : startsPlaceholder x (placeholder w ++ r) = false :=
    startsPlaceholder_eq_false (fun h => hxw (placeholder_prefix_placeholder hx hw r h))
      (alias_not_prefix_placeholder hw x r)
  rw [placeholder_eq] at h ⊢
  exact firstOccurrence_skip x (by simp [closeVar]) (plain_body_no_brace hw) r h

theorem firstOccurrence_cons_of_miss {x : Str} (hx : isIdentifier x = true) {c : Char} {t : Str}
    (h1 : matchAlias (c :: t) = none) (h2 : matchVariable (c :: t) = none) :
    firstOccurrence x (c :: t) = firstOccurrence x t + 1 := by
  apply firstOccurrence_miss
  apply startsPlaceholder_eq_false
  · rintro ⟨post, hpost⟩
    rw [← hpost] at h2; exact matchVariable_placeholder hx post h2
  · rintro ⟨post, hpost⟩
    rw [← hpost] at h1; exact matchAlias_aliasPlaceholder hx post h1

theorem indexOf_cons_lt_iff (w a b : Str) (l : List Str) (hab : a ≠ b) (p q p2 q2 d : Nat)
    (hd : 0 < d)
    (hpa : w = a → p = 0) (hpa2 : w ≠ a → p = d + p2)
    (hqb : w = b → q = 0) (hqb2 : w ≠ b → q = d + q2)
    (ih : l.indexOf a < l.indexOf b ↔ p2 < q2) :
    (w :: l).indexOf a < (w :: l).indexOf b ↔ p < q := by
  by_cases hwa : w = a
  · subst hwa
    have hq := hqb2 hab
    rw [indexOf_cons_self, indexOf_cons_ne hab, hpa rfl]
    omega
  · by_cases hwb : w = b
    · subst hwb
      rw [indexOf_cons_self, indexOf_cons_ne hwa, hqb rfl]
      omega
    · have hp := hpa2 hwa
      have hq := hqb2 hwb
      rw [indexOf_cons_ne hwa, indexOf_cons_ne hwb]
      omega

/-- The names found in the rewritten text come in the order in which their
placeholders, in either syntax, first start in the subject. -/
theorem indexOf_execAll_lt_iff (s : Str) {a b : Str} (ha : isIdentifier a = true)
    (hb : isIdentifier b = true) (hab : a ≠ b) :
    (execAll 0 (normalizeAlias s)).indexOf a < (execAll 0 (normalizeAlias s)).indexOf b ↔
      firstOccurrence a s < firstOccurrence b s := by
  have hpa := plain_of_isIdentifier ha
  have hpb := plain_of_isIdentifier hb
  induction s using scan_both_induction with
  | nil => simp [normalizeAlias_nil, execAll_nil, firstOccurrence]
  | hitAlias w r hw ih =>
    have hpw := plain_of_isIdentifier hw
    rw [execAll_normalizeAlias_alias hw]
    refine indexOf_cons_lt_iff w a b _ hab _ _ (firstOccurrence a r) (firstOccurrence b r)
      (aliasPlaceholder w).length (by simp [aliasPlaceholder, openAlias]) ?_ ?_ ?_ ?_ ih
    · rintro rfl; exact firstOccurrence_alias_self _ _
    · intro h; exact firstOccurrence_alias_ne hpa hpw (Ne.symm h) r
    · rintro rfl; exact firstOccurrence_alias_self _ _
    · intro h; exact firstOccurrence_alias_ne hpb hpw (Ne.symm h) r
  | hitVar w r hw ih =>
    have hpw := plain_of_isIdentifier hw
    rw [execAll_normalizeAlias_placeholder hw]
    refine indexOf_cons_lt_iff w a b _ hab _ _ (firstOccurrence a r) (firstOccurrence b r)
      (placeholder w).length (by simp [placeholder, openVar]) ?_ ?_ ?_ ?_ ih
    · rintro rfl; exact firstOccurrence_placeholder_self _ _
    · intro h; exact firstOccurrence_placeholder_ne hpa hpw (Ne.symm h) r
    · rintro rfl; exact firstOccurrence_placeholder_self _ _
    · intro h; exact firstOccurrence_placeholder_ne hpb hpw (Ne.symm h) r
  | miss c t h1 h2 ih =>
    rw [execAll_normalizeAlias_miss h1 h2, firstOccurrence_cons_of_miss ha h1 h2,
      firstOccurrence_cons_of_miss hb h1 h2]
    exact ih.trans (by omega)

/-! ## Replacing a literal -/

theorem expandTemplate_no_dollar (matched pre post : Str) (captures : List Str) {v : Str}
    (hv : '$' ∉ v) : expandTemplate matched pre post captures .text v = v := by
  induction v with
  | nil => rfl
  | cons c v ih =>
    have hc : c ≠ '$' := fun e => hv (e ▸ List.mem_cons_self _ _)
    rw [expandTemplate, if_neg hc, ih (fun h => hv (List.mem_cons_of_mem _ h))]

theorem getSubstitution_no_dollar (matched pre post : Str) (captures : List Str) {v : Str}
    (hv : '$' ∉ v) : getSubstitution matched pre post captures v = v :=
  expandTemplate_no_dollar matched pre post captures hv

theorem dollarPattern_cons {c : Char} {v : Str} (h : dollarPattern (c :: v) = false) :
    dollarPattern v = false := by
  cases v with
  | nil => rfl
  | cons d r =>
    rw [dollarPattern] at h
    simp only [Bool.or_eq_false_iff] at h
    exact h.2

theorem dollarPattern_head {d : Char} {r : Str} (h : dollarPattern ('$' :: d :: r) = false) :
    d ≠ '$' ∧ d ≠ '&' ∧ d ≠ Char.ofNat 96 ∧ d ≠ Char.ofNat 39 := by
  rw [dollarPattern] at h
  simp only [Bool.or_eq_false_iff, Bool.and_eq_false_imp, decide_eq_true_eq,
    decide_eq_false_iff_not, true_implies] at h
  exact ⟨h.1.1.1.1, h.1.1.1.2, h.1.1.2, h.1.2⟩

/-- Without capture groups, a replacement text is expanded to itself unless
it has one of the four dollar patterns; the three reading states are proved
together. -/
theorem expandTemplate_verbatim (matched pre post : Str) (v : Str)
    (hv : dollarPattern v = false) :
    expandTemplate matched pre post [] .text v = v ∧
      (dollarPattern ('$' :: v) = false →
        expandTemplate matched pre post [] .dollar v = '$' :: v) ∧
      ∀ d, expandTemplate matched pre post [] (.digit d) v = '$' :: d :: v := by
  induction v with
  | nil =>
    refine ⟨rfl, fun _ => rfl, fun d => ?_⟩
    have hno : ¬ (1 ≤ digitValue d ∧ digitValue d ≤ ([] : List Str).length) := by
      simp only [List.length_nil, Nat.le_zero_eq]
      omega
    rw [expandTemplate, if_neg hno]
  | cons c r ih =>
    obtain ⟨ih1, ih2, ih3⟩ := ih (dollarPattern_cons hv)
    refine ⟨?_, ?_, ?_⟩
    · rw [expandTemplate]
      split
      · next hc =>
        subst hc
        rw [ih2 hv]
      · rw [ih1]
    · intro h
      obtain ⟨h1, h2, h3, h4⟩ := dollarPattern_head h
      rw [expandTemplate, if_neg h1, if_neg h2, if_neg h3, if_neg h4]
      split
      · rw [ih3]
      · rw [ih1]
    · intro d
      rw [expandTemplate]
      split
      · next hcond =>
        split
        · next hpos =>
          exfalso
          have := hcond.2
          simp only [List.length_nil, Nat.le_zero_eq] at this
          omega
        · rw [ih1]
      · have hno : ¬ (1 ≤ digitValue d ∧ digitValue d ≤ ([] : List Str).length) := by
          simp only [List.length_nil, Nat.le_zero_eq]
          omega
        rw [if_neg hno]
        split
        · next hc =>
          subst hc
          rw [ih2 hv]
          rfl
        · rw [ih1]
          rfl

theorem getSubstitution_verbatim (matched pre post : Str) {v : Str}
    (hv : dollarPattern v = false) : getSubstitution matched pre post [] v = v :=
  (expandTemplate_verbatim matched pre post v hv).1

theorem dollarPattern_of_no_dollar {v : Str} (h : '$' ∉ v) : dollarPattern v = false := by
  induction v with
  | nil => rfl
  | cons c r ih =>
    have hc : c ≠ '$' := fun e => h (e ▸ List.mem_cons_self _ _)
    have hr := ih (fun hm => h (List.mem_cons_of_mem _ hm))
    cases r with
    | nil => rfl
    | cons d r =>
      rw [dollarPattern, hr]
      simp [hc]

theorem replaceGlobal_literal_miss (lit v pre : Str) {c : Char} {t : Str}
    (h : ¬ lit <+: c :: t) :
    replaceGlobal (matchLiteral lit) v 0 pre (c :: t)
      = c :: replaceGlobal (matchLiteral lit) v 0 (pre ++ [c]) t :=
  replaceGlobal_miss _ _ _ _ _ (matchLiteral_eq_none.2 h)

theorem replaceGlobal_literal_hit {lit : Str} (hl : lit ≠ []) (v pre r : Str) :
    replaceGlobal (matchLiteral lit) v 0 pre (lit ++ r)
      = getSubstitution lit pre r [] v
        ++ replaceGlobal (matchLiteral lit) v 0 (pre ++ lit) r := by
  have hm : matchLiteral lit (lit ++ r) = some ⟨lit.length, []⟩ :=
    matchLiteral_eq_some.2 ⟨⟨r, rfl⟩, rfl⟩
  cases hlr : lit ++ r with
  | nil =>
    exfalso
    cases lit with
    | nil => exact hl rfl
    | cons a l => simp at hlr
  | cons c t =>
    rw [hlr] at hm
    have hpos : 1 ≤ lit.length := by
      cases lit with
      | nil => exact absurd rfl hl
      | cons a l => simp
    rw [replaceGlobal_hit _ _ _ _ _ _ hm hpos]
    simp only
    rw [← hlr, List.take_left, List.drop_left]

/-- Induction along a scan for a non-empty literal. -/
theorem literal_induction {lit : Str} (hl : lit ≠ []) {P : Str → Prop} (nil : P [])
    (hit : ∀ r, P r → P (lit ++ r))
    (miss : ∀ c t, ¬ lit <+: c :: t → P t → P (c :: t)) :
    ∀ s, P s := by
  suffices h : ∀ n, ∀ s : Str, s.length = n → P s from fun s => h _ s rfl
  intro n
  induction n using Nat.strong_induction_on with
  | _ n ih =>
    intro s hn
    cases s with
    | nil => exact nil
    | cons c t =>
      by_cases h : lit <+: c :: t
      · obtain ⟨r, hr⟩ := h
        rw [← hr]
        refine hit r (ih r.length ?_ r rfl)
        have hpos : 1 ≤ lit.length := by
          cases lit with
          | nil => exact absurd rfl hl
          | cons a l => simp
        have : (lit ++ r).length = n := by rw [hr]; exact hn
        rw [List.length_append] at this
        omega
      · exact miss c t h (ih t.length (by simp [← hn]) t rfl)

theorem replaceGlobal_of_absent {lit : Str} (v : Str) (s : Str)
    (h : ¬ lit <:+: s) (pre : Str) :
    replaceGlobal (matchLiteral lit) v 0 pre s = s := by
  induction s generalizing pre with
  | nil => rfl
  | cons c t ih =>
    rw [replaceGlobal_literal_miss lit v pre (fun hp => h hp.isInfix),
      ih (fun hi => h (List.infix_cons hi))]

/-- With a replacement text free of dollar patterns, the replacement loop
for a literal replaces every occurrence by the text itself. -/
theorem replacedEvery_replaceGlobal {lit : Str} (hl : lit ≠ []) {v : Str}
    (hv : dollarPattern v = false) (s pre : Str) :
    ReplacedEvery lit v s (replaceGlobal (matchLiteral lit) v 0 pre s) := by
  induction s using literal_induction hl generalizing pre with
  | nil => exact ReplacedEvery.nil
  | hit r ih =>
    rw [replaceGlobal_literal_hit hl, getSubstitution_verbatim _ _ _ hv]
    exact ReplacedEvery.hit r _ (ih _)
  | miss c t hm ih =>
    rw [replaceGlobal_literal_miss lit v pre hm]
    exact ReplacedEvery.keep c t _ hm (ih _)

theorem aliasRewritten_normalizeAlias (s : Str) : AliasRewritten s (normalizeAlias s) := by
  induction s using scan_induction openAlias with
  | nil => exact AliasRewritten.nil
  | hit w r hw ih =>
    have hs : openAlias ++ w ++ closeVar ++ r = aliasPlaceholder w ++ r := by
      simp [aliasPlaceholder]
    rw [hs, normalizeAlias_hit hw]
    exact AliasRewritten.hit w r _ hw ih
  | miss c t hm ih =>
    have hm2 : matchAlias (c :: t) = none := hm
    rw [normalizeAlias_miss hm2]
    refine AliasRewritten.keep c t _ ?_ ih
    rintro x hx ⟨post, hpost⟩
    rw [← hpost] at hm2
    exact matchAlias_aliasPlaceholder hx post hm2

theorem normalizeAlias_of_no_alias (s : Str)
    (h : ∀ x : Str, isIdentifier x = true → ¬ aliasPlaceholder x <:+: s) :
    normalizeAlias s = s := by
  induction s with
  | nil => rfl
  | cons c t ih =>
    have hm : matchAlias (c :: t) = none := by
      cases hm : matchAlias (c :: t) with
      | none => rfl
      | some μ =>
        exfalso
        obtain ⟨w, r, hw, hs, _⟩ := matchPlaceholder_eq_some.1 hm
        apply h w hw
        rw [hs]
        exact ⟨[], r, by simp [aliasPlaceholder]⟩
    rw [normalizeAlias_miss hm, ih (fun x hx hi => h x hx (List.infix_cons hi))]

/-! ## One entry of `values` -/

theorem compileKey_of_plainKey (lit : Str) {key : Str} (h : key.any isSyntaxChar = false) :
    compileKey lit key = Compiled.literal (lit ++ key ++ closeVar) := by
  unfold compileKey
  rw [h]
  rfl

theorem replaceEntry_of_plainKey (result : Str) {key : Str} (h : key.any isSyntaxChar = false)
    (value : Option Str) :
    replaceEntry result (key, value)
      = some (replaceAll (matchLiteral (aliasPlaceholder key)) (value.getD [])
          (replaceAll (matchLiteral (placeholder key)) (value.getD []) result)) := by
  unfold replaceEntry
  simp only [compileKey_of_plainKey _ h]
  rfl

theorem placeholder_ne_nil (n : Str) : placeholder n ≠ [] := by
  rw [placeholder_eq]; exact List.cons_ne_nil _ _

theorem aliasPlaceholder_ne_nil (n : Str) : aliasPlaceholder n ≠ [] := by
  rw [aliasPlaceholder_eq]; exact List.cons_ne_nil _ _

theorem dollar_mem_of_alias_occurs {n s : Str} (h : aliasPlaceholder n <:+: s) : '$' ∈ s := by
  obtain ⟨a, b, rfl⟩ := h
  simp [aliasPlaceholder, openAlias]

/-- One entry with a key free of syntax characters and a value free of
dollar patterns: both replacements put the value in verbatim. -/
theorem replaceVariables_plainKey (html m : Str) (v : Option Str)
    (hs : m.any isSyntaxChar = false) (hv : dollarPattern (v.getD []) = false) :
    ∃ r1 r2, ReplacedEvery (placeholder m) (v.getD []) (normalizeAlias html) r1 ∧
      ReplacedEvery (aliasPlaceholder m) (v.getD []) r1 r2 ∧
      replaceVariables html [(m, v)] = some r2 := by
  refine ⟨replaceAll (matchLiteral (placeholder m)) (v.getD []) (normalizeAlias html),
    replaceAll (matchLiteral (aliasPlaceholder m)) (v.getD [])
      (replaceAll (matchLiteral (placeholder m)) (v.getD []) (normalizeAlias html)), ?_, ?_, ?_⟩
  · exact replacedEvery_replaceGlobal (placeholder_ne_nil m) hv _ _
  · exact replacedEvery_replaceGlobal (aliasPlaceholder_ne_nil m) hv _ _
  · simp only [replaceVariables, replaceEntries, replaceEntry_of_plainKey _ hs]

/-- A text in which no placeholder of a key occurs, in either syntax, goes
through the loop over the entries unchanged. -/
theorem replaceEntries_of_absent (values : List (Str × Option Str))
    (hkeys : ∀ e ∈ values, e.1.any isSyntaxChar = false) (s : Str)
    (h : ∀ e ∈ values, ¬ placeholder e.1 <:+: s ∧ ¬ aliasPlaceholder e.1 <:+: s) :
    replaceEntries s values = some s := by
  induction values with
  | nil => rfl
  | cons e es ih =>
    obtain ⟨k, value⟩ := e
    have hk := h (k, value) (List.mem_cons_self _ _)
    rw [replaceEntries, replaceEntry_of_plainKey _ (hkeys (k, value) (List.mem_cons_self _ _))]
    unfold replaceAll
    rw [replaceGlobal_of_absent _ _ hk.1, replaceGlobal_of_absent _ _ hk.2]
    exact ih (fun e he => hkeys e (List.mem_cons_of_mem _ he))
      (fun e he => h e (List.mem_cons_of_mem _ he))

/-- A text without `{{$json.` has no alias placeholder. -/
theorem no_alias_of_no_openAlias {s : Str} (h : ¬ openAlias <:+: s) (x : Str) :
    ¬ aliasPlaceholder x <:+: s := by
  rintro ⟨a, b, hab⟩
  apply h
  refine ⟨a, x ++ closeVar ++ b, ?_⟩
  rw [← hab]
  simp [aliasPlaceholder]

/-! ## Placeholders that a replacement leaves in place -/

theorem not_prefix_of_head_ne {lit : Str} {a c : Char} {l t : Str} (hl : lit = a :: l)
    (hc : c ≠ a) : ¬ lit <+: c :: t := by
  rw [hl, List.cons_prefix_cons]
  intro h; exact hc h.1.symm

theorem replaceGlobal_literal_append_no_brace {lit l : Str} (hl : lit = '{' :: l) (v : Str)
    {u : Str} (hu : ∀ c ∈ u, c ≠ '{') (pre r : Str) :
    replaceGlobal (matchLiteral lit) v 0 pre (u ++ r)
      = u ++ replaceGlobal (matchLiteral lit) v 0 (pre ++ u) r := by
  induction u generalizing pre with
  | nil => simp
  | cons a u ih =>
    rw [List.cons_append, replaceGlobal_literal_miss lit v pre
      (not_prefix_of_head_ne hl (hu a (List.mem_cons_self _ _))),
      ih (fun c hc => hu c (List.mem_cons_of_mem _ hc))]
    simp [List.append_assoc]

/-- A text that opens with two braces and is brace-free after them is copied
whole by the replacement loop of a literal that opens with two braces and
does not start the subject. -/
theorem replaceGlobal_literal_braced_append {lit l : Str} (hl : lit = '{' :: '{' :: l)
    (v : Str) {X : Str} (hX : X ≠ []) (hb : ∀ c ∈ X, c ≠ '{') (pre post : Str)
    (h : ¬ lit <+: '{' :: '{' :: (X ++ post)) :
    replaceGlobal (matchLiteral lit) v 0 pre ('{' :: '{' :: (X ++ post))
      = '{' :: '{' :: X ++ replaceGlobal (matchLiteral lit) v 0 (pre ++ '{' :: '{' :: X) post := by
  rw [replaceGlobal_literal_miss lit v pre h]
  have h2 : ¬ lit <+: '{' :: (X ++ post) := by
    cases X with
    | nil => exact absurd rfl hX
    | cons a X =>
      rw [hl, List.cons_append, List.cons_prefix_cons, List.cons_prefix_cons]
      intro h3; exact hb a (List.mem_cons_self _ _) h3.2.1.symm
  rw [replaceGlobal_literal_miss lit v _ h2,
    replaceGlobal_literal_append_no_brace hl v hb]
  simp [List.append_assoc]

/-- An occurrence of a braced text survives the replacement of a braced
literal with which it cannot coincide at either end. -/
theorem infix_replaceGlobal_literal {lit body : Str} (hl : lit = '{' :: '{' :: body)
    (hbody : body ≠ []) (hbb : ∀ c ∈ body, c ≠ '{') (v : Str)
    {X : Str} (hX : X ≠ []) (hb : ∀ c ∈ X, c ≠ '{')
    (h1 : ∀ r, ¬ '{' :: '{' :: X <+: lit ++ r)
    (h2 : ∀ post, ¬ lit <+: '{' :: '{' :: (X ++ post))
    (s pre : Str) (h : '{' :: '{' :: X <:+: s) :
    '{' :: '{' :: X <:+: replaceGlobal (matchLiteral lit) v 0 pre s := by
  have hne : lit ≠ [] := by rw [hl]; exact List.cons_ne_nil _ _
  induction s using literal_induction hne generalizing pre with
  | nil => simp at h
  | hit r ih =>
    rw [replaceGlobal_literal_hit hne]
    have h3 : '{' :: '{' :: X <:+: '{' :: '{' :: (body ++ r) := by
      rw [hl] at h; simpa using h
    rcases infix_braced_cases X body r hbody hbb h3 with h4 | h4
    · exfalso; apply h1 r; rw [hl]; simpa using h4
    · exact (ih _ h4).trans (List.suffix_append _ _).isInfix
  | miss c t hm ih =>
    rw [List.infix_cons_iff] at h
    rcases h with ⟨post, hpost⟩ | h
    · have hpost2 : c :: t = '{' :: '{' :: (X ++ post) := by rw [← hpost]; simp
      rw [hpost2, replaceGlobal_literal_braced_append hl v hX hb pre post (h2 post)]
      exact (List.prefix_append _ _).isInfix
    · rw [replaceGlobal_literal_miss lit v pre hm]
      exact List.infix_cons (ih _ h)

theorem placeholder_infix_replace_placeholder {n k : Str} (hn : Plain n) (hk : Plain k)
    (hnk : k ≠ n) (v s pre : Str) (h : placeholder n <:+: s) :
    placeholder n <:+: replaceGlobal (matchLiteral (placeholder k)) v 0 pre s := by
  rw [placeholder_eq n] at h ⊢
  refine infix_replaceGlobal_literal (placeholder_eq k) (by simp [closeVar])
    (plain_body_no_brace hk) v (by simp [closeVar]) (plain_body_no_brace hn) ?_ ?_ s pre h
  · intro r hp
    rw [← placeholder_eq n] at hp
    exact hnk (placeholder_prefix_placeholder hn hk r hp).symm
  · intro post hp
    have : placeholder k <+: placeholder n ++ post := by rw [placeholder_eq n]; simpa using hp
    exact hnk (placeholder_prefix_placeholder hk hn post this)

theorem placeholder_infix_replace_alias {n k : Str} (hn : Plain n) (hk : Plain k)
    (v s pre : Str) (h : placeholder n <:+: s) :
    placeholder n <:+: replaceGlobal (matchLiteral (aliasPlaceholder k)) v 0 pre s := by
  rw [placeholder_eq n] at h ⊢
  refine infix_replaceGlobal_literal (aliasPlaceholder_eq k) (by simp [closeVar])
    (plain_alias_body_no_brace hk) v (by simp [closeVar]) (plain_body_no_brace hn) ?_ ?_ s pre h
  · intro r hp
    rw [← placeholder_eq n] at hp
    exact placeholder_not_prefix_alias hn k r hp
  · intro post hp
    have : aliasPlaceholder k <+: placeholder n ++ post := by
      rw [placeholder_eq n]; simpa using hp
    exact alias_not_prefix_placeholder hn k post this

theorem placeholder_infix_replaceEntries {n : Str} (hn : Plain n)
    (values : List (Str × Option Str))
    (hkeys : ∀ e ∈ values, isIdentifier e.1 = true) (hne : ∀ e ∈ values, e.1 ≠ n)
    (s : Str) (h : placeholder n <:+: s) :
    ∃ res, replaceEntries s values = some res ∧ placeholder n <:+: res := by
  induction values generalizing s with
  | nil => exact ⟨s, rfl, h⟩
  | cons e es ih =>
    obtain ⟨k, value⟩ := e
    have hk : isIdentifier k = true := hkeys (k, value) (List.mem_cons_self _ _)
    have hkn : k ≠ n := hne (k, value) (List.mem_cons_self _ _)
    rw [replaceEntries, replaceEntry_of_plainKey _ (no_syntax_of_isIdentifier hk)]
    simp only
    apply ih (fun e he => hkeys e (List.mem_cons_of_mem _ he))
      (fun e he => hne e (List.mem_cons_of_mem _ he))
    exact placeholder_infix_replace_alias hn (plain_of_isIdentifier hk) _ _ _
      (placeholder_infix_replace_placeholder hn (plain_of_isIdentifier hk) hkn _ _ _ h)

/-! ## Texts that the alias rewrite cannot produce -/

theorem braced_prefix_normalizeAlias {X : Str} (hX : X ≠ []) (hb : ∀ c ∈ X, c ≠ '{')
    (hw : ∀ w r, isIdentifier w = true → ¬ '{' :: '{' :: X <+: placeholder w ++ r)
    (s : Str) (h : '{' :: '{' :: X <+: normalizeAlias s) : '{' :: '{' :: X <+: s := by
  cases s with
  | nil => rw [normalizeAlias_nil] at h; simp at h
  | cons c t =>
    cases hm : matchAlias (c :: t) with
    | some μ =>
      exfalso
      obtain ⟨w, r, hwi, hs, _⟩ := matchPlaceholder_eq_some.1 hm
      have hs2 : c :: t = aliasPlaceholder w ++ r := by rw [hs]; simp [aliasPlaceholder]
      rw [hs2, normalizeAlias_hit hwi] at h
      exact hw w _ hwi h
    | none =>
      rw [normalizeAlias_miss hm, List.cons_prefix_cons] at h
      obtain ⟨hc, h⟩ := h
      cases t with
      | nil => rw [normalizeAlias_nil] at h; simp at h
      | cons c2 t2 =>
        cases hm2 : matchAlias (c2 :: t2) with
        | some μ =>
          exfalso
          obtain ⟨w, r, hwi, hs, _⟩ := matchPlaceholder_eq_some.1 hm2
          have hs2 : c2 :: t2 = aliasPlaceholder w ++ r := by
            rw [hs]; simp [aliasPlaceholder]
          rw [hs2, normalizeAlias_hit hwi, placeholder_eq, List.cons_append,
            List.cons_prefix_cons] at h
          cases X with
          | nil => exact hX rfl
          | cons a X =>
            rw [List.cons_append, List.cons_prefix_cons] at h
            exact hb a (List.mem_cons_self _ _) h.2.1
        | none =>
          rw [normalizeAlias_miss hm2, List.cons_prefix_cons] at h
          have h3 := prefix_normalizeAlias_no_brace hb t2 h.2
          rw [List.cons_prefix_cons, List.cons_prefix_cons]
          exact ⟨hc, h.1, h3⟩

/-- A braced text that no placeholder of an identifier starts with occurs in
the rewritten text only where it occurs in the subject. -/
theorem braced_infix_normalizeAlias {X : Str} (hX : X ≠ []) (hb : ∀ c ∈ X, c ≠ '{')
    (hw : ∀ w r, isIdentifier w = true → ¬ '{' :: '{' :: X <+: placeholder w ++ r)
    (s : Str) (h : '{' :: '{' :: X <:+: normalizeAlias s) : '{' :: '{' :: X <:+: s := by
  induction s using scan_induction openAlias with
  | nil => rw [normalizeAlias_nil] at h; simp at h
  | hit w r hwi ih =>
    have hs : openAlias ++ w ++ closeVar ++ r = aliasPlaceholder w ++ r := by
      simp [aliasPlaceholder]
    rw [hs, normalizeAlias_hit hwi] at h
    rw [hs]
    have h2 : '{' :: '{' :: X <:+: '{' :: '{' :: (w ++ closeVar ++ normalizeAlias r) := by
      rw [placeholder_eq] at h; simpa using h
    rcases infix_braced_cases X (w ++ closeVar) _ (by simp [closeVar])
      (plain_body_no_brace (plain_of_isIdentifier hwi)) h2 with h3 | h3
    · exfalso
      apply hw w (normalizeAlias r) hwi
      rw [placeholder_eq]; simpa using h3
    · exact (ih h3).trans (List.suffix_append _ _).isInfix
  | miss c t hm ih =>
    have hm2 : matchAlias (c :: t) = none := hm
    rw [normalizeAlias_miss hm2, List.infix_cons_iff] at h
    rcases h with h | h
    · rw [← normalizeAlias_miss hm2] at h
      exact (braced_prefix_normalizeAlias hX hb hw _ h).isInfix
    · exact List.infix_cons (ih h)

theorem placeholder_infix_normalizeAlias_of_not_identifier {m : Str} (hp : Plain m)
    (hm : isIdentifier m = false) (s : Str) (h : placeholder m <:+: normalizeAlias s) :
    placeholder m <:+: s := by
  rw [placeholder_eq] at h ⊢
  refine braced_infix_normalizeAlias (by simp [closeVar]) (plain_body_no_brace hp) ?_ s h
  intro w r hw hpre
  rw [← placeholder_eq] at hpre
  have := placeholder_prefix_placeholder hp (plain_of_isIdentifier hw) r hpre
  rw [this, hw] at hm
  cases hm

theorem aliasPlaceholder_infix_normalizeAlias {m : Str} (hp : Plain m) (s : Str)
    (h : aliasPlaceholder m <:+: normalizeAlias s) : aliasPlaceholder m <:+: s := by
  rw [aliasPlaceholder_eq] at h ⊢
  refine braced_infix_normalizeAlias (by simp [closeVar]) (plain_alias_body_no_brace hp) ?_ s h
  intro w r hw hpre
  rw [← aliasPlaceholder_eq] at hpre
  exact alias_not_prefix_placeholder (plain_of_isIdentifier hw) m r hpre

theorem isIdentifier_eq_false_of_mem {m : Str} {c : Char} (hc : c ∈ m)
    (hw : isWordChar c = false) : isIdentifier m = false := by
  by_contra h
  have h2 : isIdentifier m = true := by simpa using h
  have := (isIdentifier_iff.1 h2).2 c hc
  rw [hw] at this
  cases this

/-! ## Bodies without stray braces -/

theorem renderPieces_append (ps qs : List Piece) :
    renderPieces (ps ++ qs) = renderPieces ps ++ renderPieces qs := by
  induction ps with
  | nil => rfl
  | cons p ps ih => simp [renderPieces, ih]

theorem renderPieces_map_text (v : Str) : renderPieces (v.map Piece.text) = v := by
  induction v with
  | nil => rfl
  | cons c v ih => simp [renderPieces, Piece.render, ih]

theorem normalizeAlias_renderPieces (ps : List Piece) (h : ∀ p ∈ ps, p.wellFormed = true) :
    normalizeAlias (renderPieces ps) = renderPieces (ps.map Piece.unalias) := by
  induction ps with
  | nil => rfl
  | cons p ps ih =>
    have ih2 := ih (fun q hq => h q (List.mem_cons_of_mem _ hq))
    have hp := h p (List.mem_cons_self _ _)
    cases p with
    | text c =>
      have hc : c ≠ '{' := by
        simp only [Piece.wellFormed, Bool.and_eq_true, bne_iff_ne, ne_eq] at hp
        exact hp.1
      simp only [renderPieces, Piece.render, List.map_cons, Piece.unalias, List.singleton_append]
      rw [normalizeAlias_miss (matchAlias_none_of_head hc _), ih2]
    | var x =>
      simp only [renderPieces, Piece.render, List.map_cons, Piece.unalias]
      rw [normalizeAlias_placeholder_append (plain_of_isIdentifier hp), ih2]
    | aliasVar x =>
      simp only [renderPieces, Piece.render, List.map_cons, Piece.unalias]
      rw [normalizeAlias_hit hp, ih2]

theorem simple_unalias (ps : List Piece) (h : ∀ p ∈ ps, p.wellFormed = true) :
    ∀ p ∈ ps.map Piece.unalias, p.simple = true := by
  intro p hp
  obtain ⟨q, hq, rfl⟩ := List.mem_map.1 hp
  have := h q hq
  cases q <;> simpa [Piece.unalias, Piece.simple, Piece.wellFormed] using this

theorem wellFormed_of_simple {p : Piece} (h : p.simple = true) : p.wellFormed = true := by
  cases p <;> simp_all [Piece.simple, Piece.wellFormed]

theorem unalias_of_simple (ps : List Piece) (h : ∀ p ∈ ps, p.simple = true) :
    ps.map Piece.unalias = ps := by
  induction ps with
  | nil => rfl
  | cons p ps ih =>
    have hp := h p (List.mem_cons_self _ _)
    rw [List.map_cons, ih (fun q hq => h q (List.mem_cons_of_mem _ hq))]
    cases p with
    | text c => rfl
    | var x => rfl
    | aliasVar x => simp [Piece.simple] at hp

theorem not_alias_infix_renderPieces (k : Str) (ps : List Piece)
    (h : ∀ p ∈ ps, p.simple = true) : ¬ aliasPlaceholder k <:+: renderPieces ps := by
  induction ps with
  | nil =>
    rw [aliasPlaceholder_eq]
    simp [renderPieces]
  | cons p ps ih =>
    have ih2 := ih (fun q hq => h q (List.mem_cons_of_mem _ hq))
    have hp := h p (List.mem_cons_self _ _)
    intro hi
    cases p with
    | text c =>
      have hc : c ≠ '{' := by
        simp only [Piece.simple, Bool.and_eq_true, bne_iff_ne, ne_eq] at hp
        exact hp.1
      simp only [renderPieces, Piece.render, List.singleton_append] at hi
      rw [List.infix_cons_iff] at hi
      rcases hi with hi | hi
      · rw [aliasPlaceholder_eq, List.cons_prefix_cons] at hi
        exact hc hi.1.symm
      · exact ih2 hi
    | var x =>
      simp only [renderPieces, Piece.render] at hi
      exact ih2 (alias_infix_placeholder_append (plain_of_isIdentifier hp) _ hi)
    | aliasVar x => simp [Piece.simple] at hp

theorem replace_placeholder_renderPieces {k v : Str} (hk : Plain k) (hv : Clean v)
    (ps : List Piece) (h : ∀ p ∈ ps, p.simple = true) (pre : Str) :
    replaceGlobal (matchLiteral (placeholder k)) v 0 pre (renderPieces ps)
      = renderPieces (substPieces k v ps) := by
  have hd : '$' ∉ v := fun hm => (hv _ hm).2.2 rfl
  induction ps generalizing pre with
  | nil => rfl
  | cons p ps ih =>
    have ih2 := ih (fun q hq => h q (List.mem_cons_of_mem _ hq))
    have hp := h p (List.mem_cons_self _ _)
    cases p with
    | text c =>
      have hc : c ≠ '{' := by
        simp only [Piece.simple, Bool.and_eq_true, bne_iff_ne, ne_eq] at hp
        exact hp.1
      simp only [renderPieces, Piece.render, List.singleton_append, substPieces]
      rw [replaceGlobal_literal_miss _ v pre
        (not_prefix_of_head_ne (placeholder_eq k) hc), ih2]
    | var x =>
      have hx : Plain x := plain_of_isIdentifier hp
      by_cases hxk : x = k
      · subst hxk
        simp only [renderPieces, Piece.render, substPieces, if_true]
        rw [replaceGlobal_literal_hit (placeholder_ne_nil x),
          getSubstitution_no_dollar _ _ _ _ hd, ih2, renderPieces_append,
          renderPieces_map_text]
      · simp only [renderPieces, Piece.render, substPieces, if_neg hxk]
        have hnp : ¬ placeholder k <+: '{' :: '{' :: (x ++ closeVar ++ renderPieces ps) := by
          intro hpre
          apply hxk
          have : placeholder k <+: placeholder x ++ renderPieces ps := by
            rw [placeholder_eq x]; simpa using hpre
          exact (placeholder_prefix_placeholder hk hx _ this).symm
        have hs : placeholder x ++ renderPieces ps
            = '{' :: '{' :: (x ++ closeVar ++ renderPieces ps) := by
          rw [placeholder_eq]; simp
        rw [hs, replaceGlobal_literal_braced_append (placeholder_eq k) v
          (by simp [closeVar]) (plain_body_no_brace hx) pre _ hnp, ih2, placeholder_eq]
    | aliasVar x => simp [Piece.simple] at hp

theorem simple_substPieces {k v : Str} (hv : Clean v) (ps : List Piece)
    (h : ∀ p ∈ ps, p.simple = true) : ∀ p ∈ substPieces k v ps, p.simple = true := by
  induction ps with
  | nil => intro p hp; simp [substPieces] at hp
  | cons q ps ih =>
    have ih2 := ih (fun r hr => h r (List.mem_cons_of_mem _ hr))
    have hq := h q (List.mem_cons_self _ _)
    intro p hp
    cases q with
    | text c =>
      simp only [substPieces, List.mem_cons] at hp
      rcases hp with rfl | hp
      · exact hq
      · exact ih2 p hp
    | var x =>
      by_cases hxk : x = k
      · simp only [substPieces, if_pos hxk, List.mem_append, List.mem_map] at hp
        rcases hp with ⟨c, hc, rfl⟩ | hp
        · have := hv c hc
          simp [Piece.simple, this.1, this.2.1]
        · exact ih2 p hp
      · simp only [substPieces, if_neg hxk, List.mem_cons] at hp
        rcases hp with rfl | hp
        · exact hq
        · exact ih2 p hp
    | aliasVar x => simp [Piece.simple] at hq

theorem var_not_mem_substPieces (k v : Str) (ps : List Piece) :
    Piece.var k ∉ substPieces k v ps := by
  induction ps with
  | nil => simp [substPieces]
  | cons q ps ih =>
    cases q with
    | text c => simp [substPieces, ih]
    | var x =>
      by_cases hxk : x = k
      · simp [substPieces, hxk, ih]
      · simp only [substPieces, if_neg hxk, List.mem_cons, not_or]
        exact ⟨fun h => hxk (by injection h with h2; exact h2.symm), ih⟩
    | aliasVar x => simp [substPieces, ih]

theorem var_not_mem_substPieces_of_not_mem {j : Str} (k v : Str) (ps : List Piece)
    (h : Piece.var j ∉ ps) : Piece.var j ∉ substPieces k v ps := by
  induction ps with
  | nil => simp [substPieces]
  | cons q ps ih =>
    rw [List.mem_cons, not_or] at h
    have ih2 := ih h.2
    cases q with
    | text c => simp [substPieces, ih2]
    | var x =>
      by_cases hxk : x = k
      · simp [substPieces, hxk, ih2]
      · simp only [substPieces, if_neg hxk, List.mem_cons, not_or]
        exact ⟨h.1, ih2⟩
    | aliasVar x => simp [substPieces, ih2]

theorem substPieces_of_not_mem (k v : Str) (ps : List Piece) (h : Piece.var k ∉ ps) :
    substPieces k v ps = ps := by
  induction ps with
  | nil => rfl
  | cons q ps ih =>
    rw [List.mem_cons, not_or] at h
    cases q with
    | text c => simp [substPieces, ih h.2]
    | var x =>
      have hxk : x ≠ k := fun e => h.1 (by rw [e])
      simp [substPieces, hxk, ih h.2]
    | aliasVar x => simp [substPieces, ih h.2]

theorem replaceEntries_renderPieces (values : List (Str × Option Str))
    (hkeys : ∀ e ∈ values, isIdentifier e.1 = true)
    (hvals : ∀ e ∈ values, Clean (e.2.getD []))
    (ps : List Piece) (h : ∀ p ∈ ps, p.simple = true) :
    replaceEntries (renderPieces ps) values = some (renderPieces (substAll ps values)) ∧
      ∀ p ∈ substAll ps values, p.simple = true := by
  induction values generalizing ps with
  | nil => exact ⟨rfl, h⟩
  | cons e es ih =>
    obtain ⟨k, value⟩ := e
    have hk : isIdentifier k = true := hkeys (k, value) (List.mem_cons_self _ _)
    have hv : Clean (value.getD []) := hvals (k, value) (List.mem_cons_self _ _)
    have hs := simple_substPieces (k := k) hv ps h
    rw [replaceEntries, replaceEntry_of_plainKey _ (no_syntax_of_isIdentifier hk)]
    simp only [substAll]
    unfold replaceAll
    rw [replace_placeholder_renderPieces (plain_of_isIdentifier hk) hv ps h,
      replaceGlobal_of_absent _ _ (not_alias_infix_renderPieces k _ hs)]
    exact ih (fun e he => hkeys e (List.mem_cons_of_mem _ he))
      (fun e he => hvals e (List.mem_cons_of_mem _ he)) _ hs

theorem var_not_mem_substAll_of_not_mem {j : Str} (values : List (Str × Option Str))
    (ps : List Piece) (h : Piece.var j ∉ ps) : Piece.var j ∉ substAll ps values := by
  induction values generalizing ps with
  | nil => exact h
  | cons e es ih => exact ih _ (var_not_mem_substPieces_of_not_mem _ _ ps h)

theorem var_not_mem_substAll (values : List (Str × Option Str)) (ps : List Piece) :
    ∀ e ∈ values, Piece.var e.1 ∉ substAll ps values := by
  induction values generalizing ps with
  | nil => intro e he; cases he
  | cons e0 es ih =>
    intro e he
    rcases List.mem_cons.1 he with rfl | he
    · exact var_not_mem_substAll_of_not_mem es _ (var_not_mem_substPieces _ _ ps)
    · exact ih _ e he

theorem substAll_of_not_mem (values : List (Str × Option Str)) (ps : List Piece)
    (h : ∀ e ∈ values, Piece.var e.1 ∉ ps) : substAll ps values = ps := by
  induction values with
  | nil => rfl
  | cons e es ih =>
    rw [substAll, substPieces_of_not_mem _ _ ps (h e (List.mem_cons_self _ _))]
    exact ih (fun e he => h e (List.mem_cons_of_mem _ he))

/-! ## The preview handler -/

theorem replaceEntries_some (values : List (Str × Option Str))
    (h : ∀ e ∈ values, e.1.any isSyntaxChar = false) (s : Str) :
    ∃ r, replaceEntries s values = some r := by
  induction values generalizing s with
  | nil => exact ⟨s, rfl⟩
  | cons e es ih =>
    obtain ⟨k, value⟩ := e
    rw [replaceEntries, replaceEntry_of_plainKey _ (h (k, value) (List.mem_cons_self _ _))]
    exact ih (fun e he => h e (List.mem_cons_of_mem _ he)) _

theorem find_id_of_mem (l : List Template) (t : Template)
    (hpk : l.Pairwise (fun a b => a.id ≠ b.id)) (ht : t ∈ l) :
    l.find? (fun u => u.id = t.id) = some t := by
  induction l with
  | nil => cases ht
  | cons u l ih =>
    rw [List.pairwise_cons] at hpk
    rcases List.mem_cons.1 ht with rfl | hl
    · simp [List.find?]
    · have hne : u.id ≠ t.id := hpk.1 t hl
      simp only [List.find?, hne, decide_False]
      exact ih hpk.2 hl

theorem getTemplate_of_mem (store : Store) (t : Template)
    (hpk : store.templates.Pairwise (fun a b => a.id ≠ b.id)) (ht : t ∈ store.templates) :
    getTemplate store t.id = some t :=
  find_id_of_mem store.templates t hpk ht

theorem getTemplate_of_not_mem (store : Store) (id : Str)
    (h : ∀ u ∈ store.templates, u.id ≠ id) : getTemplate store id = none := by
  unfold getTemplate
  rw [List.find?_eq_none]
  intro u hu
  simpa using h u hu

/-! ## The listing query -/

theorem leftMatches_ne_nil {β : Type} (right : List β) (cond : β → Bool) :
    leftMatches right cond ≠ [] := by
  unfold leftMatches
  cases right.filter cond <;> simp

theorem exists_mem_of_ne_nil {α : Type} {l : List α} (h : l ≠ []) : ∃ a, a ∈ l := by
  cases l with
  | nil => exact absurd rfl h
  | cons a l => exact ⟨a, List.mem_cons_self _ _⟩

theorem mem_joinRows_template {store : Store} {r : JoinRow} (h : r ∈ joinRows store) :
    r.t ∈ store.templates := by
  simp only [joinRows, List.mem_flatMap, List.mem_map] at h
  obtain ⟨t, ht, c, _, tt, _, tg, _, rfl⟩ := h
  exact ht

theorem exists_joinRow (store : Store) {t : Template} (ht : t ∈ store.templates) :
    ∃ r ∈ joinRows store, r.t = t := by
  obtain ⟨c, hc⟩ := exists_mem_of_ne_nil
    (leftMatches_ne_nil store.categories (fun c => t.category_id = some c.id))
  obtain ⟨tt, htt⟩ := exists_mem_of_ne_nil
    (leftMatches_ne_nil store.template_tags (fun tt => t.id = tt.template_id))
  obtain ⟨tg, htg⟩ := exists_mem_of_ne_nil (leftMatches_ne_nil store.tags (tagJoinCond tt))
  refine ⟨⟨t, c, tt, tg⟩, ?_, rfl⟩
  simp only [joinRows, List.mem_flatMap, List.mem_map]
  exact ⟨t, ht, c, hc, tt, htt, tg, htg, rfl⟩

theorem inTagSubquery_iff (store : Store) (tagList : List Str) (t : Template) :
    inTagSubquery store tagList t = true ↔
      ∃ g ∈ tagList, (⟨t.id, g⟩ : TemplateTag) ∈ store.template_tags := by
  unfold inTagSubquery
  simp only [List.any_eq_true, Bool.and_eq_true, decide_eq_true_eq]
  constructor
  · rintro ⟨tt, htt, hid, hg⟩
    refine ⟨tt.tag_id, List.elem_iff.1 hg, ?_⟩
    rw [← hid]
    exact htt
  · rintro ⟨g, hg, hm⟩
    exact ⟨⟨t.id, g⟩, hm, rfl, List.elem_iff.2 hg⟩

theorem whereClause_iff (store : Store) (category tags : Option Str) (r : JoinRow) :
    whereClause store category tags r = true ↔
      (truthy category = false ∨ r.t.category_id = category) ∧
      (truthy tags = false ∨
        ∃ g ∈ splitComma (tags.getD []), (⟨r.t.id, g⟩ : TemplateTag) ∈ store.template_tags) := by
  unfold whereClause
  rw [Bool.and_eq_true]
  apply and_congr
  · cases category with
    | none => simp [truthy]
    | some c =>
      by_cases hc : truthy (some c) = true
      · simp [hc]
      · simp [hc]
  · cases tags with
    | none => simp [truthy]
    | some s =>
      by_cases hs : truthy (some s) = true
      · simp [hs, inTagSubquery_iff]
      · simp [hs]

theorem map_filterMap_eq {α β : Type} (f : α → Option β) (g : β → α) (l : List α)
    (h : ∀ x ∈ l, ∃ y, f x = some y ∧ g y = x) : (l.filterMap f).map g = l := by
  induction l with
  | nil => rfl
  | cons a l ih =>
    obtain ⟨y, hy, hg⟩ := h a (List.mem_cons_self _ _)
    rw [List.filterMap_cons, hy]
    simp only [List.map_cons, hg]
    rw [ih (fun x hx => h x (List.mem_cons_of_mem _ hx))]

theorem groupRow_t (first : JoinRow) (group : List JoinRow) :
    (groupRow first group).t = first.t := rfl

/-- The groups of `GROUP BY t.id`: one for every distinct key. -/
theorem groupById_ids (rows : List JoinRow) :
    (groupById rows).map (fun q => q.t.id) = (rows.map (fun r => r.t.id)).dedup := by
  unfold groupById
  apply map_filterMap_eq
  intro id hid
  rw [List.mem_dedup, List.mem_map] at hid
  obtain ⟨r, hr, hrid⟩ := hid
  have hmem : r ∈ rows.filter (fun r => r.t.id = id) := by
    rw [List.mem_filter]; exact ⟨hr, by simpa using hrid⟩
  cases hf : rows.filter (fun r => r.t.id = id) with
  | nil => rw [hf] at hmem; cases hmem
  | cons first rest =>
    refine ⟨_, rfl, ?_⟩
    have hfirst : first ∈ rows.filter (fun r => r.t.id = id) := by
      rw [hf]; exact List.mem_cons_self _ _
    rw [List.mem_filter] at hfirst
    simpa [groupRow_t] using hfirst.2

theorem mem_groupById {rows : List JoinRow} {q : QueryRow} (h : q ∈ groupById rows) :
    ∃ first rest, first ∈ rows ∧ q = groupRow first (first :: rest) ∧
      ∀ r ∈ first :: rest, r ∈ rows ∧ r.t.id = first.t.id := by
  unfold groupById at h
  rw [List.mem_filterMap] at h
  obtain ⟨id, _, hq⟩ := h
  cases hf : rows.filter (fun r => r.t.id = id) with
  | nil => rw [hf] at hq; cases hq
  | cons first rest =>
    rw [hf] at hq
    simp only [Option.some.injEq] at hq
    have hall : ∀ r ∈ first :: rest, r ∈ rows ∧ r.t.id = id := by
      intro r hr
      rw [← hf, List.mem_filter] at hr
      exact ⟨hr.1, by simpa using hr.2⟩
    have hfirst := hall first (List.mem_cons_self _ _)
    refine ⟨first, rest, hfirst.1, hq.symm, ?_⟩
    intro r hr
    exact ⟨(hall r hr).1, (hall r hr).2.trans hfirst.2.symm⟩

theorem groupConcat_isSome_iff (values : List (Option Str)) :
    (groupConcat values).isSome = true ↔ ∃ x, some x ∈ values := by
  unfold groupConcat
  cases h : values.filterMap id with
  | nil =>
    simp only [Option.isSome_none, Bool.false_eq_true, false_iff, not_exists]
    intro x hx
    have : x ∈ values.filterMap id := List.mem_filterMap.2 ⟨some x, hx, rfl⟩
    rw [h] at this
    cases this
  | cons a l =>
    simp only [Option.isSome_some, true_iff]
    have : a ∈ values.filterMap id := by rw [h]; exact List.mem_cons_self _ _
    obtain ⟨o, ho, hoa⟩ := List.mem_filterMap.1 this
    simp only [id] at hoa
    exact ⟨a, hoa ▸ ho⟩

theorem groupConcat_map_isSome_iff (group : List JoinRow) (f : Tag → Str) :
    (groupConcat (group.map fun r => r.tg.map f)).isSome = true ↔
      ∃ r ∈ group, r.tg.isSome = true := by
  rw [groupConcat_isSome_iff]
  constructor
  · rintro ⟨x, hx⟩
    obtain ⟨r, hr, hrx⟩ := List.mem_map.1 hx
    refine ⟨r, hr, ?_⟩
    cases htg : r.tg with
    | none => rw [htg] at hrx; cases hrx
    | some g => rfl
  · rintro ⟨r, hr, hs⟩
    cases htg : r.tg with
    | none => rw [htg] at hs; cases hs
    | some g => exact ⟨f g, List.mem_map.2 ⟨r, hr, by rw [htg]; rfl⟩⟩

theorem processRow_some (q : QueryRow)
    (h : q.tag_ids.isSome = true → q.tag_names.isSome = true ∧ q.tag_colors.isSome = true) :
    ∃ y, processRow q = some y ∧ y.t = q.t := by
  unfold processRow
  by_cases ht : truthy q.tag_ids = true
  · rw [if_pos ht]
    cases hids : q.tag_ids with
    | none => rw [hids] at ht; cases ht
    | some ids =>
      obtain ⟨hn, hc⟩ := h (by rw [hids]; rfl)
      cases hnames : q.tag_names with
      | none => rw [hnames] at hn; cases hn
      | some names =>
        cases hcolors : q.tag_colors with
        | none => rw [hcolors] at hc; cases hc
        | some colors => exact ⟨_, rfl, rfl⟩
  · rw [if_neg ht]
    exact ⟨_, rfl, rfl⟩

theorem processRow_groupRow (first : JoinRow) (group : List JoinRow) :
    ∃ y, processRow (groupRow first group) = some y ∧ y.t = first.t := by
  apply processRow_some
  intro h
  have h2 := (groupConcat_map_isSome_iff group (fun g => g.id)).1 h
  exact ⟨(groupConcat_map_isSome_iff group (fun g => g.name)).2 h2,
    (groupConcat_map_isSome_iff group (fun g => g.color)).2 h2⟩

theorem processRows_some (l : List QueryRow)
    (h : ∀ q ∈ l, ∃ y, processRow q = some y ∧ y.t = q.t) :
    ∃ ys, processRows l = some ys ∧ ys.map (fun y => y.t) = l.map (fun q => q.t) := by
  induction l with
  | nil => exact ⟨[], rfl, rfl⟩
  | cons q l ih =>
    obtain ⟨y, hy, hyt⟩ := h q (List.mem_cons_self _ _)
    obtain ⟨ys, hys, hmap⟩ := ih (fun q hq => h q (List.mem_cons_of_mem _ hq))
    refine ⟨y :: ys, ?_, ?_⟩
    · rw [processRows, hy, hys]
    · simp [hyt, hmap]

theorem eq_of_id_eq (l : List Template) (hpk : l.Pairwise (fun a b => a.id ≠ b.id))
    {a b : Template} (ha : a ∈ l) (hb : b ∈ l) (h : a.id = b.id) : a = b := by
  induction l with
  | nil => cases ha
  | cons u l ih =>
    rw [List.pairwise_cons] at hpk
    rcases List.mem_cons.1 ha with rfl | ha2
    · rcases List.mem_cons.1 hb with rfl | hb2
      · rfl
      · exact absurd h (hpk.1 b hb2)
    · rcases List.mem_cons.1 hb with rfl | hb2
      · exact absurd h.symm (hpk.1 a ha2)
      · exact ih hpk.2 ha2 hb2

/-- The templates of the listing query: those of the store that pass the
`WHERE` clause, one result row for each key. -/
theorem listQuery_spec (store : Store) (category tags : Option Str)
    (hpk : store.templates.Pairwise (fun a b => a.id ≠ b.id)) :
    ((listQuery store category tags).map (fun q => q.t.id)).Nodup ∧
      (∀ q ∈ listQuery store category tags, ∃ y, processRow q = some y ∧ y.t = q.t) ∧
      ∀ t : Template, t ∈ (listQuery store category tags).map (fun q => q.t) ↔
        t ∈ store.templates ∧
          (truthy category = false ∨ t.category_id = category) ∧
          (truthy tags = false ∨
            ∃ g ∈ splitComma (tags.getD []),
              (⟨t.id, g⟩ : TemplateTag) ∈ store.template_tags) := by
  have hperm := List.perm_insertionSort (fun a b : QueryRow => b.t.updated_at ≤ a.t.updated_at)
    (groupById ((joinRows store).filter (whereClause store category tags)))
  refine ⟨?_, ?_, ?_⟩
  · unfold listQuery
    rw [(hperm.map _).nodup_iff, groupById_ids]
    exact List.nodup_dedup _
  · intro q hq
    unfold listQuery at hq
    rw [List.mem_insertionSort] at hq
    obtain ⟨first, rest, _, rfl, _⟩ := mem_groupById hq
    exact processRow_groupRow first _
  · intro t
    unfold listQuery
    rw [List.mem_map]
    constructor
    · rintro ⟨q, hq, rfl⟩
      rw [List.mem_insertionSort] at hq
      obtain ⟨first, rest, hfirst, rfl, _⟩ := mem_groupById hq
      rw [List.mem_filter] at hfirst
      rw [groupRow_t]
      exact ⟨mem_joinRows_template hfirst.1, (whereClause_iff _ _ _ _).1 hfirst.2⟩
    · rintro ⟨ht, hw⟩
      obtain ⟨r, hr, hrt⟩ := exists_joinRow store ht
      have hrf : r ∈ (joinRows store).filter (whereClause store category tags) := by
        rw [List.mem_filter]
        refine ⟨hr, (whereClause_iff _ _ _ _).2 ?_⟩
        rw [hrt]; exact hw
      have hid : r.t.id ∈ (groupById ((joinRows store).filter
          (whereClause store category tags))).map (fun q => q.t.id) := by
        rw [groupById_ids, List.mem_dedup]
        exact List.mem_map.2 ⟨r, hrf, rfl⟩
      obtain ⟨q, hq, hqid⟩ := List.mem_map.1 hid
      refine ⟨q, (List.mem_insertionSort _).2 hq, ?_⟩
      obtain ⟨first, rest, hfirst, rfl, _⟩ := mem_groupById hq
      rw [groupRow_t] at hqid ⊢
      rw [List.mem_filter] at hfirst
      have hft := mem_joinRows_template hfirst.1
      rw [← hrt]
      exact eq_of_id_eq store.templates hpk hft (hrt ▸ ht) hqid

/-! ## Replacing the tags of a template -/

theorem mem_insertOrIgnore {table : List TemplateTag} {row r : TemplateTag} :
    r ∈ insertOrIgnore table row ↔ r ∈ table ∨ r = row := by
  unfold insertOrIgnore
  by_cases h : row ∈ table
  · rw [if_pos h]
    constructor
    · exact Or.inl
    · rintro (h2 | rfl)
      · exact h2
      · exact h
  · rw [if_neg h, List.mem_append, List.mem_singleton]

theorem mem_foldl_insertOrIgnore (id : Str) (ids : List Str) (table : List TemplateTag)
    (r : TemplateTag) :
    r ∈ ids.foldl (fun table tagId => insertOrIgnore table ⟨id, tagId⟩) table ↔
      r ∈ table ∨ ∃ x ∈ ids, r = ⟨id, x⟩ := by
  induction ids generalizing table with
  | nil => simp
  | cons a ids ih =>
    rw [List.foldl_cons, ih, mem_insertOrIgnore]
    constructor
    · rintro ((h | h) | ⟨x, hx, h⟩)
      · exact Or.inl h
      · exact Or.inr ⟨a, List.mem_cons_self _ _, h⟩
      · exact Or.inr ⟨x, List.mem_cons_of_mem _ hx, h⟩
    · rintro (h | ⟨x, hx, h⟩)
      · exact Or.inl (Or.inl h)
      · rcases List.mem_cons.1 hx with rfl | hx2
        · exact Or.inl (Or.inr h)
        · exact Or.inr ⟨x, hx2, h⟩

theorem nodup_filter_insertOrIgnore (p : TemplateTag → Bool) (table : List TemplateTag)
    (row : TemplateTag) (h : (table.filter p).Nodup) :
    ((insertOrIgnore table row).filter p).Nodup := by
  unfold insertOrIgnore
  by_cases hr : row ∈ table
  · rw [if_pos hr]; exact h
  · rw [if_neg hr, List.filter_append]
    by_cases hp : p row = true
    · have hf : [row].filter p = [row] := by simp [hp]
      rw [hf]
      exact List.Nodup.append h (List.nodup_singleton row)
        (by
          intro x hx hx2
          rw [List.mem_singleton] at hx2
          subst hx2
          exact hr (List.mem_filter.1 hx).1)
    · have hf : [row].filter p = [] := by simp [hp]
      rw [hf]
      simpa using h

theorem nodup_filter_foldl_insertOrIgnore (p : TemplateTag → Bool) (id : Str)
    (ids : List Str) (table : List TemplateTag) (h : (table.filter p).Nodup) :
    ((ids.foldl (fun table tagId => insertOrIgnore table ⟨id, tagId⟩) table).filter p).Nodup := by
  induction ids generalizing table with
  | nil => exact h
  | cons a ids ih =>
    rw [List.foldl_cons]
    exact ih _ (nodup_filter_insertOrIgnore p table _ h)

theorem setTags_store (store : Store) (id : Str) (ids : List Str) :
    (setTags store id (some ids)).2.template_tags
      = ids.foldl (fun table tagId => insertOrIgnore table ⟨id, tagId⟩)
          (store.template_tags.filter fun tt => tt.template_id ≠ id) ∧
      (setTags store id (some ids)).2.templates = store.templates ∧
      (setTags store id (some ids)).2.categories = store.categories ∧
      (setTags store id (some ids)).2.tags = store.tags := by
  unfold setTags
  cases ids with
  | nil => simp
  | cons a l => simp

/-! ## Reordering -/

theorem length_foldl_setTagOrder (c : Str) (entries : List (Str × Int)) (tags : List Tag) :
    (entries.foldl (fun tags e => setTagOrder tags c e.1 e.2) tags).length = tags.length := by
  induction entries generalizing tags with
  | nil => rfl
  | cons e rest ih =>
    rw [List.foldl_cons, ih]
    simp [setTagOrder]

theorem getElem_foldl_setTagOrder (c : Str) (entries : List (Str × Int)) (tags : List Tag)
    (i : Nat) (t : Tag) (ht : tags[i]? = some t) (hc : t.category_id ≠ some c) :
    (entries.foldl (fun tags e => setTagOrder tags c e.1 e.2) tags)[i]? = some t := by
  induction entries generalizing tags with
  | nil => exact ht
  | cons e rest ih =>
    rw [List.foldl_cons]
    apply ih
    unfold setTagOrder
    rw [List.getElem?_map, ht]
    simp [hc]

theorem lastOrderFor_cons (e : Str × Int) (rest : List (Str × Int)) (id : Str) :
    lastOrderFor (e :: rest) id
      = match lastOrderFor rest id with
        | some v => some v
        | none => if e.1 = id then some e.2 else none := by
  unfold lastOrderFor
  rw [List.reverse_cons, List.find?_append]
  cases h : rest.reverse.find? (fun x => decide (x.1 = id)) with
  | some x => simp
  | none =>
    by_cases he : e.1 = id
    · simp [List.find?, he]
    · simp [List.find?, he]

/-- With no failing write, the loop of updates leaves in every category the
value of the last entry that names it. -/
theorem runCategoryOrders_eq (writeFails : Nat → Bool) (hw : ∀ j, writeFails j = false)
    (entries : List (Str × Int)) (i : Nat) (categories : List Category) :
    runCategoryOrders writeFails i categories entries
      = categories.map fun c =>
          match lastOrderFor entries c.id with
          | some v => { c with order_index := v }
          | none => c := by
  induction entries generalizing i categories with
  | nil => simp [runCategoryOrders, lastOrderFor]
  | cons e rest ih =>
    obtain ⟨id, oi⟩ := e
    rw [runCategoryOrders, hw i]
    simp only [Bool.false_eq_true, if_false]
    rw [ih, setCategoryOrder, List.map_map]
    apply List.map_congr_left
    intro c _
    simp only [Function.comp, lastOrderFor_cons]
    by_cases hid : c.id = id
    · have hid2 : id = c.id := hid.symm
      simp only [hid, if_true]
      cases hl : lastOrderFor rest id with
      | some v => rfl
      | none => simp
    · have hid2 : ¬ id = c.id := fun h => hid h.symm
      simp only [hid, if_false, hid2]
      cases hl : lastOrderFor rest c.id with
      | some v => rfl
      | none => rfl

theorem any_range_false (writeFails : Nat → Bool) (hw : ∀ j, writeFails j = false) (n : Nat) :
    (List.range n).any writeFails = false := by
  rw [List.any_eq_false]
  intro x _
  simp [hw x]


/-! ## Template create and update -/

theorem dropWhile_eq_self_of_head {α : Type} (p : α → Bool) (l : List α)
    (h : ∀ c, l.head? = some c → p c = false) : l.dropWhile p = l := by
  cases l with
  | nil => rfl
  | cons a t =>
    have := h a rfl
    simp [List.dropWhile, this]

theorem head_dropWhile_false {α : Type} (p : α → Bool) (l : List α) (c : α)
    (h : (l.dropWhile p).head? = some c) : p c = false := by
  have := List.head?_dropWhile_not p l
  rw [h] at this
  exact this

/-- Trimming a trimmed string changes nothing. -/
theorem trim_trim (s : Str) : trim (trim s) = trim s := by
  unfold trim
  generalize hd : s.dropWhile isWhiteSpace = d
  generalize he : d.reverse.dropWhile isWhiteSpace = e
  have hhead_e : ∀ c, e.head? = some c → isWhiteSpace c = false := by
    intro c hc
    rw [← he] at hc
    exact head_dropWhile_false _ _ _ hc
  have hhead_d : ∀ c, d.head? = some c → isWhiteSpace c = false := by
    intro c hc
    rw [← hd] at hc
    exact head_dropWhile_false _ _ _ hc
  have hsplit : d.reverse = d.reverse.takeWhile isWhiteSpace ++ e := by
    rw [← he, List.takeWhile_append_dropWhile]
  have hd2 : d = e.reverse ++ (d.reverse.takeWhile isWhiteSpace).reverse := by
    have := congrArg List.reverse hsplit
    simpa using this
  have h1 : e.reverse.dropWhile isWhiteSpace = e.reverse := by
    apply dropWhile_eq_self_of_head
    intro c hc
    apply hhead_d
    rw [hd2]
    cases hr : e.reverse with
    | nil => rw [hr] at hc; simp at hc
    | cons a t => rw [hr] at hc; simpa using hc
  rw [h1, List.reverse_reverse, dropWhile_eq_self_of_head _ _ hhead_e]

/-- What the create validators leave in the body of an accepted request. -/
theorem validateCreate_some (purify : Str → Str) (body req : TemplateRequest)
    (h : validateCreate purify body = some req) :
    req.name = some (trim (if (body.name.getD []).isEmpty then body.title.getD []
        else body.name.getD [])) ∧
      trim (if (body.name.getD []).isEmpty then body.title.getD [] else body.name.getD []) ≠ [] ∧
      (trim (if (body.name.getD []).isEmpty then body.title.getD []
        else body.name.getD [])).length ≤ 100 ∧
      req.description = body.description ∧
      req.html = body.html.map purify ∧
      req.category_id = sanitizeCategoryId body.category_id ∧
      req.email_subject = body.email_subject.map trim ∧
      truthy body.html = true := by
  simp only [validateCreate] at h
  generalize (if (body.name.getD []).isEmpty then body.title.getD [] else body.name.getD []) = x
    at h ⊢
  rw [Option.ite_none_right_eq_some] at h
  obtain ⟨hvalid, hreq⟩ := h
  cases hreq
  rw [trim_trim] at hvalid ⊢
  simp only [Bool.and_eq_true, Bool.not_eq_true', decide_eq_true_eq] at hvalid
  obtain ⟨⟨⟨hne, _, hle⟩, _⟩, hhtml⟩ := hvalid
  refine ⟨rfl, ?_, hle, rfl, rfl, rfl, rfl, hhtml⟩
  intro h0
  rw [h0] at hne
  simp at hne

theorem selectTemplateRow_t (store : Store) (t : Template) : (selectTemplateRow store t).t = t := by
  unfold selectTemplateRow
  split <;> rfl

theorem jsOr_some_of_ne_nil (s : Str) (b : Option Str) (h : s ≠ []) : jsOr (some s) b = some s := by
  cases s with
  | nil => exact absurd rfl h
  | cons a t => rfl


/-! ## Category and tag order -/

/-- The maximum of a list of integers is one of them and bounds them all. -/
theorem int_max_spec (l : List Int) (m : Int) (h : l.max? = some m) :
    m ∈ l ∧ ∀ b ∈ l, b ≤ m := by
  refine ⟨List.max?_mem (fun a b => max_choice a b) h, ?_⟩
  exact (List.max?_le_iff (fun a b c => max_le_iff) h).1 (le_refl m)

theorem toNumber_of_small (n : Int) (h : n.natAbs < 2 ^ 53) : toNumber n = n := by
  unfold toNumber
  have he : droppedBits 1024 n.natAbs = 0 := by
    rw [droppedBits, if_pos h]
  simp only [he, pow_zero, Nat.div_one, Nat.mod_one, Nat.mul_zero, Nat.mul_one]
  simp only [Nat.lt_irrefl, false_or, zero_ne_one, false_and, if_false]
  exact Int.sign_mul_natAbs n

theorem nextOrderAfter_none : nextOrderAfter none = 1 := by decide

/-- Below `2 ^ 53` in absolute value the value `(maxOrder || 0) + 1` is one
more than the maximum. -/
theorem nextOrderAfter_some (m : Int) (h : m.natAbs < 2 ^ 53) :
    nextOrderAfter (some m) = m + 1 := by
  unfold nextOrderAfter jsAdd
  simp only [toNumber_of_small m h]
  have hm : (if m = 0 then (0 : Int) else m) = m := by
    split
    · next h0 => exact h0.symm
    · rfl
  rw [hm]
  by_cases htop : m + 1 = 9007199254740992
  · rw [htop]
    decide
  · apply toNumber_of_small
    omega

theorem orderedInsert_append_last {α : Type} (r : α → α → Prop) [DecidableRel r]
    (b a : α) (hba : r b a) (m : List α) :
    List.orderedInsert r b (m ++ [a]) = List.orderedInsert r b m ++ [a] := by
  induction m with
  | nil => simp [List.orderedInsert, hba]
  | cons c m ih =>
    simp only [List.cons_append, List.orderedInsert]
    split
    · rfl
    · change c :: List.orderedInsert r b (m ++ [a]) = _
      rw [ih]; rfl

/-- Sorting a list with a new last element that comes after every other one
leaves it last. -/
theorem insertionSort_append_last {α : Type} (r : α → α → Prop) [DecidableRel r]
    (a : α) (l : List α) (h : ∀ b ∈ l, r b a) :
    List.insertionSort r (l ++ [a]) = List.insertionSort r l ++ [a] := by
  induction l with
  | nil => rfl
  | cons b l ih =>
    simp only [List.cons_append, List.insertionSort]
    change List.orderedInsert r b (List.insertionSort r (l ++ [a])) = _
    rw [ih (fun c hc => h c (List.mem_cons_of_mem _ hc)),
      orderedInsert_append_last r b a (h b (List.mem_cons_self _ _))]

/-- The `order_index` of the row of a successful tag create. -/
theorem createTag_order_eq (store : Store) (req : TagRequest) (uuid : Str) (now : Nat)
    (row : Tag) (store' : Store)
    (h : createTag store req uuid now = (Reply.json 201 row, store')) :
    ∃ c, req.category_id = some c ∧ row.category_id = some c ∧
      (∃ k ∈ store.categories, k.id = c) ∧
      row.order_index = nextOrderAfter (maxTagOrder store.tags c) := by
  unfold createTag at h
  cases hc : req.category_id with
  | none => rw [hc] at h; simp at h
  | some c =>
    rw [hc] at h
    simp only at h
    split at h
    · simp at h
    · cases hf : store.categories.find? (fun k => k.id = c) with
      | none => rw [hf] at h; simp at h
      | some k =>
        rw [hf] at h
        simp only at h
        cases hn : req.name with
        | none => rw [hn] at h; simp at h
        | some name =>
          rw [hn] at h
          simp only at h
          split at h
          · simp at h
          · simp only [Prod.mk.injEq, Reply.json.injEq, true_and] at h
            obtain ⟨h1, _⟩ := h
            refine ⟨c, rfl, by rw [← h1], ?_, ?_⟩
            · have := List.find?_some hf
              exact ⟨k, List.mem_of_find?_eq_some hf, by simpa using this⟩
            · rw [← h1]

/-! ## Alias rewriting is complete -/

/-- The rewrite of the aliases leaves no alias placeholder of an identifier. -/
theorem no_alias_normalizeAlias (x : Str) (hx : isIdentifier x = true) (s : Str) :
    ¬ aliasPlaceholder x <:+: normalizeAlias s := by
  induction s using scan_induction openAlias with
  | nil =>
    rw [normalizeAlias_nil, aliasPlaceholder_eq]
    intro h
    simp at h
  | hit w r hw ih =>
    have hs : openAlias ++ w ++ closeVar ++ r = aliasPlaceholder w ++ r := by
      simp [aliasPlaceholder]
    rw [hs, normalizeAlias_hit hw]
    intro h
    exact ih (alias_infix_placeholder_append (plain_of_isIdentifier hw) _ h)
  | miss c t hm ih =>
    have hm2 : matchAlias (c :: t) = none := hm
    intro h
    rw [normalizeAlias_miss hm2, List.infix_cons_iff] at h
    rcases h with h | h
    · rw [← normalizeAlias_miss hm2, aliasPlaceholder_eq] at h
      have hpre : '{' :: '{' :: (['$', 'j', 's', 'o', 'n', '.'] ++ x ++ closeVar) <+: c :: t := by
        refine braced_prefix_normalizeAlias (by simp [closeVar])
          (plain_alias_body_no_brace (plain_of_isIdentifier hx)) ?_ _ h
        intro w r hw hp
        rw [← aliasPlaceholder_eq] at hp
        exact alias_not_prefix_placeholder (plain_of_isIdentifier hw) x r hp
      rw [← aliasPlaceholder_eq] at hpre
      obtain ⟨r, hr⟩ := hpre
      apply matchAlias_aliasPlaceholder hx r
      rw [hr]
      exact hm2
    · exact ih h


/-! ## The filter of the client -/

theorem splitCommaFrom_append (a : Str) (h : ',' ∉ a) (cur rest : Str) :
    splitCommaFrom cur (a ++ rest) = splitCommaFrom (cur ++ a) rest := by
  induction a generalizing cur with
  | nil => simp
  | cons x a ih =>
    have hx : x ≠ ',' := fun e => h (by rw [e]; exact List.mem_cons_self _ _)
    have ha : ',' ∉ a := fun e => h (List.mem_cons_of_mem _ e)
    simp only [List.cons_append, splitCommaFrom, if_neg hx]
    change splitCommaFrom (cur ++ [x]) (a ++ rest) = _
    rw [ih ha]
    simp

theorem splitCommaFrom_joinComma (a : Str) (rest : List Str)
    (h : ∀ g ∈ a :: rest, ',' ∉ g) (cur : Str) :
    splitCommaFrom cur (joinComma (a :: rest)) = (cur ++ a) :: rest := by
  induction rest generalizing a cur with
  | nil =>
    have := splitCommaFrom_append a (h a (List.mem_cons_self _ _)) cur []
    rw [List.append_nil] at this
    rw [joinComma, this, splitCommaFrom]
  | cons b rest ih =>
    rw [joinComma, splitCommaFrom_append a (h a (List.mem_cons_self _ _)), splitCommaFrom,
      if_pos rfl, ih b (fun g hg => h g (List.mem_cons_of_mem _ hg))]
    simp

/-- Splitting the joined ids at the commas gives the ids back. -/
theorem splitComma_joinComma (ids : List Str) (hne : ids ≠ []) (h : ∀ g ∈ ids, ',' ∉ g) :
    splitComma (joinComma ids) = ids := by
  cases ids with
  | nil => exact absurd rfl hne
  | cons a rest =>
    unfold splitComma
    rw [splitCommaFrom_joinComma a rest h]
    simp

theorem joinComma_ne_nil (ids : List Str) (hne : ids ≠ []) (h : ∀ g ∈ ids, g ≠ []) :
    joinComma ids ≠ [] := by
  cases ids with
  | nil => exact absurd rfl hne
  | cons a rest =>
    have ha := h a (List.mem_cons_self _ _)
    cases rest with
    | nil => simpa [joinComma] using ha
    | cons b rest => simp [joinComma, ha]

/-- The templates that `GET /api/templates` returns. -/
theorem listTemplates_mem (store : Store) (category tags : Option Str)
    (hpk : store.templates.Pairwise (fun a b => a.id ≠ b.id)) :
    ∃ rows, listTemplates store category tags = Reply.json 200 rows ∧
      ∀ t : Template, t ∈ rows.map (fun y => y.t) ↔
        t ∈ store.templates ∧
          (truthy category = false ∨ t.category_id = category) ∧
          (truthy tags = false ∨
            ∃ g ∈ splitComma (tags.getD []),
              (⟨t.id, g⟩ : TemplateTag) ∈ store.template_tags) := by
  obtain ⟨_, hproc, hmem⟩ := listQuery_spec store category tags hpk
  obtain ⟨rows, hrows, hmap⟩ := processRows_some _ hproc
  refine ⟨rows, ?_, ?_⟩
  · unfold listTemplates
    rw [hrows]
  · intro t
    rw [hmap]
    exact hmem t

theorem stringOfId_eq_iff (id : Option Str) (c : Str) (hc : c ≠ "null".toList) :
    stringOfId id = c ↔ id = some c := by
  cases id with
  | none =>
    simp only [stringOfId, reduceCtorEq, iff_false]
    exact fun h => hc h.symm
  | some s => simp [stringOfId]

theorem keepTemplate_iff (c : Str) (ids : List Str) (y : ListedTemplate) :
    keepTemplate c ids y = true ↔
      (c = "all".toList ∨ stringOfId y.t.category_id = c) ∧
        (ids = [] ∨ ∃ g ∈ ids, g ∈ y.tags.map (·.id)) := by
  unfold keepTemplate
  by_cases h1 : c = "all".toList
  · by_cases h2 : ids = []
    · simp [h1, h2]
    · have hpos : 0 < ids.length := List.length_pos.2 h2
      simp [h1, h2, hpos]
  · by_cases h3 : stringOfId y.t.category_id = c
    · by_cases h2 : ids = []
      · simp [h1, h2, h3]
      · have hpos : 0 < ids.length := List.length_pos.2 h2
        simp [h1, h2, h3, hpos]
    · simp [h1, h3]

theorem isUuidChar_ne_comma {c : Char} (h : isUuidChar c = true) : c ≠ ',' := by
  rintro rfl
  revert h
  decide

theorem generated_id_spec (pre id : Str) (hpre : ',' ∉ pre) (hne : pre ≠ [])
    (h : (pre.isPrefixOf id && isUuid (id.drop pre.length)) = true) :
    id ≠ [] ∧ ',' ∉ id ∧ pre <+: id := by
  rw [Bool.and_eq_true] at h
  obtain ⟨h1, h2⟩ := h
  have hp : pre <+: id := List.isPrefixOf_iff_prefix.1 h1
  obtain ⟨u, hu⟩ := hp
  have hdrop : id.drop pre.length = u := by
    rw [← hu, List.drop_left]
  rw [hdrop] at h2
  unfold isUuid at h2
  rw [Bool.and_eq_true, List.all_eq_true] at h2
  refine ⟨?_, ?_, ⟨u, hu⟩⟩
  · rw [← hu]
    intro h0
    exact hne (List.append_eq_nil.1 h0).1
  · rw [← hu, List.mem_append]
    rintro (hc | hc)
    · exact hpre hc
    · exact isUuidChar_ne_comma (h2.2 _ hc) rfl

theorem isTagId_spec {g : Str} (h : isTagId g = true) : g ≠ [] ∧ ',' ∉ g := by
  have := generated_id_spec "tag-".toList g (by decide) (by decide) h
  exact ⟨this.1, this.2.1⟩

theorem isCategoryId_spec {c : Str} (h : isCategoryId c = true) :
    c ≠ [] ∧ c ≠ "null".toList := by
  have := generated_id_spec "cat-".toList c (by decide) (by decide) h
  refine ⟨this.1, ?_⟩
  rintro rfl
  obtain ⟨u, hu⟩ := this.2.2
  simp at hu

/-- The filter of the client and the filter of the server agree for a
selected category that is not empty and not `"null"` and selected tag ids
that are not empty and have no comma. -/
theorem filterTemplates_agrees_general (store : Store) (templates : List ListedTemplate)
    (c : Str) (ids : List Str)
    (hpk : store.templates.Pairwise (fun a b => a.id ≠ b.id))
    (hsame : ∀ t : Template, t ∈ templates.map (·.t) ↔ t ∈ store.templates)
    (hfull : ∀ y ∈ templates, ∀ g : Str,
      g ∈ y.tags.map (·.id) ↔ (⟨y.t.id, g⟩ : TemplateTag) ∈ store.template_tags)
    (hnull : c ≠ "null".toList) (hc : c ≠ [])
    (hids : ∀ g ∈ ids, g ≠ [] ∧ ',' ∉ g) :
    ∃ rows, listTemplates store (categoryParam c) (tagsParam ids) = Reply.json 200 rows ∧
      ∀ t : Template, t ∈ (filterTemplates templates c ids).map (·.t) ↔
        t ∈ rows.map (·.t) := by
  obtain ⟨rows, hrows, hmem⟩ := listTemplates_mem store (categoryParam c) (tagsParam ids) hpk
  refine ⟨rows, hrows, ?_⟩
  intro t
  rw [hmem t]
  have hcat : ∀ k : Option Str,
      (truthy (categoryParam c) = false ∨ k = categoryParam c) ↔
        (c = "all".toList ∨ stringOfId k = c) := by
    intro k
    unfold categoryParam
    by_cases h1 : c = "all".toList
    · simp [h1, truthy]
    · have ht : truthy (some c) = true := by
        cases c with
        | nil => exact absurd rfl hc
        | cons a l => rfl
      rw [if_neg h1, ht, stringOfId_eq_iff k c hnull]
      constructor
      · rintro (h | h)
        · cases h
        · exact Or.inr h
      · rintro (h | h)
        · exact absurd h h1
        · exact Or.inr h
  have htag : ∀ tid : Str,
      (truthy (tagsParam ids) = false ∨
          ∃ g ∈ splitComma ((tagsParam ids).getD []),
            (⟨tid, g⟩ : TemplateTag) ∈ store.template_tags) ↔
        (ids = [] ∨ ∃ g ∈ ids, (⟨tid, g⟩ : TemplateTag) ∈ store.template_tags) := by
    intro tid
    unfold tagsParam
    by_cases h2 : ids = []
    · simp [h2, truthy]
    · have hemp : ids.isEmpty = false := by
        cases ids with
        | nil => exact absurd rfl h2
        | cons a l => rfl
      have hj : joinComma ids ≠ [] := joinComma_ne_nil ids h2 (fun g hg => (hids g hg).1)
      have ht : truthy (some (joinComma ids)) = true := by
        cases hjj : joinComma ids with
        | nil => exact absurd hjj hj
        | cons a l => rfl
      simp only [hemp, Bool.false_eq_true, if_false, ht, Option.getD_some,
        splitComma_joinComma ids h2 (fun g hg => (hids g hg).2), h2, false_or,
        Bool.true_eq_false]
  unfold filterTemplates
  constructor
  · intro h
    rw [List.mem_map] at h
    obtain ⟨y, hy, rfl⟩ := h
    rw [List.mem_filter, keepTemplate_iff] at hy
    obtain ⟨hyin, hk1, hk2⟩ := hy
    refine ⟨(hsame y.t).1 (List.mem_map_of_mem _ hyin), (hcat _).2 hk1, (htag _).2 ?_⟩
    rcases hk2 with hk2 | ⟨g, hg, hgy⟩
    · exact Or.inl hk2
    · exact Or.inr ⟨g, hg, (hfull y hyin g).1 hgy⟩
  · rintro ⟨hin, h1, h2⟩
    have hy := (hsame t).2 hin
    rw [List.mem_map] at hy
    obtain ⟨y, hyin, rfl⟩ := hy
    rw [List.mem_map]
    refine ⟨y, ?_, rfl⟩
    rw [List.mem_filter, keepTemplate_iff]
    refine ⟨hyin, (hcat _).1 h1, ?_⟩
    rcases (htag _).1 h2 with h3 | ⟨g, hg, hgy⟩
    · exact Or.inl h3
    · exact Or.inr ⟨g, hg, (hfull y hyin g).2 hgy⟩


/-! ## The preview handler and keys that make `new RegExp` throw -/

theorem any_isSyntaxChar_of_unclosedGroup {key : Str} (h : unclosedGroup key = true) :
    key.any isSyntaxChar = true := by
  unfold unclosedGroup at h
  simp only [Bool.and_eq_true] at h
  have hmem : '(' ∈ key := by simpa using h.1.1.1
  rw [List.any_eq_true]
  exact ⟨'(', hmem, by decide⟩

theorem compileKey_of_unclosedGroup (lit : Str) {key : Str} (h : unclosedGroup key = true) :
    compileKey lit key = Compiled.syntaxError := by
  have hany := any_isSyntaxChar_of_unclosedGroup h
  have hmem : '(' ∈ key := by
    unfold unclosedGroup at h
    simp only [Bool.and_eq_true] at h
    simpa using h.1.1.1
  have hall : key.all (fun c => c = '.' || !isSyntaxChar c) = false := by
    rw [List.all_eq_false]
    exact ⟨'(', hmem, by decide⟩
  unfold compileKey
  rw [if_pos hany, hall, h]
  rfl

/-- For a stored template and a mapping with a key that opens a group that
nothing closes, the preview handler throws and leaves the store as it
is. -/
theorem preview_of_unclosedGroup (store : Store) (t : Template)
    (values : List (Str × Option Str))
    (hpk : store.templates.Pairwise (fun a b => a.id ≠ b.id)) (ht : t ∈ store.templates)
    (hkey : ∃ e ∈ values, unclosedGroup e.1 = true) :
    preview store t.id (some values) = (some Reply.thrown, store) := by
  have hthrows : replaceVariablesThrows values = true := by
    obtain ⟨e, he, hu⟩ := hkey
    unfold replaceVariablesThrows
    rw [List.any_eq_true]
    refine ⟨e, he, ?_⟩
    simp [compileKey_of_unclosedGroup _ hu]
  unfold preview
  rw [getTemplate_of_mem store t hpk ht]
  simp [hthrows]

/-- For a stored template and a mapping whose keys have no syntax character
the preview reply carries the substituted body and the variables of the
stored body. -/
theorem preview_of_plain_keys (store : Store) (t : Template)
    (values : List (Str × Option Str))
    (hpk : store.templates.Pairwise (fun a b => a.id ≠ b.id)) (ht : t ∈ store.templates)
    (hkeys : ∀ e ∈ values, e.1.any isSyntaxChar = false) :
    ∃ h, replaceVariables t.html values = some h ∧
      preview store t.id (some values)
        = (some (Reply.json 200 ⟨t, h, extractVariables t.html⟩), store) := by
  obtain ⟨h, hh⟩ := replaceEntries_some values hkeys (normalizeAlias t.html)
  have hno : replaceVariablesThrows values = false := by
    unfold replaceVariablesThrows
    rw [List.any_eq_false]
    intro e he
    simp [compileKey, hkeys e he]
  refine ⟨h, hh, ?_⟩
  unfold preview
  rw [getTemplate_of_mem store t hpk ht]
  have hh2 : replaceVariables t.html values = some h := hh
  simp [hno, hh2]

/-- Idempotence of the substitution on bodies without stray braces, with
identifier keys and values without braces and dollar signs. -/
theorem idempotent_of_wellFormed (ps : List Piece) (values : List (Str × Option Str))
    (hps : ∀ p ∈ ps, p.wellFormed = true)
    (hkeys : ∀ e ∈ values, isIdentifier e.1 = true)
    (hvals : ∀ e ∈ values, ∀ c ∈ e.2.getD [], c ≠ '{' ∧ c ≠ '}' ∧ c ≠ '$') :
    ∃ r, replaceVariables (renderPieces ps) values = some r ∧
      replaceVariables r values = some r := by
  have hs := simple_unalias ps hps
  obtain ⟨h1, h2⟩ := replaceEntries_renderPieces values hkeys hvals _ hs
  refine ⟨renderPieces (substAll (ps.map Piece.unalias) values), ?_, ?_⟩
  · rw [replaceVariables, normalizeAlias_renderPieces ps hps, h1]
  · obtain ⟨h3, _⟩ := replaceEntries_renderPieces values hkeys hvals _ h2
    rw [replaceVariables, normalizeAlias_renderPieces _ (fun p hp => wellFormed_of_simple (h2 p hp)),
      unalias_of_simple _ h2, h3,
      substAll_of_not_mem values _ (var_not_mem_substAll values _)]
/-! ## The claims about `extractVariables` -/

/-- C2: a name is returned by `extractVariables(html)` exactly when it is a
non-empty identifier over `[A-Za-z0-9_]` and `html` contains `{{n}}` or
`{{$json.n}}` as a substring. -/
theorem extractVariables_mem_iff (html n : Str) :
    n ∈ extractVariables html ↔
      isIdentifier n = true ∧ (placeholder n <:+: html ∨ aliasPlaceholder n <:+: html) :=
  mem_extractVariables

/-- C3: `extractVariables(html)` contains no name twice; a name `x` whose
placeholder occurs in `html` in both syntaxes is listed exactly once. -/
theorem extractVariables_nodup (html : Str) :
    (extractVariables html).Nodup ∧
      ∀ x : Str, isIdentifier x = true → placeholder x <:+: html →
        aliasPlaceholder x <:+: html → (extractVariables html).count x = 1 := by
  have hnd : (extractVariables html).Nodup := nodup_foldl_setAdd _ _ List.nodup_nil
  refine ⟨hnd, ?_⟩
  intro x hx h1 _
  exact count_eq_one_of_nodup hnd (mem_extractVariables.2 ⟨hx, Or.inl h1⟩)

/-- C3 at `{{x}} and {{$json.x}}`: both syntaxes occur, and `x` is listed
once. -/
theorem extractVariables_nodup_witness :
    isIdentifier "x".toList = true ∧
      placeholder "x".toList <:+: "\x7b\x7bx\x7d\x7d and \x7b\x7b$json.x\x7d\x7d".toList ∧
      aliasPlaceholder "x".toList <:+: "\x7b\x7bx\x7d\x7d and \x7b\x7b$json.x\x7d\x7d".toList ∧
      (extractVariables "\x7b\x7bx\x7d\x7d and \x7b\x7b$json.x\x7d\x7d".toList).count "x".toList
        = 1 :=
  ⟨by decide, ⟨[], " and \x7b\x7b$json.x\x7d\x7d".toList, by decide⟩,
    ⟨"\x7b\x7bx\x7d\x7d and ".toList, [], by decide⟩,
    (extractVariables_nodup "\x7b\x7bx\x7d\x7d and \x7b\x7b$json.x\x7d\x7d".toList).2 "x".toList
      (by decide) ⟨[], " and \x7b\x7b$json.x\x7d\x7d".toList, by decide⟩
      ⟨"\x7b\x7bx\x7d\x7d and ".toList, [], by decide⟩⟩

/-- C4: for two distinct names `a` and `b` returned by
`extractVariables(html)`, `a` comes before `b` in the returned list exactly
when the first placeholder naming `a`, in either syntax, starts in `html`
before the first placeholder naming `b`; both placeholders do occur. -/
theorem extractVariables_order (html a b : Str) (ha : a ∈ extractVariables html)
    (hb : b ∈ extractVariables html) (hab : a ≠ b) :
    firstOccurrence a html < html.length ∧ firstOccurrence b html < html.length ∧
      ((extractVariables html).indexOf a < (extractVariables html).indexOf b ↔
        firstOccurrence a html < firstOccurrence b html) := by
  have ha2 := mem_extractVariables.1 ha
  have hb2 := mem_extractVariables.1 hb
  refine ⟨firstOccurrence_lt_of_occurs ha2.2, firstOccurrence_lt_of_occurs hb2.2, ?_⟩
  unfold extractVariables
  rw [indexOf_foldl_setAdd _ [] hab (List.not_mem_nil _) (List.not_mem_nil _)]
  exact indexOf_execAll_lt_iff html ha2.1 hb2.1 hab

/-- C4 at `{{$json.b}} {{a}} {{b}}`: the alias placeholder of `b` comes
first, and `b` is listed before `a`. -/
theorem extractVariables_order_witness :
    "b".toList ∈ extractVariables "\x7b\x7b$json.b\x7d\x7d \x7b\x7ba\x7d\x7d \x7b\x7bb\x7d\x7d".toList ∧
      "a".toList ∈ extractVariables "\x7b\x7b$json.b\x7d\x7d \x7b\x7ba\x7d\x7d \x7b\x7bb\x7d\x7d".toList ∧
      "b".toList ≠ "a".toList ∧
      ((extractVariables "\x7b\x7b$json.b\x7d\x7d \x7b\x7ba\x7d\x7d \x7b\x7bb\x7d\x7d".toList).indexOf "b".toList
          < (extractVariables "\x7b\x7b$json.b\x7d\x7d \x7b\x7ba\x7d\x7d \x7b\x7bb\x7d\x7d".toList).indexOf "a".toList ↔
        firstOccurrence "b".toList "\x7b\x7b$json.b\x7d\x7d \x7b\x7ba\x7d\x7d \x7b\x7bb\x7d\x7d".toList
          < firstOccurrence "a".toList "\x7b\x7b$json.b\x7d\x7d \x7b\x7ba\x7d\x7d \x7b\x7bb\x7d\x7d".toList) :=
  ⟨by decide, by decide, by decide,
    (extractVariables_order "\x7b\x7b$json.b\x7d\x7d \x7b\x7ba\x7d\x7d \x7b\x7bb\x7d\x7d".toList
      "b".toList "a".toList (by decide) (by decide) (by decide)).2.2⟩

/-! ## The claims about `replaceVariables` -/

/-- C1, counterexample: the claim promises the value verbatim, but the value
`$$` is inserted as `$`; and the claim promises only the replacement of
`{{k}}` in the normalised text, which for `{{$json.{{k}}}}` and the value `k`
is `{{$json.k}}`, where the code goes on to replace that text too and returns
`k`.  For the same reason `replaceVariables("{{k}}", {k: v})` is not `v` for
the value `x{{$json.k}}`. -/
theorem replaceVariables_single_counterexample :
    replaceVariables "\x7b\x7bk\x7d\x7d".toList [("k".toList, some "$$".toList)]
        = some "$".toList ∧
      ReplacedEvery (placeholder "k".toList) "k".toList
        (normalizeAlias "\x7b\x7b$json.\x7b\x7bk\x7d\x7d\x7d\x7d".toList)
        "\x7b\x7b$json.k\x7d\x7d".toList ∧
      replaceVariables "\x7b\x7b$json.\x7b\x7bk\x7d\x7d\x7d\x7d".toList
        [("k".toList, some "k".toList)] = some "k".toList ∧
      replaceVariables "\x7b\x7bk\x7d\x7d".toList
        [("k".toList, some "x\x7b\x7b$json.k\x7d\x7d".toList)]
        = some "xx\x7b\x7b$json.k\x7d\x7d".toList := by
  refine ⟨by decide, ?_, by decide, by decide⟩
  have h : normalizeAlias "\x7b\x7b$json.\x7b\x7bk\x7d\x7d\x7d\x7d".toList
      = "\x7b\x7b$json.".toList ++ (placeholder "k".toList ++ "\x7d\x7d".toList) := by decide
  rw [h]
  have h2 : "\x7b\x7b$json.k\x7d\x7d".toList
      = "\x7b\x7b$json.".toList ++ ("k".toList ++ "\x7d\x7d".toList) := by decide
  rw [h2]
  refine ReplacedEvery.keep _ _ _ (by decide) ?_
  refine ReplacedEvery.keep _ _ _ (by decide) ?_
  refine ReplacedEvery.keep _ _ _ (by decide) ?_
  refine ReplacedEvery.keep _ _ _ (by decide) ?_
  refine ReplacedEvery.keep _ _ _ (by decide) ?_
  refine ReplacedEvery.keep _ _ _ (by decide) ?_
  refine ReplacedEvery.keep _ _ _ (by decide) ?_
  refine ReplacedEvery.keep _ _ _ (by decide) ?_
  refine ReplacedEvery.hit _ _ ?_
  refine ReplacedEvery.keep _ _ _ (by decide) ?_
  refine ReplacedEvery.keep _ _ _ (by decide) ?_
  exact ReplacedEvery.nil

/-- C1, amended: for an identifier `k` and a value `v` in which no dollar
sign is followed by `$`, `&`, a backquote or a quote,
`replaceVariables(html, {k: v})` is the alias-normalised `html` in which
every occurrence of `{{k}}` is replaced by `v` verbatim and then, in that
text, every occurrence of `{{$json.k}}` is replaced by `v` verbatim; in
particular `replaceVariables("{{k}}", {k: v}) = v` when `v` does not contain
`{{$json.k}}`. -/
theorem replaceVariables_single (html k v : Str) (hk : isIdentifier k = true)
    (hv : dollarPattern v = false) :
    (∃ r1 r2, ReplacedEvery (placeholder k) v (normalizeAlias html) r1 ∧
        ReplacedEvery (aliasPlaceholder k) v r1 r2 ∧
        replaceVariables html [(k, some v)] = some r2) ∧
      (¬ aliasPlaceholder k <:+: v →
        replaceVariables (placeholder k) [(k, some v)] = some v) := by
  have hs := no_syntax_of_isIdentifier hk
  constructor
  · exact replaceVariables_plainKey html k (some v) hs hv
  · intro hno
    have hn : normalizeAlias (placeholder k) = placeholder k := by
      have := normalizeAlias_placeholder_append (plain_of_isIdentifier hk) []
      simpa [normalizeAlias_nil] using this
    have h1 : replaceAll (matchLiteral (placeholder k)) v (placeholder k) = v := by
      have := replaceGlobal_literal_hit (placeholder_ne_nil k) v [] []
      rw [List.append_nil] at this
      unfold replaceAll
      rw [this, getSubstitution_verbatim _ _ _ hv, replaceGlobal_nil, List.append_nil]
    have h2 : replaceAll (matchLiteral (aliasPlaceholder k)) v v = v :=
      replaceGlobal_of_absent v v hno []
    simp only [replaceVariables, replaceEntries, replaceEntry_of_plainKey _ hs,
      Option.getD_some, hn, h1, h2]

/-- C1 at the key `price` and the value `US$ 84.98`, which has a dollar
sign and no dollar pattern. -/
theorem replaceVariables_single_witness :
    isIdentifier "price".toList = true ∧ dollarPattern "US$ 84.98".toList = false ∧
      ¬ aliasPlaceholder "price".toList <:+: "US$ 84.98".toList ∧
      replaceVariables (placeholder "price".toList) [("price".toList, some "US$ 84.98".toList)]
        = some "US$ 84.98".toList :=
  ⟨by decide, by decide, by decide,
    (replaceVariables_single "<p>\x7b\x7bprice\x7d\x7d</p>".toList "price".toList
      "US$ 84.98".toList (by decide) (by decide)).2 (by decide)⟩

/-- C5: with an empty `values`, `replaceVariables` returns `html` with every
`{{$json.x}}` rewritten to `{{x}}` and every other character unchanged; it
returns `html` itself when `html` contains no `{{$json.x}}`. -/
theorem replaceVariables_empty (html : Str) :
    (∃ out, replaceVariables html [] = some out ∧ AliasRewritten html out) ∧
      ((∀ x : Str, isIdentifier x = true → ¬ aliasPlaceholder x <:+: html) →
        replaceVariables html [] = some html) := by
  constructor
  · exact ⟨normalizeAlias html, rfl, aliasRewritten_normalizeAlias html⟩
  · intro h
    simp only [replaceVariables, replaceEntries, normalizeAlias_of_no_alias html h]

/-- C5 at `<p>Hi {{name}}</p>`, which has no alias placeholder. -/
theorem replaceVariables_empty_witness :
    (∀ x : Str, isIdentifier x = true →
        ¬ aliasPlaceholder x <:+: "<p>Hi \x7b\x7bname\x7d\x7d</p>".toList) ∧
      replaceVariables "<p>Hi \x7b\x7bname\x7d\x7d</p>".toList []
        = some "<p>Hi \x7b\x7bname\x7d\x7d</p>".toList :=
  have h : ∀ x : Str, isIdentifier x = true →
      ¬ aliasPlaceholder x <:+: "<p>Hi \x7b\x7bname\x7d\x7d</p>".toList :=
    fun _ _ hi => absurd (dollar_mem_of_alias_occurs hi) (by decide)
  ⟨h, (replaceVariables_empty "<p>Hi \x7b\x7bname\x7d\x7d</p>".toList).2 h⟩

/-- C6: when every key of `values` is an identifier and the identifier `n` is
not a key, a name `n` found by `extractVariables(html)` is still found in
`replaceVariables(html, values)`, and `{{n}}` is a substring of that
result. -/
theorem replaceVariables_frame (html : Str) (values : List (Str × Option Str)) (n : Str)
    (hkeys : ∀ e ∈ values, isIdentifier e.1 = true) (hne : ∀ e ∈ values, e.1 ≠ n)
    (hmem : n ∈ extractVariables html) :
    ∃ res, replaceVariables html values = some res ∧ n ∈ extractVariables res ∧
      placeholder n <:+: res := by
  obtain ⟨hn, hocc⟩ := mem_extractVariables.1 hmem
  have h1 : placeholder n <:+: normalizeAlias html :=
    (placeholder_infix_normalizeAlias hn html).2 hocc
  obtain ⟨res, hres, hinf⟩ :=
    placeholder_infix_replaceEntries (plain_of_isIdentifier hn) values hkeys hne _ h1
  exact ⟨res, hres, mem_extractVariables.2 ⟨hn, Or.inl hinf⟩, hinf⟩

/-- C6 at `Hi {{name}}, {{$json.city}}` with only `name` supplied: `city`
stays. -/
theorem replaceVariables_frame_witness :
    (∀ e ∈ [("name".toList, some "Ana".toList)], isIdentifier e.1 = true) ∧
      (∀ e ∈ [("name".toList, some "Ana".toList)], e.1 ≠ "city".toList) ∧
      "city".toList ∈ extractVariables "Hi \x7b\x7bname\x7d\x7d, \x7b\x7b$json.city\x7d\x7d".toList ∧
      ∃ res, replaceVariables "Hi \x7b\x7bname\x7d\x7d, \x7b\x7b$json.city\x7d\x7d".toList
          [("name".toList, some "Ana".toList)] = some res ∧
        "city".toList ∈ extractVariables res ∧ placeholder "city".toList <:+: res :=
  ⟨by decide, by decide, by decide,
    replaceVariables_frame "Hi \x7b\x7bname\x7d\x7d, \x7b\x7b$json.city\x7d\x7d".toList
      [("name".toList, some "Ana".toList)] "city".toList (by decide) (by decide) (by decide)⟩

/-- C7, counterexample: `a-b` has a character outside `[A-Za-z0-9_]`, yet
with `a-b` as key the text `{{a-b}}` is replaced.  With the key `a.b` the
dot is an operator of the regular expression: `{{a.b}}` and `{{aXb}}` are
both replaced. -/
theorem replaceVariables_bad_name_counterexample :
    (∃ c ∈ "a-b".toList, isWordChar c = false) ∧
      replaceVariables "\x7b\x7ba-b\x7d\x7d".toList [("a-b".toList, some "X".toList)]
        = some "X".toList ∧
      replaceVariables "\x7b\x7ba-b\x7d\x7d".toList [] = some "\x7b\x7ba-b\x7d\x7d".toList ∧
      (∃ c ∈ "a.b".toList, isWordChar c = false) ∧
      replaceVariables "\x7b\x7ba.b\x7d\x7d \x7b\x7baXb\x7d\x7d".toList
        [("a.b".toList, some "X".toList)] = some "X X".toList ∧
      replaceVariables "\x7b\x7ba.b\x7d\x7d \x7b\x7baXb\x7d\x7d".toList []
        = some "\x7b\x7ba.b\x7d\x7d \x7b\x7baXb\x7d\x7d".toList :=
  ⟨⟨'-', by decide, by decide⟩, by decide, by decide, ⟨'.', by decide, by decide⟩,
    by decide, by decide⟩

/-- C7, amended: a name `m` with a character outside `[A-Za-z0-9_]` is never
returned by `extractVariables`; `replaceVariables` does not check its keys.
For such an `m` without regular-expression syntax characters
`replaceVariables(html, {m: v})` is the alias-normalised `html` in which
every occurrence of `{{m}}` is replaced by `v` and then every occurrence of
`{{$json.m}}` is replaced by `v` (verbatim when no dollar sign in `v` is
followed by `$`, `&`, a backquote or a quote), and it equals
`replaceVariables(html, {})` when `html` contains neither `{{m}}` nor
`{{$json.m}}`. -/
theorem replaceVariables_bad_name (html m : Str) (v : Option Str) (c : Char) (hc : c ∈ m)
    (hw : isWordChar c = false) :
    m ∉ extractVariables html ∧
      (m.any isSyntaxChar = false → dollarPattern (v.getD []) = false →
        ∃ r1 r2, ReplacedEvery (placeholder m) (v.getD []) (normalizeAlias html) r1 ∧
          ReplacedEvery (aliasPlaceholder m) (v.getD []) r1 r2 ∧
          replaceVariables html [(m, v)] = some r2) ∧
      (m.any isSyntaxChar = false → ¬ placeholder m <:+: html →
        ¬ aliasPlaceholder m <:+: html →
        replaceVariables html [(m, v)] = replaceVariables html []) := by
  have hid := isIdentifier_eq_false_of_mem hc hw
  refine ⟨?_, ?_, ?_⟩
  · intro h
    rw [(mem_extractVariables.1 h).1] at hid
    cases hid
  · intro hs hv
    exact replaceVariables_plainKey html m v hs hv
  · intro hs h1 h2
    have hp := plain_of_plainKey hs
    have h3 : ¬ placeholder m <:+: normalizeAlias html := fun h =>
      h1 (placeholder_infix_normalizeAlias_of_not_identifier hp hid html h)
    have h4 : ¬ aliasPlaceholder m <:+: normalizeAlias html := fun h =>
      h2 (aliasPlaceholder_infix_normalizeAlias hp html h)
    simp only [replaceVariables, replaceEntries, replaceEntry_of_plainKey _ hs]
    unfold replaceAll
    rw [replaceGlobal_of_absent _ _ h3, replaceGlobal_of_absent _ _ h4]

/-- C7 at the key `a-b`: it is not extracted from `Hi {{a}}-b`, which the
entry leaves as it is, and in `Hi {{a-b}}` the placeholder is replaced. -/
theorem replaceVariables_bad_name_witness :
    '-' ∈ "a-b".toList ∧ isWordChar '-' = false ∧
      "a-b".toList ∉ extractVariables "Hi \x7b\x7ba\x7d\x7d-b".toList ∧
      replaceVariables "Hi \x7b\x7ba\x7d\x7d-b".toList [("a-b".toList, some "X".toList)]
        = replaceVariables "Hi \x7b\x7ba\x7d\x7d-b".toList [] ∧
      (∃ r1 r2,
        ReplacedEvery (placeholder "a-b".toList) "X".toList
          (normalizeAlias "Hi \x7b\x7ba-b\x7d\x7d".toList) r1 ∧
        ReplacedEvery (aliasPlaceholder "a-b".toList) "X".toList r1 r2 ∧
        replaceVariables "Hi \x7b\x7ba-b\x7d\x7d".toList [("a-b".toList, some "X".toList)]
          = some r2) ∧
      replaceVariables "Hi \x7b\x7ba-b\x7d\x7d".toList [("a-b".toList, some "X".toList)]
        = some "Hi X".toList :=
  ⟨by decide, by decide,
    (replaceVariables_bad_name "Hi \x7b\x7ba\x7d\x7d-b".toList "a-b".toList
      (some "X".toList) '-' (by decide) (by decide)).1,
    (replaceVariables_bad_name "Hi \x7b\x7ba\x7d\x7d-b".toList "a-b".toList
      (some "X".toList) '-' (by decide) (by decide)).2.2 (by decide) (by decide) (by decide),
    (replaceVariables_bad_name "Hi \x7b\x7ba-b\x7d\x7d".toList "a-b".toList
      (some "X".toList) '-' (by decide) (by decide)).2.1 (by decide) (by decide),
    by decide⟩

/-- C8, counterexample: the value `a` contains no placeholder syntax, but in
`{{{{a}}}}` it completes a new placeholder with the braces around it, and a
second substitution changes the text again.  Likewise the value `x`
completes the alias placeholder `{{$json.x}}` in `{{$json.{{a}}}}`, which a
second call rewrites.  For the key `(` the call throws. -/
theorem replaceVariables_idempotent_counterexample :
    replaceVariables "\x7b\x7b\x7b\x7ba\x7d\x7d\x7d\x7d".toList [("a".toList, some "a".toList)]
        = some "\x7b\x7ba\x7d\x7d".toList ∧
      replaceVariables "\x7b\x7ba\x7d\x7d".toList [("a".toList, some "a".toList)]
        = some "a".toList ∧
      replaceVariables "\x7b\x7b$json.\x7b\x7ba\x7d\x7d\x7d\x7d".toList
        [("a".toList, some "x".toList)] = some "\x7b\x7b$json.x\x7d\x7d".toList ∧
      replaceVariables "\x7b\x7b$json.x\x7d\x7d".toList [("a".toList, some "x".toList)]
        = some "\x7b\x7bx\x7d\x7d".toList ∧
      replaceVariablesThrows [("(".toList, some "a".toList)] = true :=
  ⟨by decide, by decide, by decide, by decide, by decide⟩

/-- C8, amended: for every body and every mapping whose keys have no
regular-expression syntax character, the first substitution has a result,
and substituting again gives the same text whenever that result contains no
alias placeholder `{{$json.x}}` and, for every key `k` of the mapping,
neither `{{k}}` nor `{{$json.k}}`.  The values are arbitrary. -/
theorem replaceVariables_idempotent (html : Str) (values : List (Str × Option Str))
    (hkeys : ∀ e ∈ values, e.1.any isSyntaxChar = false) :
    ∃ out, replaceVariables html values = some out ∧
      ((∀ x : Str, isIdentifier x = true → ¬ aliasPlaceholder x <:+: out) →
        (∀ e ∈ values, ¬ placeholder e.1 <:+: out ∧ ¬ aliasPlaceholder e.1 <:+: out) →
        replaceVariables out values = some out) := by
  obtain ⟨out, hout⟩ := replaceEntries_some values hkeys (normalizeAlias html)
  refine ⟨out, hout, ?_⟩
  intro halias hnone
  unfold replaceVariables
  rw [normalizeAlias_of_no_alias out halias]
  exact replaceEntries_of_absent values hkeys out hnone

/-- C8 at a body with a style rule, whose braces are not placeholder syntax,
and the value `$5`: the result has no placeholder of the key and a second
substitution leaves it as it is. -/
theorem replaceVariables_idempotent_witness :
    replaceVariables "<style>p\x7bcolor:red\x7d</style>\x7b\x7bprice\x7d\x7d".toList
        [("price".toList, some "$5".toList)]
        = some "<style>p\x7bcolor:red\x7d</style>$5".toList ∧
      replaceVariables "<style>p\x7bcolor:red\x7d</style>$5".toList
        [("price".toList, some "$5".toList)]
        = some "<style>p\x7bcolor:red\x7d</style>$5".toList := by
  have h0 : replaceVariables "<style>p\x7bcolor:red\x7d</style>\x7b\x7bprice\x7d\x7d".toList
      [("price".toList, some "$5".toList)]
      = some "<style>p\x7bcolor:red\x7d</style>$5".toList := by decide
  refine ⟨h0, ?_⟩
  obtain ⟨out, h1, h2⟩ :=
    replaceVariables_idempotent "<style>p\x7bcolor:red\x7d</style>\x7b\x7bprice\x7d\x7d".toList
      [("price".toList, some "$5".toList)] (by decide)
  rw [h0] at h1
  cases h1
  exact h2 (fun x _ => no_alias_of_no_openAlias (by decide) x) (by decide)

/-! ## The claims about the handlers -/

/-- C9, on the code: the template `t1` is stored, and its preview with the
mapping `{"(": "x"}` sends no reply: the key opens a group that nothing
closes, `new RegExp` throws inside the callback of `db.get`, and nothing
catches the exception.  With `{name: "Ana"}` the reply is the rendered
body. -/
theorem preview_throws :
    exampleTemplate ∈ exampleStore.templates ∧ exampleTemplate.id = "t1".toList ∧
      preview exampleStore "t1".toList (some [("(".toList, some "x".toList)])
        = (some Reply.thrown, exampleStore) ∧
      preview exampleStore "t1".toList (some [("name".toList, some "Ana".toList)])
        = (some (Reply.json 200 ⟨exampleTemplate, "<p>Hi Ana</p>".toList, ["name".toList]⟩),
            exampleStore) := by
  decide

/-- C10: the template list replies with a list in which every template key
occurs once, and its templates are exactly the stored templates `t` with
(`category` absent or empty, or `t.category_id = category`) and (`tags`
absent or empty, or `t` joined in `template_tags` to at least one of the ids
of `tags.split(',')`); the key `id` of `templates` is unique. -/
theorem listTemplates_spec (store : Store) (category tags : Option Str)
    (hpk : store.templates.Pairwise (fun a b => a.id ≠ b.id)) :
    ∃ rows, listTemplates store category tags = Reply.json 200 rows ∧
      (rows.map (fun y => y.t.id)).Nodup ∧
      ∀ t : Template, t ∈ rows.map (fun y => y.t) ↔
        t ∈ store.templates ∧
          (truthy category = false ∨ t.category_id = category) ∧
          (truthy tags = false ∨
            ∃ g ∈ splitComma (tags.getD []),
              (⟨t.id, g⟩ : TemplateTag) ∈ store.template_tags) := by
  obtain ⟨hnd, hproc, hmem⟩ := listQuery_spec store category tags hpk
  obtain ⟨rows, hrows, hmap⟩ := processRows_some _ hproc
  refine ⟨rows, ?_, ?_, ?_⟩
  · unfold listTemplates
    rw [hrows]
  · have : rows.map (fun y => y.t.id) = (rows.map (fun y => y.t)).map (fun t => t.id) := by
      rw [List.map_map]; rfl
    rw [this, hmap, List.map_map]
    exact hnd
  · intro t
    rw [hmap]
    exact hmem t

/-- C10 on the example store with `tags=A,Z`: the template tagged `A` and
`B` is listed although it lacks `Z`, the template tagged `B` only is not. -/
theorem listTemplates_spec_witness :
    exampleStore.templates.Pairwise (fun a b => a.id ≠ b.id) ∧
      (∃ rows, listTemplates exampleStore none (some "A,Z".toList) = Reply.json 200 rows ∧
        (rows.map (fun y => y.t.id)).Nodup ∧
        ∀ t : Template, t ∈ rows.map (fun y => y.t) ↔
          t ∈ exampleStore.templates ∧
            (truthy none = false ∨ t.category_id = none) ∧
            (truthy (some "A,Z".toList) = false ∨
              ∃ g ∈ splitComma ((some "A,Z".toList).getD []),
                (⟨t.id, g⟩ : TemplateTag) ∈ exampleStore.template_tags)) ∧
      (∃ rows, listTemplates exampleStore none (some "A,Z".toList) = Reply.json 200 rows ∧
        rows.map (fun y => y.t) = [exampleTemplate]) :=
  ⟨by decide, listTemplates_spec exampleStore none (some "A,Z".toList) (by decide),
    ⟨[⟨exampleTemplate, some "Marketing".toList, some "#6366f1".toList, none,
        [⟨"A".toList, some "Promo".toList, some "#111111".toList, none⟩,
         ⟨"B".toList, some "Info".toList, some "#222222".toList, none⟩]⟩],
      by decide, by decide⟩⟩

/-! ## The claims about the writes -/

/-- C11: after `setTags(id, L)` the join rows of the template are exactly one
row for every distinct id in `L`: no row of the template occurs twice, the
row `(id, x)` is there exactly when `x` is in `L` (so an earlier association
that is not in `L` is gone), and the rows of the other templates are
untouched. -/
theorem setTags_rows (store : Store) (id : Str) (L : List Str) :
    (((setTags store id (some L)).2.template_tags).filter
        (fun tt => tt.template_id = id)).Nodup ∧
      (∀ x : Str, (⟨id, x⟩ : TemplateTag) ∈ (setTags store id (some L)).2.template_tags
        ↔ x ∈ L) ∧
      (∀ tt : TemplateTag, tt.template_id ≠ id →
        (tt ∈ (setTags store id (some L)).2.template_tags ↔ tt ∈ store.template_tags)) := by
  rw [(setTags_store store id L).1]
  refine ⟨?_, ?_, ?_⟩
  · apply nodup_filter_foldl_insertOrIgnore
    rw [List.filter_filter]
    have : (store.template_tags.filter fun a =>
        (decide (a.template_id = id) && decide (a.template_id ≠ id))) = [] := by
      rw [List.filter_eq_nil_iff]
      intro a _
      by_cases h : a.template_id = id <;> simp [h]
    rw [this]
    exact List.nodup_nil
  · intro x
    rw [mem_foldl_insertOrIgnore, List.mem_filter]
    constructor
    · rintro (⟨_, h⟩ | ⟨y, hy, h⟩)
      · simp at h
      · injection h with _ h2
        rw [h2]; exact hy
    · intro hx
      exact Or.inr ⟨x, hx, rfl⟩
  · intro tt htt
    rw [mem_foldl_insertOrIgnore, List.mem_filter]
    constructor
    · rintro (⟨h, _⟩ | ⟨y, _, h⟩)
      · exact h
      · exact absurd (by rw [h]) htt
    · intro h
      exact Or.inl ⟨h, by simpa using htt⟩

/-- C11 on the example store: `setTags(t2, [A, A, B])` leaves exactly the two
rows `(t2, A)` and `(t2, B)` for the template `t2`, and the row `(t1, A)` of
the other template stays. -/
theorem setTags_rows_witness :
    ((setTags exampleStore "t2".toList
        (some ["A".toList, "A".toList, "B".toList])).2.template_tags).filter
        (fun tt => tt.template_id = "t2".toList)
      = [⟨"t2".toList, "A".toList⟩, ⟨"t2".toList, "B".toList⟩] ∧
    (⟨"t1".toList, "A".toList⟩ : TemplateTag).template_id ≠ "t2".toList ∧
    (⟨"t1".toList, "A".toList⟩ : TemplateTag)
      ∈ (setTags exampleStore "t2".toList
          (some ["A".toList, "A".toList, "B".toList])).2.template_tags :=
  ⟨by decide, by decide,
    ((setTags_rows exampleStore "t2".toList ["A".toList, "A".toList, "B".toList]).2.2
      ⟨"t1".toList, "A".toList⟩ (by decide)).2 (by decide)⟩

/-- C12, failing input: on the example store no tag has the id `ghost`, and
`setTags(t1, [ghost])` replies with status 200 and leaves the join row
`(t1, ghost)` in the table. -/
theorem setTags_missing_tag :
    (∀ t ∈ exampleStore.tags, t.id ≠ "ghost".toList) ∧
      (setTags exampleStore "t1".toList (some ["ghost".toList])).1 = Reply.json 200 [] ∧
      (⟨"t1".toList, "ghost".toList⟩ : TemplateTag)
        ∈ (setTags exampleStore "t1".toList (some ["ghost".toList])).2.template_tags :=
  ⟨by decide, by decide, by decide⟩

/-- C13: for a non-empty list `ids`, `assignCategoryBulk(ids, c)` replies
with `affected` = the number of stored templates whose id occurs in `ids`,
sets `category_id = c` (and refreshes `updated_at`) on exactly those
templates, leaves every other template and every other table unchanged, and
raises no error for ids that match nothing; for an empty list it replies
with status 400 and changes nothing. -/
theorem assignCategory_spec (store : Store) (ids : List Str) (c : Option Str) (now : Nat)
    (hne : ids ≠ []) :
    (assignCategory store (some ids) c now).1
        = Reply.json 200 (store.templates.filter fun t => t.id ∈ ids).length ∧
      (assignCategory store (some ids) c now).2.templates.length = store.templates.length ∧
      (∀ (i : Nat) (t : Template), store.templates[i]? = some t →
        (assignCategory store (some ids) c now).2.templates[i]?
          = some (if t.id ∈ ids then { t with category_id := c, updated_at := now } else t)) ∧
      (assignCategory store (some ids) c now).2.categories = store.categories ∧
      (assignCategory store (some ids) c now).2.tags = store.tags ∧
      (assignCategory store (some ids) c now).2.template_tags = store.template_tags ∧
      assignCategory store (some []) c now = (Reply.fail 400, store) := by
  have hlen : ¬ ids.length = 0 := by
    cases ids with
    | nil => exact absurd rfl hne
    | cons a l => simp
  have hval : assignCategory store (some ids) c now
      = (Reply.json 200 (store.templates.filter fun t => t.id ∈ ids).length,
          { store with
            templates := store.templates.map fun t =>
              if t.id ∈ ids then { t with category_id := c, updated_at := now } else t }) := by
    unfold assignCategory
    simp only [hlen, if_false]
  rw [hval]
  refine ⟨rfl, by simp, ?_, rfl, rfl, rfl, ?_⟩
  · intro i t ht
    simp only [List.getElem?_map, ht, Option.map_some']
  · unfold assignCategory
    simp

/-- C13 on the example store: `[t1, t2, nonexistent]` gives `affected = 2`. -/
theorem assignCategory_spec_witness :
    ["t1".toList, "t2".toList, "nonexistent".toList] ≠ [] ∧
      (assignCategory exampleStore (some ["t1".toList, "t2".toList, "nonexistent".toList])
        (some "c1".toList) 9).1 = Reply.json 200 2 :=
  ⟨by decide,
    ((assignCategory_spec exampleStore ["t1".toList, "t2".toList, "nonexistent".toList]
      (some "c1".toList) 9 (by decide)).1).trans (by decide)⟩

/-- C14: deleting an existing category `c` deletes no template: the list of
template ids is the same as before, every template that referenced `c` has
`category_id = NULL` and is otherwise unchanged, and every other template is
unchanged. -/
theorem deleteCategory_templates (store : Store) (id : Str)
    (hc : ∃ c ∈ store.categories, c.id = id) :
    (deleteCategory store id).1 = Reply.json 200 () ∧
      (deleteCategory store id).2.templates.map (fun t => t.id)
        = store.templates.map (fun t => t.id) ∧
      (∀ (i : Nat) (t : Template), store.templates[i]? = some t →
        (deleteCategory store id).2.templates[i]?
          = some (if t.category_id = some id then { t with category_id := none } else t)) ∧
      (∀ c ∈ (deleteCategory store id).2.categories, c.id ≠ id) := by
  obtain ⟨c, hc, hcid⟩ := hc
  have hlen : ¬ (store.categories.filter fun c => decide (c.id = id)).length = 0 := by
    intro h
    have hm : c ∈ store.categories.filter fun c => decide (c.id = id) :=
      List.mem_filter.2 ⟨hc, by simpa using hcid⟩
    rw [List.length_eq_zero] at h
    rw [h] at hm
    cases hm
  have hval : deleteCategory store id
      = (Reply.json 200 (),
          { store with
            templates := store.templates.map fun t =>
              if t.category_id = some id then { t with category_id := none } else t
            categories := store.categories.filter fun c => c.id ≠ id }) := by
    unfold deleteCategory
    simp only [hlen, if_false]
  rw [hval]
  refine ⟨rfl, ?_, ?_, ?_⟩
  · simp only [List.map_map]
    apply List.map_congr_left
    intro t _
    by_cases h : t.category_id = some id <;> simp [h]
  · intro i t ht
    simp only [List.getElem?_map, ht, Option.map_some']
  · intro c hc2
    have := (List.mem_filter.1 hc2).2
    simpa using this

/-- C14 on the example store: after deleting `c1` both templates are still
there and `Sale`, which was in `c1`, has no category. -/
theorem deleteCategory_templates_witness :
    (∃ c ∈ exampleStore.categories, c.id = "c1".toList) ∧
      (deleteCategory exampleStore "c1".toList).2.templates.map (fun t => t.id)
        = ["t1".toList, "t2".toList] ∧
      (deleteCategory exampleStore "c1".toList).2.templates
        = [{ exampleTemplate with category_id := none }, otherTemplate] :=
  ⟨⟨_, List.mem_cons_self _ _, rfl⟩,
    ((deleteCategory_templates exampleStore "c1".toList
      ⟨_, List.mem_cons_self _ _, rfl⟩).2.1).trans (by decide),
    by decide⟩

/-- C15, failing input: on the example store the tags `A` and `B` are under
the category `c1`; `delete(c1)` replies with status 200, removes the
category and leaves both tags in the table, still with `category_id = c1`. -/
theorem deleteCategory_keeps_tags :
    (deleteCategory exampleStore "c1".toList).1 = Reply.json 200 () ∧
      (deleteCategory exampleStore "c1".toList).2.categories = [] ∧
      (deleteCategory exampleStore "c1".toList).2.tags = exampleStore.tags ∧
      (∀ t ∈ (deleteCategory exampleStore "c1".toList).2.tags,
        t.category_id = some "c1".toList) :=
  ⟨by decide, by decide, by decide, by decide⟩

/-- C16: a tag-create request without a truthy `category_id` (absent, `null`
or empty) gets status 400 whatever its other fields are; one whose
`category_id` names no category gets status 404; in both cases the store is
unchanged. -/
theorem createTag_errors (store : Store) (req : TagRequest) (uuid : Str) (now : Nat) :
    (truthy req.category_id = false →
        createTag store req uuid now = (Reply.fail 400, store)) ∧
      (∀ c : Str, req.category_id = some c → truthy (some c) = true →
        (∀ k ∈ store.categories, k.id ≠ c) →
        createTag store req uuid now = (Reply.fail 404, store)) := by
  constructor
  · intro h
    unfold createTag
    cases hc : req.category_id with
    | none => rfl
    | some c =>
      rw [hc] at h
      simp [h]
  · intro c hc ht hno
    unfold createTag
    have hf : store.categories.find? (fun k => decide (k.id = c)) = none := by
      rw [List.find?_eq_none]
      intro k hk
      simpa using hno k hk
    simp only [hc, ht, Bool.not_true, Bool.false_eq_true, if_false, hf]

/-- C16 on the example store: no `category_id` gives 400, the unknown
category `zz` gives 404. -/
theorem createTag_errors_witness :
    truthy (none : Option Str) = false ∧
      createTag exampleStore ⟨some "Promo2".toList, none, none, none⟩ "u1".toList 3
        = (Reply.fail 400, exampleStore) ∧
      (∀ k ∈ exampleStore.categories, k.id ≠ "zz".toList) ∧
      createTag exampleStore ⟨some "Promo2".toList, none, none, some "zz".toList⟩ "u1".toList 3
        = (Reply.fail 404, exampleStore) :=
  ⟨rfl,
    (createTag_errors exampleStore ⟨some "Promo2".toList, none, none, none⟩ "u1".toList 3).1 rfl,
    by decide,
    (createTag_errors exampleStore ⟨some "Promo2".toList, none, none, some "zz".toList⟩
      "u1".toList 3).2 "zz".toList rfl (by decide) (by decide)⟩

/-- C17: for every `category_id` value `c` and list `orders`, after tag
reorder every tag whose `category_id` is not `c` is the same row as before,
at the same place, also when its id appears in `orders`; no tag is added or
removed and the other tables are unchanged; and the reply is success when
`c` is a category id, that is a non-empty string. -/
theorem reorderTags_frame (store : Store) (c : Str) (orders : List (Str × Int)) :
    (c ≠ [] → (reorderTags store (some c) (some orders)).1 = Reply.json 200 ()) ∧
      (reorderTags store (some c) (some orders)).2.tags.length = store.tags.length ∧
      (∀ (i : Nat) (t : Tag), store.tags[i]? = some t → t.category_id ≠ some c →
        (reorderTags store (some c) (some orders)).2.tags[i]? = some t) ∧
      (reorderTags store (some c) (some orders)).2.templates = store.templates ∧
      (reorderTags store (some c) (some orders)).2.categories = store.categories ∧
      (reorderTags store (some c) (some orders)).2.template_tags = store.template_tags := by
  by_cases hc : c = []
  · have hval : reorderTags store (some c) (some orders) = (Reply.fail 400, store) := by
      subst hc
      rfl
    rw [hval]
    exact ⟨fun h => absurd hc h, rfl, fun i t h1 _ => h1, rfl, rfl, rfl⟩
  · have ht : truthy (some c) = true := by
      cases c with
      | nil => exact absurd rfl hc
      | cons a l => rfl
    have hval : reorderTags store (some c) (some orders)
        = (Reply.json 200 (),
            { store with
              tags := orders.foldl (fun tags e => setTagOrder tags c e.1 e.2) store.tags }) := by
      unfold reorderTags
      simp only [ht, if_true]
    rw [hval]
    exact ⟨fun _ => rfl, length_foldl_setTagOrder c orders store.tags,
      fun i t h1 h2 => getElem_foldl_setTagOrder c orders store.tags i t h1 h2, rfl, rfl, rfl⟩

/-- C17 on the example store, whose tags are under `c1`: a reorder for the
category `c2` that names the tag `A` replies with success and leaves the tag
`A` as it is. -/
theorem reorderTags_frame_witness :
    "c2".toList ≠ [] ∧
      (reorderTags exampleStore (some "c2".toList) (some [("A".toList, 9)])).1
        = Reply.json 200 () ∧
      exampleStore.tags[0]?
        = some ⟨"A".toList, "Promo".toList, "#111111".toList, none, some "c1".toList, 1, 0⟩ ∧
      (reorderTags exampleStore (some "c2".toList) (some [("A".toList, 9)])).2.tags[0]?
        = some ⟨"A".toList, "Promo".toList, "#111111".toList, none, some "c1".toList, 1, 0⟩ :=
  ⟨by decide,
    (reorderTags_frame exampleStore "c2".toList [("A".toList, 9)]).1 (by decide),
    by decide,
    (reorderTags_frame exampleStore "c2".toList [("A".toList, 9)]).2.2.1 0 _ (by decide)
      (by decide)⟩

/-- C18: when no write fails, category reorder replies with success and the
table of categories is the old one, row by row, where a category named in
`orders` has the `order_index` of the last entry that names it and every
other category is unchanged; so no category is created or removed, and an
entry that names no category has no effect. -/
theorem reorderCategories_spec (writeFails : Nat → Bool) (store : Store)
    (orders : List (Str × Int)) (hw : ∀ j, writeFails j = false) :
    (reorderCategories writeFails store (some orders)).1 = Reply.json 200 () ∧
      (reorderCategories writeFails store (some orders)).2.categories
        = store.categories.map (fun c =>
            match lastOrderFor orders c.id with
            | some v => { c with order_index := v }
            | none => c) ∧
      (reorderCategories writeFails store (some orders)).2.templates = store.templates ∧
      (reorderCategories writeFails store (some orders)).2.tags = store.tags ∧
      (reorderCategories writeFails store (some orders)).2.template_tags
        = store.template_tags := by
  have hval : reorderCategories writeFails store (some orders)
      = (Reply.json 200 (),
          { store with
            categories := runCategoryOrders writeFails 0 store.categories orders }) := by
    unfold reorderCategories
    simp only [any_range_false writeFails hw, Bool.false_eq_true, if_false]
  rw [hval]
  exact ⟨rfl, runCategoryOrders_eq writeFails hw orders 0 store.categories, rfl, rfl, rfl⟩

/-- C18 on the example store: of two entries for `c1` the last one wins, and
the entry for the unknown `zz` changes nothing. -/
theorem reorderCategories_spec_witness :
    (∀ j : Nat, (fun _ : Nat => false) j = false) ∧
      (reorderCategories (fun _ => false) exampleStore
        (some [("c1".toList, 5), ("zz".toList, 3), ("c1".toList, 7)])).2.categories
        = [⟨"c1".toList, "Marketing".toList, none, some "#6366f1".toList, none, 7, 0⟩] :=
  ⟨fun _ => rfl,
    ((reorderCategories_spec (fun _ => false) exampleStore
      [("c1".toList, 5), ("zz".toList, 3), ("c1".toList, 7)] (fun _ => rfl)).2.1).trans
      (by decide)⟩

/-- C19, failing input: on the example store the second of two writes fails;
the first write stays committed (`c1` has `order_index = 5`, not its old
value 1), and no reply reaches the caller. -/
theorem reorderCategories_not_atomic :
    (reorderCategories (fun i => i == 1) exampleStore
        (some [("c1".toList, 5), ("c1".toList, 7)])).1 = Reply.thrown ∧
      (reorderCategories (fun i => i == 1) exampleStore
        (some [("c1".toList, 5), ("c1".toList, 7)])).2.categories
        = [⟨"c1".toList, "Marketing".toList, none, some "#6366f1".toList, none, 5, 0⟩] ∧
      (reorderCategories (fun i => i == 1) exampleStore
        (some [("c1".toList, 5), ("c1".toList, 7)])).2 ≠ exampleStore :=
  ⟨by decide, by decide, by decide⟩

/-- C20: a send request with recipient and subject, while `EMAIL_USER` or
`EMAIL_PASS` is unset, gets the configuration error, with the store
unchanged and no effect at all (no read of the template, no call of the mail
transport, no write), whatever the template id; a request without recipient
or subject gets status 400 in the same way, whatever the configuration. -/
theorem send_guards (env : MailEnv) (transport : MailOptions → Except MailFailure MailInfo)
    (store : Store) (id : Str) (recipient subject : Option Str)
    (vars : Option (List (Str × Option Str))) (now : Nat) :
    (truthy recipient = true → truthy subject = true →
        (truthy env.EMAIL_USER = false ∨ truthy env.EMAIL_PASS = false) →
        send env transport store id recipient subject vars now
          = (some SendReply.notConfigured, store, [])) ∧
      ((truthy recipient = false ∨ truthy subject = false) →
        send env transport store id recipient subject vars now
          = (some SendReply.badRequest, store, [])) := by
  constructor
  · intro h1 h2 h3
    unfold send
    rcases h3 with h3 | h3 <;> simp [h1, h2, h3]
  · intro h
    unfold send
    rcases h with h | h <;> simp [h]

/-- C20 on the example store, with no credentials: the configuration error
for the stored template `t1` and for the unknown id `zz` alike. -/
theorem send_guards_witness :
    truthy (some "a@b.c".toList) = true ∧ truthy (some "Hello".toList) = true ∧
      (truthy (MailEnv.mk none none).EMAIL_USER = false ∨
        truthy (MailEnv.mk none none).EMAIL_PASS = false) ∧
      send ⟨none, none⟩ (fun _ => Except.ok ⟨"m1".toList, []⟩) exampleStore "t1".toList
        (some "a@b.c".toList) (some "Hello".toList) none 9
        = (some SendReply.notConfigured, exampleStore, []) ∧
      send ⟨none, none⟩ (fun _ => Except.ok ⟨"m1".toList, []⟩) exampleStore "zz".toList
        (some "a@b.c".toList) (some "Hello".toList) none 9
        = (some SendReply.notConfigured, exampleStore, []) :=
  ⟨rfl, rfl, Or.inl rfl,
    (send_guards ⟨none, none⟩ (fun _ => Except.ok ⟨"m1".toList, []⟩) exampleStore "t1".toList
      (some "a@b.c".toList) (some "Hello".toList) none 9).1 rfl rfl (Or.inl rfl),
    (send_guards ⟨none, none⟩ (fun _ => Except.ok ⟨"m1".toList, []⟩) exampleStore "zz".toList
      (some "a@b.c".toList) (some "Hello".toList) none 9).1 rfl rfl (Or.inl rfl)⟩


/-! ## The claims about template create and update -/

/-- C21, counterexample: a create request with the title `B` and the alias
`name` set to `A`, both non-empty, stores the title `A`: the alias wins. -/
theorem createTemplate_title_counterexample :
    aliasRequest.name = some "A".toList ∧ aliasRequest.title = some "B".toList ∧
      (createTemplate (fun h => h) (fun h => h) exampleStore aliasRequest "u1".toList 9).1.status
        = some 201 ∧
      (createTemplate (fun h => h) (fun h => h) exampleStore aliasRequest
        "u1".toList 9).2.templates.map (fun t => (t.id, t.title))
        = [("t1".toList, "Sale".toList), ("t2".toList, "News".toList),
           ("u1".toList, "A".toList)] := by
  decide

/-- C21, amended: after a successful create the stored title is the alias
`name`, trimmed, whenever `name` is supplied and not empty, whatever `title`
is (`name` wins); the supplied title, trimmed, is stored only when `name` is
absent or empty.  The new row is the one the reply shows, appended to the
table. -/
theorem createTemplate_title (purify sanitizeHTML : Str → Str) (store : Store)
    (body : TemplateRequest) (uuid : Str) (now : Nat) (row : TemplateRow) (store' : Store)
    (h : createTemplate purify sanitizeHTML store body uuid now = (Reply.json 201 row, store')) :
    row.t.title
        = trim (if (body.name.getD []).isEmpty then body.title.getD [] else body.name.getD []) ∧
      store'.templates = store.templates ++ [row.t] ∧ row.t.id = uuid := by
  unfold createTemplate at h
  cases hv : validateCreate purify body with
  | none => rw [hv] at h; simp at h
  | some req =>
    rw [hv] at h
    obtain ⟨hname, hne, _, hdesc, _⟩ := validateCreate_some purify body req hv
    simp only [hname, jsOr_some_of_ne_nil _ _ hne] at h
    cases hd : req.description with
    | none => rw [hd] at h; simp at h
    | some d =>
      rw [hd] at h
      simp only at h
      split at h
      · simp at h
      · simp only [Prod.mk.injEq, Reply.json.injEq, true_and] at h
        obtain ⟨h1, h2⟩ := h
        subst h2
        subst h1
        simp only [selectTemplateRow_t, and_self]

/-- C21 on the example store: the request with `name` `A` and `title` `B`
succeeds and the row it stores has the title `A`. -/
theorem createTemplate_title_witness :
    createTemplate (fun h => h) (fun h => h) exampleStore aliasRequest "u1".toList 9
        = (Reply.json 201
            ⟨⟨"u1".toList, "A".toList, "d".toList, "<p>x</p>".toList, some "A".toList, none, 9, 9⟩,
              none, none, none⟩,
            (createTemplate (fun h => h) (fun h => h) exampleStore aliasRequest "u1".toList 9).2) ∧
      "A".toList
        = trim (if (aliasRequest.name.getD []).isEmpty then aliasRequest.title.getD []
            else aliasRequest.name.getD []) :=
  ⟨by decide,
    (createTemplate_title (fun h => h) (fun h => h) exampleStore aliasRequest "u1".toList 9
      ⟨⟨"u1".toList, "A".toList, "d".toList, "<p>x</p>".toList, some "A".toList, none, 9, 9⟩,
        none, none, none⟩
      (createTemplate (fun h => h) (fun h => h) exampleStore aliasRequest "u1".toList 9).2
      (by decide)).1⟩

/-- C22, on the code: the template `t3` is in the category `c1`; an update
that sends title, description and body and omits `category_id` succeeds and
leaves the template without category.  An update that omits the description
as well is answered with status 500 and writes nothing. -/
theorem updateTemplate_omitted_category :
    (getTemplate subjectStore "t3".toList).map (·.category_id) = some (some "c1".toList) ∧
      saleUpdate.category_id = none ∧
      (updateTemplate (fun h => h) (fun h => h) subjectStore "t3".toList saleUpdate 9).1.status
        = some 200 ∧
      (getTemplate
          (updateTemplate (fun h => h) (fun h => h) subjectStore "t3".toList saleUpdate 9).2
          "t3".toList).map (·.category_id) = some none ∧
      updateTemplate (fun h => h) (fun h => h) subjectStore "t3".toList
          { saleUpdate with description := none } 9 = (Reply.fail 500, subjectStore) := by
  decide

/-- C23, counterexample: the template `t3` has the title `Sale` and the
stored subject `Big sale today`; an update with the same title and without
`email_subject` stores the subject `Sale`. -/
theorem updateTemplate_subject_counterexample :
    (getTemplate subjectStore "t3".toList).map (fun t => (t.title, t.email_subject))
        = some ("Sale".toList, some "Big sale today".toList) ∧
      saleUpdate.title = some "Sale".toList ∧ saleUpdate.email_subject = none ∧
      (updateTemplate (fun h => h) (fun h => h) subjectStore "t3".toList
          { saleUpdate with category_id := some "c1".toList } 9).1.status = some 200 ∧
      (getTemplate
          (updateTemplate (fun h => h) (fun h => h) subjectStore "t3".toList
            { saleUpdate with category_id := some "c1".toList } 9).2
          "t3".toList).map (fun t => (t.title, t.email_subject))
        = some ("Sale".toList, some "Sale".toList) := by
  decide

/-- C23, amended: after a successful update the stored subject of the
template is the `email_subject` of the request, trimmed, when that is
supplied and not blank; in every other case it is the title that the update
stores, whatever the subject was before and whether or not the title
changes. -/
theorem updateTemplate_subject (purify sanitizeHTML : Str → Str) (store : Store) (id : Str)
    (body : TemplateRequest) (now : Nat) (row : TemplateRow) (store' : Store)
    (h : updateTemplate purify sanitizeHTML store id body now = (Reply.json 200 row, store')) :
    ∀ t ∈ store'.templates, t.id = id →
      t.email_subject
        = if truthy (body.email_subject.map trim) then body.email_subject.map trim
          else some t.title := by
  unfold updateTemplate at h
  cases hv : validateUpdate purify body with
  | none => rw [hv] at h; simp at h
  | some req =>
    rw [hv] at h
    have hsub : req.email_subject = body.email_subject.map trim := by
      simp only [validateUpdate] at hv
      rw [Option.ite_none_right_eq_some] at hv
      obtain ⟨_, hreq⟩ := hv
      cases hreq
      rfl
    simp only at h
    cases hold : getTemplate store id with
    | none => rw [hold] at h; simp at h
    | some old =>
      rw [hold] at h
      simp only at h
      split at h
      · rename_i title description html htitle hdesc hhtml
        simp only [Prod.mk.injEq, Reply.json.injEq, true_and] at h
        obtain ⟨_, h2⟩ := h
        subst h2
        intro t ht hid
        simp only [List.mem_map] at ht
        obtain ⟨t0, _, hw⟩ := ht
        by_cases h0 : t0.id = id
        · rw [if_pos h0] at hw
          subst hw
          simp only [htitle, hsub, jsOr]
        · rw [if_neg h0] at hw
          subst hw
          exact absurd hid h0
      · simp at h

/-- C23 on the example: the update of `t3` without `email_subject` succeeds
and the row it leaves has the subject `Sale`, the title. -/
theorem updateTemplate_subject_witness :
    updateTemplate (fun h => h) (fun h => h) subjectStore "t3".toList
        { saleUpdate with category_id := some "c1".toList } 9
        = (Reply.json 200
            ⟨⟨"t3".toList, "Sale".toList, "Summer".toList, "<p>Sale</p>".toList,
                some "Sale".toList, some "c1".toList, 3, 9⟩,
              some "Marketing".toList, some "#6366f1".toList, none⟩,
            (updateTemplate (fun h => h) (fun h => h) subjectStore "t3".toList
              { saleUpdate with category_id := some "c1".toList } 9).2) ∧
      (⟨"t3".toList, "Sale".toList, "Summer".toList, "<p>Sale</p>".toList,
          some "Sale".toList, some "c1".toList, 3, 9⟩ : Template).email_subject
        = some "Sale".toList :=
  ⟨by decide,
    (updateTemplate_subject (fun h => h) (fun h => h) subjectStore "t3".toList
      { saleUpdate with category_id := some "c1".toList } 9
      ⟨⟨"t3".toList, "Sale".toList, "Summer".toList, "<p>Sale</p>".toList,
          some "Sale".toList, some "c1".toList, 3, 9⟩,
        some "Marketing".toList, some "#6366f1".toList, none⟩
      (updateTemplate (fun h => h) (fun h => h) subjectStore "t3".toList
        { saleUpdate with category_id := some "c1".toList } 9).2
      (by decide)
      ⟨"t3".toList, "Sale".toList, "Summer".toList, "<p>Sale</p>".toList,
        some "Sale".toList, some "c1".toList, 3, 9⟩
      (by decide) (by decide)).trans (by decide)⟩

/-! ## The claim about roles -/

/-- C24, counterexample: the token `good` verifies for a user whose role is
`viewer`, not `admin`; the create route accepts the request, replies 201 and
the store has a new template. -/
theorem route_role_counterexample :
    authenticateToken exampleVerify (some "Bearer good".toList)
        = Middleware.next ⟨"u7".toList, "ana".toList, "viewer".toList⟩ ∧
      "viewer".toList ≠ "admin".toList ∧
      (routeCreateTemplate exampleVerify (some "Bearer good".toList) 0 (fun h => h) (fun h => h)
        exampleStore aliasRequest "u1".toList 9).1
        = Middleware.next (Reply.json 201
            ⟨⟨"u1".toList, "A".toList, "d".toList, "<p>x</p>".toList, some "A".toList, none, 9, 9⟩,
              none, none, none⟩) ∧
      (routeCreateTemplate exampleVerify (some "Bearer good".toList) 0 (fun h => h) (fun h => h)
        exampleStore aliasRequest "u1".toList 9).2 ≠ exampleStore := by
  decide

/-- C24, amended: the mutation endpoints check that the credential verifies
and do not look at its role.  For every request whose credential verifies,
for a user of any role, each of these endpoints gives the reply of its
handler and leaves the store that its handler leaves: create, update and
delete of templates, create and delete of categories, create and delete of
tags, category and tag reorder, setTags, bulk category assignment and
send.  The create endpoints of templates and categories run their rate
limiter first: when the address has already sent 30 requests to the limiter
within 15 minutes the reply is 429 and the store is unchanged. -/
theorem route_ignores_role (verify : Str → Option TokenUser) (authorization : Option Str)
    (user : TokenUser) (h : authenticateToken verify authorization = Middleware.next user) :
    (∀ hits purify sanitizeHTML store body uuid now,
        routeCreateTemplate verify authorization hits purify sanitizeHTML store body uuid now
          = if hits < 30 then
              (Middleware.next (createTemplate purify sanitizeHTML store body uuid now).1,
                (createTemplate purify sanitizeHTML store body uuid now).2)
            else (Middleware.reply 429, store)) ∧
      (∀ purify sanitizeHTML store id body now,
        routeUpdateTemplate verify authorization purify sanitizeHTML store id body now
          = (Middleware.next (updateTemplate purify sanitizeHTML store id body now).1,
              (updateTemplate purify sanitizeHTML store id body now).2)) ∧
      (∀ store id,
        routeDeleteTemplate verify authorization store id
          = (Middleware.next (deleteTemplate store id).1, (deleteTemplate store id).2)) ∧
      (∀ hits store body uuid now,
        routeCreateCategory verify authorization hits store body uuid now
          = if hits < 30 then
              (Middleware.next (createCategory store body uuid now).1,
                (createCategory store body uuid now).2)
            else (Middleware.reply 429, store)) ∧
      (∀ store id,
        routeDeleteCategory verify authorization store id
          = (Middleware.next (deleteCategory store id).1, (deleteCategory store id).2)) ∧
      (∀ writeFails store orders,
        routeReorderCategories verify authorization writeFails store orders
          = (Middleware.next (reorderCategories writeFails store orders).1,
              (reorderCategories writeFails store orders).2)) ∧
      (∀ store templateIds categoryId now,
        routeAssignCategory verify authorization store templateIds categoryId now
          = (Middleware.next (assignCategory store templateIds categoryId now).1,
              (assignCategory store templateIds categoryId now).2)) ∧
      (∀ store body uuid now,
        routeCreateTag verify authorization store body uuid now
          = (Middleware.next (createTag store body uuid now).1,
              (createTag store body uuid now).2)) ∧
      (∀ store id,
        routeDeleteTag verify authorization store id
          = (Middleware.next (deleteTag store id).1, (deleteTag store id).2)) ∧
      (∀ store category_id orders,
        routeReorderTags verify authorization store category_id orders
          = (Middleware.next (reorderTags store category_id orders).1,
              (reorderTags store category_id orders).2)) ∧
      (∀ store id tagIds,
        routeSetTags verify authorization store id tagIds
          = (Middleware.next (setTags store id tagIds).1, (setTags store id tagIds).2)) ∧
      (∀ env transport store id recipient subject vars now,
        routeSend verify authorization env transport store id recipient subject vars now
          = (Middleware.next
              ((send env transport store id recipient subject vars now).1,
                (send env transport store id recipient subject vars now).2.2),
              (send env transport store id recipient subject vars now).2.1)) := by
  refine ⟨?_, ?_, ?_, ?_, ?_, ?_, ?_, ?_, ?_, ?_, ?_, ?_⟩
  · intro hits purify sanitizeHTML store body uuid now
    by_cases hh : hits < 30
    · have h30 : ¬ hits + 1 > 30 := by omega
      simp only [routeCreateTemplate, limitedRoute, h, createLimiter, if_neg h30, if_pos hh]
    · have h30 : hits + 1 > 30 := by omega
      simp only [routeCreateTemplate, limitedRoute, h, createLimiter, if_pos h30, if_neg hh]
  · intros; simp only [routeUpdateTemplate, route, h]
  · intros; simp only [routeDeleteTemplate, route, h]
  · intro hits store body uuid now
    by_cases hh : hits < 30
    · have h30 : ¬ hits + 1 > 30 := by omega
      simp only [routeCreateCategory, limitedRoute, h, createLimiter, if_neg h30, if_pos hh]
    · have h30 : hits + 1 > 30 := by omega
      simp only [routeCreateCategory, limitedRoute, h, createLimiter, if_pos h30, if_neg hh]
  · intros; simp only [routeDeleteCategory, route, h]
  · intros; simp only [routeReorderCategories, route, h]
  · intros; simp only [routeAssignCategory, route, h]
  · intros; simp only [routeCreateTag, route, h]
  · intros; simp only [routeDeleteTag, route, h]
  · intros; simp only [routeReorderTags, route, h]
  · intros; simp only [routeSetTags, route, h]
  · intros; simp only [routeSend, route, h]

/-- C24 on the example: with the token of the user whose role is `viewer`
the tag-create route gives what the handler gives. -/
theorem route_ignores_role_witness :
    authenticateToken exampleVerify (some "Bearer good".toList)
        = Middleware.next ⟨"u7".toList, "ana".toList, "viewer".toList⟩ ∧
      routeCreateTag exampleVerify (some "Bearer good".toList) exampleStore
          ⟨some "Promo2".toList, none, none, some "c1".toList⟩ "u1".toList 3
        = (Middleware.next (createTag exampleStore
              ⟨some "Promo2".toList, none, none, some "c1".toList⟩ "u1".toList 3).1,
            (createTag exampleStore
              ⟨some "Promo2".toList, none, none, some "c1".toList⟩ "u1".toList 3).2) :=
  ⟨by decide,
    (route_ignores_role exampleVerify (some "Bearer good".toList)
      ⟨"u7".toList, "ana".toList, "viewer".toList⟩ (by decide)).2.2.2.2.2.2.2.1 exampleStore
      ⟨some "Promo2".toList, none, none, some "c1".toList⟩ "u1".toList 3⟩

/-! ## The claims about `order_index` on create -/

/-- C25, counterexample: the only category has `order_index` `2 ^ 53`, an
integer; the new category gets `2 ^ 53` again, which is neither the maximum
plus one nor greater than the `order_index` of the other category. -/
theorem createCategory_order_counterexample :
    bigStore.categories.map (·.order_index) = [9007199254740992] ∧
      (createCategory bigStore ⟨some "Sales".toList, none, none, none⟩ "u9".toList 4).1
        = Reply.json 201
            ⟨"cat-u9".toList, "Sales".toList, none, some "#6366f1".toList, none,
              9007199254740992, 4⟩ ∧
      (createCategory bigStore ⟨some "Sales".toList, none, none, none⟩
        "u9".toList 4).2.categories.map (·.order_index)
        = [9007199254740992, 9007199254740992] := by
  decide

/-- C25, amended: for a store whose `order_index` values are integers below
`2 ^ 53` in absolute value, a successful category create appends a row whose
`order_index` is one more than the maximum `order_index` of the categories
before the call, and 1 when there was none; the new row therefore comes
strictly after every other category and is the last row of the list of
categories. -/
theorem createCategory_order (store : Store) (body : CategoryRequest) (uuid : Str) (now : Nat)
    (row : Category) (store' : Store)
    (hexact : ∀ k ∈ store.categories, k.order_index.natAbs < 2 ^ 53)
    (h : createCategory store body uuid now = (Reply.json 201 row, store')) :
    store'.categories = store.categories ++ [row] ∧
      (store.categories = [] → row.order_index = 1) ∧
      (store.categories ≠ [] →
        ∃ c ∈ store.categories, row.order_index = c.order_index + 1 ∧
          ∀ k ∈ store.categories, k.order_index ≤ c.order_index) ∧
      (∀ k ∈ store.categories, k.order_index < row.order_index) ∧
      listCategories store' = listCategories store ++ [row] := by
  unfold createCategory at h
  cases hv : validateCategory body with
  | none => rw [hv] at h; simp at h
  | some req =>
    rw [hv] at h
    simp only at h
    split at h
    · simp at h
    · simp only [Prod.mk.injEq, Reply.json.injEq, true_and] at h
      obtain ⟨h1, h2⟩ := h
      have hcats : store'.categories = store.categories ++ [row] := by
        rw [← h2, ← h1]
      have hidx : row.order_index = nextOrderAfter (maxCategoryOrder store.categories) := by
        rw [← h1]
      have hmaxspec : ∀ m, maxCategoryOrder store.categories = some m →
          (∃ c ∈ store.categories, c.order_index = m) ∧
            (∀ k ∈ store.categories, k.order_index ≤ m) ∧ row.order_index = m + 1 := by
        intro m hm
        obtain ⟨hmem, hmax⟩ := int_max_spec _ m hm
        rw [List.mem_map] at hmem
        obtain ⟨c, hc, hcm⟩ := hmem
        refine ⟨⟨c, hc, hcm⟩, fun k hk => hmax _ (List.mem_map_of_mem _ hk), ?_⟩
        rw [hidx, hm]
        apply nextOrderAfter_some
        rw [← hcm]
        exact hexact c hc
      have hlt : ∀ k ∈ store.categories, k.order_index < row.order_index := by
        intro k hk
        cases hm : maxCategoryOrder store.categories with
        | none =>
          unfold maxCategoryOrder at hm
          rw [List.max?_eq_none_iff, List.map_eq_nil_iff] at hm
          rw [hm] at hk
          simp at hk
        | some m =>
          obtain ⟨_, hle, hrow⟩ := hmaxspec m hm
          have := hle k hk
          omega
      refine ⟨hcats, ?_, ?_, hlt, ?_⟩
      · intro hnil
        rw [hidx, hnil]
        exact nextOrderAfter_none
      · intro hne
        cases hm : maxCategoryOrder store.categories with
        | none =>
          unfold maxCategoryOrder at hm
          rw [List.max?_eq_none_iff, List.map_eq_nil_iff] at hm
          exact absurd hm hne
        | some m =>
          obtain ⟨⟨c, hc, hcm⟩, hle, hrow⟩ := hmaxspec m hm
          refine ⟨c, hc, by rw [hrow, hcm], ?_⟩
          intro k hk
          rw [hcm]
          exact hle k hk
      · unfold listCategories
        rw [hcats]
        apply insertionSort_append_last
        intro b hb
        exact le_of_lt (hlt b hb)

/-- C25 on the example store, whose only category has `order_index` 1: the
new category gets 2 and is listed last. -/
theorem createCategory_order_witness :
    (∀ k ∈ exampleStore.categories, k.order_index.natAbs < 2 ^ 53) ∧
      createCategory exampleStore ⟨some "Sales".toList, none, none, none⟩ "u9".toList 4
        = (Reply.json 201
            ⟨"cat-u9".toList, "Sales".toList, none, some "#6366f1".toList, none, 2, 4⟩,
            (createCategory exampleStore ⟨some "Sales".toList, none, none, none⟩
              "u9".toList 4).2) ∧
      listCategories
          (createCategory exampleStore ⟨some "Sales".toList, none, none, none⟩ "u9".toList 4).2
        = listCategories exampleStore
            ++ [⟨"cat-u9".toList, "Sales".toList, none, some "#6366f1".toList, none, 2, 4⟩] :=
  ⟨by decide, by decide,
    (createCategory_order exampleStore ⟨some "Sales".toList, none, none, none⟩ "u9".toList 4
      ⟨"cat-u9".toList, "Sales".toList, none, some "#6366f1".toList, none, 2, 4⟩
      (createCategory exampleStore ⟨some "Sales".toList, none, none, none⟩ "u9".toList 4).2
      (by decide) (by decide)).2.2.2.2⟩

/-- C26, counterexample: in the category `c1` the tag `B` has `order_index`
`2 ^ 53`; the new tag gets `2 ^ 53` again, not one more than the maximum. -/
theorem createTag_order_counterexample :
    bigStore.tags.map (fun t => (t.category_id, t.order_index))
        = [(some "c1".toList, 1), (some "c1".toList, 9007199254740992)] ∧
      (createTag bigStore ⟨some "Promo2".toList, none, none, some "c1".toList⟩
        "u1".toList 3).1
        = Reply.json 201
            ⟨"tag-u1".toList, "Promo2".toList, "#9ca3af".toList, none, some "c1".toList,
              9007199254740992, 3⟩ := by
  decide

/-- C26, amended: when the tags whose `category_id` is `c` have `order_index`
values below `2 ^ 53` in absolute value, a successful tag create in the
category `c` gives the new tag `order_index` 1 when no tag has `category_id`
`c`, and else one more than the maximum `order_index` among the tags whose
`category_id` is `c`.  A store with other tags outside `c` and the same tags
in `c` gives the same `order_index`. -/
theorem createTag_order (store : Store) (req : TagRequest) (uuid : Str) (now : Nat)
    (row : Tag) (store' : Store)
    (hexact : ∀ t ∈ store.tags, t.category_id = req.category_id →
      t.order_index.natAbs < 2 ^ 53)
    (h : createTag store req uuid now = (Reply.json 201 row, store')) :
    ∃ c, req.category_id = some c ∧ row.category_id = some c ∧
      (∃ k ∈ store.categories, k.id = c) ∧
      ((∀ t ∈ store.tags, t.category_id ≠ some c) → row.order_index = 1) ∧
      ((∃ t ∈ store.tags, t.category_id = some c) →
        ∃ t ∈ store.tags, t.category_id = some c ∧ row.order_index = t.order_index + 1 ∧
          ∀ u ∈ store.tags, u.category_id = some c → u.order_index ≤ t.order_index) ∧
      (∀ (tags2 : List Tag) (row2 : Tag) (store2 : Store),
        tags2.filter (fun t => t.category_id = some c)
          = store.tags.filter (fun t => t.category_id = some c) →
        createTag { store with tags := tags2 } req uuid now = (Reply.json 201 row2, store2) →
        row2.order_index = row.order_index) := by
  obtain ⟨c, hc, hrc, hk, hidx⟩ := createTag_order_eq store req uuid now row store' h
  refine ⟨c, hc, hrc, hk, ?_, ?_, ?_⟩
  · intro hnone
    have hf : store.tags.filter (fun t => t.category_id = some c) = [] := by
      rw [List.filter_eq_nil_iff]
      intro t ht
      simpa using hnone t ht
    rw [hidx]
    unfold maxTagOrder
    rw [hf]
    exact nextOrderAfter_none
  · rintro ⟨t0, ht0, hc0⟩
    cases hm : maxTagOrder store.tags c with
    | none =>
      unfold maxTagOrder at hm
      rw [List.max?_eq_none_iff, List.map_eq_nil_iff, List.filter_eq_nil_iff] at hm
      have := hm t0 ht0
      simp [hc0] at this
    | some m =>
      rw [hm] at hidx
      obtain ⟨hmem, hmax⟩ := int_max_spec _ m hm
      rw [List.mem_map] at hmem
      obtain ⟨t, ht, htm⟩ := hmem
      rw [List.mem_filter] at ht
      have htc : t.category_id = some c := by simpa using ht.2
      have hsmall : m.natAbs < 2 ^ 53 := by
        rw [← htm]
        exact hexact t ht.1 (htc.trans hc.symm)
      refine ⟨t, ht.1, htc, by rw [hidx, htm, nextOrderAfter_some m hsmall], ?_⟩
      intro u hu huc
      rw [htm]
      apply hmax
      apply List.mem_map_of_mem
      rw [List.mem_filter]
      exact ⟨hu, by simpa using huc⟩
  · intro tags2 row2 store2 hsame h2
    obtain ⟨c2, hc2, _, _, hidx2⟩ :=
      createTag_order_eq { store with tags := tags2 } req uuid now row2 store2 h2
    rw [hc] at hc2
    cases hc2
    rw [hidx, hidx2]
    unfold maxTagOrder
    rw [hsame]

/-- C26 on the example store, whose category `c1` has tags with
`order_index` 1 and 2: the new tag gets 3, one more than that of `B`. -/
theorem createTag_order_witness :
    (∀ t ∈ exampleStore.tags, t.category_id = some "c1".toList →
        t.order_index.natAbs < 2 ^ 53) ∧
      createTag exampleStore ⟨some "Promo2".toList, none, none, some "c1".toList⟩ "u1".toList 3
        = (Reply.json 201
            ⟨"tag-u1".toList, "Promo2".toList, "#9ca3af".toList, none, some "c1".toList, 3, 3⟩,
            (createTag exampleStore ⟨some "Promo2".toList, none, none, some "c1".toList⟩
              "u1".toList 3).2) ∧
      ∃ c, some "c1".toList = some c ∧ some "c1".toList = some c :=
  ⟨by decide, by decide,
    (createTag_order exampleStore ⟨some "Promo2".toList, none, none, some "c1".toList⟩
      "u1".toList 3
      ⟨"tag-u1".toList, "Promo2".toList, "#9ca3af".toList, none, some "c1".toList, 3, 3⟩
      (createTag exampleStore ⟨some "Promo2".toList, none, none, some "c1".toList⟩
        "u1".toList 3).2
      (by decide) (by decide)).imp fun _ hc => ⟨hc.1, hc.2.1⟩⟩

/-! ## The claim about the tags of a listed template -/

/-- C27, on the code: with the single tag `A`, named `Sales, EU`, on the
template `t1`, the entry of the list has the name `Sales`, which is the name
of no stored tag.  With the tags `A` (named `Zeta`, no icon) and `B` (named
`Alpha`, icon `star`) on `t1`, the list gives `A` before `B`, gives `A` the
icon `star` and gives `B` no icon. -/
theorem listTemplates_tags_misaligned :
    commaStore.tags.map (fun t => (t.id, t.name, t.icon))
        = [("A".toList, "Sales, EU".toList, none)] ∧
      (listTemplates commaStore none none).body.map (·.map fun r => (r.t.id, r.tags))
        = some [("t2".toList, []),
                ("t1".toList, [⟨"A".toList, some "Sales".toList, some "#111111".toList, none⟩])] ∧
      iconStore.tags.map (fun t => (t.id, t.name, t.icon))
        = [("A".toList, "Zeta".toList, none),
           ("B".toList, "Alpha".toList, some "star".toList)] ∧
      (listTemplates iconStore none none).body.map (·.map fun r => (r.t.id, r.tags))
        = some [("t2".toList,
                  [⟨"B".toList, some "Alpha".toList, some "#222222".toList, some "star".toList⟩]),
                ("t1".toList,
                  [⟨"A".toList, some "Zeta".toList, some "#111111".toList, some "star".toList⟩,
                   ⟨"B".toList, some "Alpha".toList, some "#222222".toList, none⟩])] := by
  decide
/-- C28, on the code: an update whose title has 101 characters succeeds and
stores that title, and an update with the empty title stores the empty
title. -/
theorem updateTemplate_title_unbounded :
    (updateTemplate (fun h => h) (fun h => h) subjectStore "t3".toList
        { saleUpdate with title := some (List.replicate 101 'a') } 9).1.status = some 200 ∧
      (getTemplate
          (updateTemplate (fun h => h) (fun h => h) subjectStore "t3".toList
            { saleUpdate with title := some (List.replicate 101 'a') } 9).2
          "t3".toList).map (·.title.length) = some 101 ∧
      (updateTemplate (fun h => h) (fun h => h) subjectStore "t3".toList
        { saleUpdate with title := some [] } 9).1.status = some 200 ∧
      (getTemplate
          (updateTemplate (fun h => h) (fun h => h) subjectStore "t3".toList
            { saleUpdate with title := some [] } 9).2
          "t3".toList).map (·.title.length) = some 0 := by
  decide

/-! ## The claim about the normal form of the aliases -/

/-- C29: for every text `html`, `replaceVariables(html, {})` has a result,
the result contains no `{{$json.x}}` with `x` a non-empty identifier,
replacing again with no values gives the same text, and the variables
extracted from the result are those extracted from `html`, in the same
order. -/
theorem replaceVariables_normal_form (html : Str) :
    ∃ out, replaceVariables html [] = some out ∧
      (∀ x : Str, isIdentifier x = true → ¬ aliasPlaceholder x <:+: out) ∧
      replaceVariables out [] = some out ∧
      extractVariables out = extractVariables html := by
  have hno : ∀ x : Str, isIdentifier x = true → ¬ aliasPlaceholder x <:+: normalizeAlias html :=
    fun x hx => no_alias_normalizeAlias x hx html
  have hfix : normalizeAlias (normalizeAlias html) = normalizeAlias html :=
    normalizeAlias_of_no_alias _ hno
  refine ⟨normalizeAlias html, rfl, hno, ?_, ?_⟩
  · simp only [replaceVariables, replaceEntries, hfix]
  · unfold extractVariables
    rw [hfix]

/-- C29 at `Hi {{$json.name}}`: the result is `Hi {{name}}`, which has no
alias placeholder and is its own normal form. -/
theorem replaceVariables_normal_form_witness :
    replaceVariables "Hi \x7b\x7b$json.name\x7d\x7d".toList []
        = some "Hi \x7b\x7bname\x7d\x7d".toList ∧
      ∃ out, replaceVariables "Hi \x7b\x7b$json.name\x7d\x7d".toList [] = some out ∧
        (∀ x : Str, isIdentifier x = true → ¬ aliasPlaceholder x <:+: out) ∧
        replaceVariables out [] = some out ∧
        extractVariables out = extractVariables "Hi \x7b\x7b$json.name\x7d\x7d".toList :=
  ⟨by decide, replaceVariables_normal_form "Hi \x7b\x7b$json.name\x7d\x7d".toList⟩

/-! ## The claim about the filter of the client -/

/-- C30: let the client hold the templates of the store, each with its
`category_id` and the ids of all its tags.  For every selected category `c`,
the id of a category or `'all'`, and every list of selected tag ids,
`filterTemplates` keeps exactly the templates that
`GET /api/templates?category=c&tags=...` returns for the same data.  The ids
are those that the program gives: `'cat-'` or `'tag-'` followed by a value
of `uuidv4()`; none of them is `"null"` or `"all"`. -/
theorem filterTemplates_agrees (store : Store) (templates : List ListedTemplate)
    (c : Str) (ids : List Str)
    (hpk : store.templates.Pairwise (fun a b => a.id ≠ b.id))
    (hsame : ∀ t : Template, t ∈ templates.map (·.t) ↔ t ∈ store.templates)
    (hfull : ∀ y ∈ templates, ∀ g : Str,
      g ∈ y.tags.map (·.id) ↔ (⟨y.t.id, g⟩ : TemplateTag) ∈ store.template_tags)
    (hc : c = "all".toList ∨ isCategoryId c = true)
    (hids : ∀ g ∈ ids, isTagId g = true) :
    ∃ rows, listTemplates store (categoryParam c) (tagsParam ids) = Reply.json 200 rows ∧
      ∀ t : Template, t ∈ (filterTemplates templates c ids).map (·.t) ↔
        t ∈ rows.map (·.t) := by
  have hc2 : c ≠ "null".toList ∧ c ≠ [] := by
    rcases hc with rfl | hc
    · exact ⟨by decide, by decide⟩
    · exact ⟨(isCategoryId_spec hc).2, (isCategoryId_spec hc).1⟩
  exact filterTemplates_agrees_general store templates c ids hpk hsame hfull hc2.1 hc2.2
    (fun g hg => isTagId_spec (hids g hg))

/-- C30 on the example with generated ids, the category and the tag `A`
selected: the client keeps the template `t1`, as the server does. -/
theorem filterTemplates_agrees_witness :
    (filterTemplates uuidTemplates idOfCategory [idOfTagA]).map (·.t.id) = ["t1".toList] ∧
      ∃ rows, listTemplates uuidStore (categoryParam idOfCategory) (tagsParam [idOfTagA])
          = Reply.json 200 rows ∧
        ∀ t : Template,
          t ∈ (filterTemplates uuidTemplates idOfCategory [idOfTagA]).map (·.t) ↔
            t ∈ rows.map (·.t) :=
  ⟨by decide,
    filterTemplates_agrees uuidStore uuidTemplates idOfCategory [idOfTagA]
      (by decide)
      (by
        intro t
        simp only [uuidTemplates, uuidStore, List.map_cons, List.map_nil, List.mem_cons,
          List.mem_singleton, List.not_mem_nil, or_false]
        exact or_comm)
      (by
        intro y hy g
        simp only [uuidTemplates, List.mem_cons, List.mem_singleton, List.not_mem_nil,
          or_false] at hy
        rcases hy with rfl | rfl
        · simp [uuidStore, otherTemplate]
        · simp [uuidStore, exampleTemplate])
      (Or.inr (by decide)) (by decide)⟩

end Plantillas
